import Mathlib

/-!
# Expression compiler front-end (`src/code.cpp`): lexer, parser, evaluator, emitter

A shallow embedding of the C++ program.

* `std::string` is `String` (token texts, names, messages, emitted code); the
  lexer's input buffer is the character list of the input string and the
  cursor `pos` indexes into it.
* A C++ function that can throw returns `Except Exn _`; the state it mutates
  (lexer cursor, parser lookahead, the global `variables` map) is passed in
  and returned explicitly.
* `int` is a 32-bit two's complement integer: values are `Int`, and the
  results of `+`, `-`, `*` are reduced with `wrap32`.  Integer division by
  zero (and `INT_MIN / -1`) raises no C++ exception; the `idiv` instruction
  faults and the process is killed.  That outcome is `Outcome.trap`.
* `while` loops are recursive functions on a step budget.  Each lexer loop
  gets `input.length - pos` steps, with which it runs until its condition
  fails (`Lexer.skipWhitespaceLoop_spec`, `Lexer.numberLoop_spec`,
  `Lexer.identifierLoop_spec`); each parser loop gets one more than that and
  never uses it up (`Parser.parseTermLoop_budget`,
  `Parser.parseExprLoop_budget`, `Parser.parse_ne_budget`).
* The `std::cout` diagnostics are not part of the embedding.
-/

namespace Compiler

/-! ## Tokens and exceptions -/

/-- Token types (`enum class TokenType`). -/
inductive TokenType
  | NUMBER
  | PLUS
  | MINUS
  | MULTIPLY
  | DIVIDE
  | ASSIGN
  | IDENTIFIER
  | SQUARE
  | END
  deriving DecidableEq

/-- Token structure: `Token(TokenType t, std::string v = "")`. -/
structure Token where
  type : TokenType
  value : String := ""
  deriving DecidableEq

/-- C++ exceptions the program can throw, with their `what()` text.
`budget` is not a C++ exception: it marks a parser loop of the embedding that
was given too few steps, and is never produced by `parseTerm`, `parseExpr`
or `parse`. -/
inductive Exn
  | runtime_error (what : String)
  | out_of_range (what : String)
  | invalid_argument (what : String)
  | budget
  deriving DecidableEq

/-- Equality of results in `Except` is decidable when it is on both sides. -/
instance instDecidableEqExcept {ε α : Type} [DecidableEq ε] [DecidableEq α] :
    DecidableEq (Except ε α)
  | .ok a, .ok b => if h : a = b then isTrue (by rw [h]) else isFalse (by intro h1; cases h1; exact h rfl)
  | .error a, .error b =>
    if h : a = b then isTrue (by rw [h]) else isFalse (by intro h1; cases h1; exact h rfl)
  | .ok _, .error _ => isFalse (by intro h; cases h)
  | .error _, .ok _ => isFalse (by intro h; cases h)

/-! ## AST -/

/-- The five node classes derived from `ASTNode`. -/
inductive ASTNode
  | NumberNode (value : Int)
  | BinaryOpNode (op : Char) (left right : ASTNode)
  | SquareNode (operand : ASTNode)
  | AssignmentNode (name : String) (value : ASTNode)
  | VariableNode (name : String)
  deriving DecidableEq

/-- Reduction of an integer to the 32-bit two's complement range. -/
def wrap32 (x : Int) : Int := (x + 2147483648) % 4294967296 - 2147483648

/-- The global `std::map<std::string, int> variables`. -/
abbrev Store := String → Option Int

/-- The map with no entries. -/
def Store.empty : Store := fun _ => none

/-- Lookup `variables.find(name)`: `none` stands for `variables.end()`. -/
def Store.find (s : Store) (name : String) : Option Int := s name

/-- The update `variables[name] = val`. -/
def Store.assign (s : Store) (name : String) (val : Int) : Store :=
  fun k => if k = name then some val else s k

/-- What a call of `evaluate()` ends with: a returned `int`, a thrown
exception, or a hardware divide fault (no exception, process killed). -/
inductive Outcome
  | value (v : Int)
  | thrown (e : Exn)
  | trap
  deriving DecidableEq

/-- The `switch(op)` of `BinaryOpNode::evaluate` on the operand values. -/
def applyOp (op : Char) (l r : Int) : Outcome :=
  if op = '+' then .value (wrap32 (l + r))
  else if op = '-' then .value (wrap32 (l - r))
  else if op = '*' then .value (wrap32 (l * r))
  else if op = '/' then
    if r = 0 then .trap
    else if l = -2147483648 ∧ r = -1 then .trap
    else .value (Int.tdiv l r)
  else .thrown (.runtime_error "Unknown operator")

/-- The virtual `evaluate()`, threading the global `variables` map. -/
def evaluate : ASTNode → Store → Outcome × Store
  | .NumberNode value, s => (.value value, s)
  | .BinaryOpNode op left right, s =>
    match evaluate left s with
    | (.value l, s1) =>
      match evaluate right s1 with
      | (.value r, s2) => (applyOp op l r, s2)
      | (o, s2) => (o, s2)
    | (o, s1) => (o, s1)
  | .SquareNode operand, s =>
    match evaluate operand s with
    | (.value val, s1) => (.value (wrap32 (val * val)), s1)
    | (o, s1) => (o, s1)
  | .AssignmentNode name value, s =>
    match evaluate value s with
    | (.value val, s1) => (.value val, s1.assign name val)
    | (o, s1) => (o, s1)
  | .VariableNode name, s =>
    match s.find name with
    | none => (.thrown (.runtime_error ("Undefined variable: " ++ name)), s)
    | some v => (.value v, s)

/-- The combining instruction chosen by the `switch(op)` of
`BinaryOpNode::toAssembly`. -/
def opInstr (op : Char) : Except Exn String :=
  if op = '+' then .ok "    add eax, ebx\n"
  else if op = '-' then .ok "    sub eax, ebx\n"
  else if op = '*' then .ok "    imul eax, ebx\n"
  else if op = '/' then .ok "    cdq\n    idiv ebx\n"
  else .error (.runtime_error "Unknown operator")

/-- The virtual `toAssembly()`. -/
def toAssembly : ASTNode → Except Exn String
  | .NumberNode value => .ok ("    mov eax, " ++ toString value ++ "\n")
  | .BinaryOpNode op left right =>
    match toAssembly right with
    | .error e => .error e
    | .ok rcode =>
      match toAssembly left with
      | .error e => .error e
      | .ok lcode =>
        match opInstr op with
        | .error e => .error e
        | .ok instr => .ok (rcode ++ "    push eax\n" ++ lcode ++ "    pop ebx\n" ++ instr)
  | .SquareNode operand =>
    match toAssembly operand with
    | .error e => .error e
    | .ok code => .ok (code ++ "    square eax\n")
  | .AssignmentNode name value =>
    match toAssembly value with
    | .error e => .error e
    | .ok code => .ok (code ++ "    mov [" ++ name ++ "], eax\n")
  | .VariableNode name => .ok ("    mov eax, [" ++ name ++ "]\n")

/-! ## Lexer -/

/-- The `Lexer` class: input buffer and cursor. -/
structure Lexer where
  input : List Char
  pos : Nat := 0
  deriving DecidableEq

namespace Lexer

/-- The constructor `Lexer(std::string in)`. -/
def new (s : String) : Lexer := { input := s.data, pos := 0 }

/-- The character at the cursor, NUL at the end: `Lexer::peek`. -/
def peek (l : Lexer) : Char :=
  if l.pos ≥ l.input.length then Char.ofNat 0 else l.input.getD l.pos (Char.ofNat 0)

/-- The character at the cursor, moving the cursor past it: `Lexer::advance`. -/
def advance (l : Lexer) : Char × Lexer :=
  if l.pos ≥ l.input.length then (Char.ofNat 0, l)
  else (l.input.getD l.pos (Char.ofNat 0), { l with pos := l.pos + 1 })

/-- The loop condition of `skipWhitespace`. -/
def isBlank (c : Char) : Bool := c = ' ' || c = '\t' || c = '\n'

/-- The `while` loop of `skipWhitespace`. -/
def skipWhitespaceLoop : Nat → Lexer → Lexer
  | 0, l => l
  | n + 1, l => if isBlank l.peek then skipWhitespaceLoop n l.advance.2 else l

/-- Skipping of blanks: `Lexer::skipWhitespace`. -/
def skipWhitespace (l : Lexer) : Lexer := skipWhitespaceLoop (l.input.length - l.pos) l

/-- The C library `isdigit`, `isalpha`, `isalnum` (C locale). -/
def isdigit (c : Char) : Bool := c.isDigit

@[inherit_doc isdigit]
def isalpha (c : Char) : Bool := c.isAlpha

@[inherit_doc isdigit]
def isalnum (c : Char) : Bool := c.isAlphanum

/-- The loop `while (isdigit(peek())) num += advance();`. -/
def numberLoop : Nat → Lexer → String → String × Lexer
  | 0, l, num => (num, l)
  | n + 1, l, num =>
    if isdigit l.peek then numberLoop n l.advance.2 (num.push l.advance.1) else (num, l)

/-- The loop `while (isalnum(peek())) id += advance();`. -/
def identifierLoop : Nat → Lexer → String → String × Lexer
  | 0, l, id => (id, l)
  | n + 1, l, id =>
    if isalnum l.peek then identifierLoop n l.advance.2 (id.push l.advance.1) else (id, l)

/-- The `switch(c)` on a single character at the end of `getNextToken`. -/
def symbolToken (c : Char) : Except Exn Token :=
  if c = '+' then .ok ⟨.PLUS, ""⟩
  else if c = '-' then .ok ⟨.MINUS, ""⟩
  else if c = '*' then .ok ⟨.MULTIPLY, ""⟩
  else if c = '/' then .ok ⟨.DIVIDE, ""⟩
  else if c = '=' then .ok ⟨.ASSIGN, ""⟩
  else if c = '^' then .ok ⟨.SQUARE, ""⟩
  else .error (.runtime_error "Invalid character")

/-- The next token and the lexer after it: `Lexer::getNextToken`. -/
def getNextToken (l : Lexer) : Except Exn (Token × Lexer) :=
  let l1 := l.skipWhitespace
  if l1.peek = Char.ofNat 0 then .ok (⟨.END, ""⟩, l1)
  else if isdigit l1.peek then
    let r := numberLoop (l1.input.length - l1.pos) l1 ""
    .ok (⟨.NUMBER, r.1⟩, r.2)
  else if isalpha l1.peek then
    let r := identifierLoop (l1.input.length - l1.pos) l1 ""
    .ok (⟨.IDENTIFIER, r.1⟩, r.2)
  else
    match symbolToken l1.advance.1 with
    | .ok t => .ok (t, l1.advance.2)
    | .error e => .error e

end Lexer

/-! ## Parser -/

/-- The value of one decimal digit character. -/
def digitValue (c : Char) : Nat := c.toNat - 48

/-- The number written by a list of decimal digits. -/
def decimalValue (ds : List Char) : Nat := ds.foldl (fun acc c => 10 * acc + digitValue c) 0

/-- The library `std::stoi` on the text of a NUMBER token (a run of decimal
digits): the value of the leading digits, `std::invalid_argument` when there
is none, `std::out_of_range` when the value does not fit an `int`.  Leading
blanks and a sign, which the lexer never puts in a token, are not treated. -/
def stoi (s : String) : Except Exn Int :=
  let ds := s.data.takeWhile Lexer.isdigit
  if ds = [] then .error (.invalid_argument "stoi")
  else if decimalValue ds > 2147483647 then .error (.out_of_range "stoi")
  else .ok (decimalValue ds)

/-- The `Parser` class: its own lexer and the one-token lookahead. -/
structure Parser where
  lexer : Lexer
  currentToken : Token := ⟨.END, ""⟩
  deriving DecidableEq

namespace Parser

/-- The constructor `Parser(Lexer l)`, which reads the first token. -/
def new (l : Lexer) : Except Exn Parser :=
  match l.getNextToken with
  | .ok (t, l1) => .ok { lexer := l1, currentToken := t }
  | .error e => .error e

/-- Consumption of the lookahead when it has the given type: `Parser::eat`. -/
def eat (p : Parser) (type : TokenType) : Except Exn Parser :=
  if p.currentToken.type = type then
    match p.lexer.getNextToken with
    | .ok (t, l1) => .ok { lexer := l1, currentToken := t }
    | .error e => .error e
  else .error (.runtime_error "Unexpected token")

/-- The optional postfix square at the end of `parseFactor`. -/
def parseSquare (node : ASTNode) (p : Parser) : Except Exn (ASTNode × Parser) :=
  if p.currentToken.type = .SQUARE then
    match p.eat .SQUARE with
    | .ok p1 => .ok (.SquareNode node, p1)
    | .error e => .error e
  else .ok (node, p)

/-- A number or identifier with an optional square: `Parser::parseFactor`. -/
def parseFactor (p : Parser) : Except Exn (ASTNode × Parser) :=
  if p.currentToken.type = .NUMBER then
    match stoi p.currentToken.value with
    | .error e => .error e
    | .ok value =>
      match p.eat .NUMBER with
      | .error e => .error e
      | .ok p1 => parseSquare (.NumberNode value) p1
  else if p.currentToken.type = .IDENTIFIER then
    match p.eat .IDENTIFIER with
    | .error e => .error e
    | .ok p1 => parseSquare (.VariableNode p.currentToken.value) p1
  else .error (.runtime_error "Unexpected token in factor")

/-- The `while` loop of `parseTerm`. -/
def parseTermLoop : Nat → ASTNode → Parser → Except Exn (ASTNode × Parser)
  | 0, _, _ => .error .budget
  | n + 1, node, p =>
    if p.currentToken.type = .MULTIPLY ∨ p.currentToken.type = .DIVIDE then
      match p.eat p.currentToken.type with
      | .error e => .error e
      | .ok p1 =>
        match p1.parseFactor with
        | .error e => .error e
        | .ok (right, p2) =>
          parseTermLoop n
            (.BinaryOpNode (if p.currentToken.type = .MULTIPLY then '*' else '/') node right) p2
    else .ok (node, p)

/-- A product of factors: `Parser::parseTerm`. -/
def parseTerm (p : Parser) : Except Exn (ASTNode × Parser) :=
  match p.parseFactor with
  | .error e => .error e
  | .ok (node, p1) => parseTermLoop (p1.lexer.input.length - p1.lexer.pos + 1) node p1

/-- The `while` loop of `parseExpr`. -/
def parseExprLoop : Nat → ASTNode → Parser → Except Exn (ASTNode × Parser)
  | 0, _, _ => .error .budget
  | n + 1, node, p =>
    if p.currentToken.type = .PLUS ∨ p.currentToken.type = .MINUS then
      match p.eat p.currentToken.type with
      | .error e => .error e
      | .ok p1 =>
        match p1.parseTerm with
        | .error e => .error e
        | .ok (right, p2) =>
          parseExprLoop n
            (.BinaryOpNode (if p.currentToken.type = .PLUS then '+' else '-') node right) p2
    else .ok (node, p)

/-- A sum of terms: `Parser::parseExpr`. -/
def parseExpr (p : Parser) : Except Exn (ASTNode × Parser) :=
  match p.parseTerm with
  | .error e => .error e
  | .ok (node, p1) => parseExprLoop (p1.lexer.input.length - p1.lexer.pos + 1) node p1

/-- One statement: `Parser::parse`.  The result carries the parser state the
call leaves behind. -/
def parse (p : Parser) : Except Exn (ASTNode × Parser) :=
  if p.currentToken.type = .IDENTIFIER then
    match p.eat .IDENTIFIER with
    | .error e => .error e
    | .ok p1 =>
      if p1.currentToken.type = .ASSIGN then
        match p1.eat .ASSIGN with
        | .error e => .error e
        | .ok p2 =>
          match p2.parseExpr with
          | .error e => .error e
          | .ok (value, p3) => .ok (.AssignmentNode p.currentToken.value value, p3)
      else .ok (.VariableNode p.currentToken.value, p1)
  else p.parseExpr

end Parser

/-- The first three statements of `main`: `Lexer lexer(input); Parser
parser(lexer); parser.parse()`. -/
def parseInput (input : String) : Except Exn (ASTNode × Parser) :=
  match Parser.new (Lexer.new input) with
  | .error e => .error e
  | .ok p => p.parse

/-- The tree `parseInput` returns, without the parser state. -/
def parseTree (input : String) : Except Exn ASTNode :=
  match parseInput input with
  | .error e => .error e
  | .ok r => .ok r.1

/-! ## Auxiliary definitions for the proofs -/

/-- The NUL character that `peek` and `advance` return at the end of input. -/
def nul : Char := Char.ofNat 0

/-- The unread input: the characters at and after the cursor. -/
def Lexer.rest (l : Lexer) : List Char := l.input.drop l.pos

/-- What `getNextToken` does, told on the unread input alone: the token and
the input left unread after it (`getNextToken_rest`). -/
def lexStep (r : List Char) : Except Exn (Token × List Char) :=
  let r1 := r.dropWhile Lexer.isBlank
  if r1.headD nul = nul then .ok (⟨.END, ""⟩, r1)
  else if Lexer.isdigit (r1.headD nul) then
    .ok (⟨.NUMBER, ⟨r1.takeWhile Lexer.isdigit⟩⟩, r1.dropWhile Lexer.isdigit)
  else if Lexer.isalpha (r1.headD nul) then
    .ok (⟨.IDENTIFIER, ⟨r1.takeWhile Lexer.isalnum⟩⟩, r1.dropWhile Lexer.isalnum)
  else
    match Lexer.symbolToken (r1.headD nul) with
    | .ok t => .ok (t, r1.tail)
    | .error e => .error e

/-- The number of unread input characters of a parser's lexer. -/
def Parser.left (p : Parser) : Nat := p.lexer.rest.length

/-- The loop of `parseTerm` with the steps `parseTerm` gives it. -/
def Parser.termLoop (node : ASTNode) (p : Parser) : Except Exn (ASTNode × Parser) :=
  Parser.parseTermLoop (p.lexer.input.length - p.lexer.pos + 1) node p

/-- The loop of `parseExpr` with the steps `parseExpr` gives it. -/
def Parser.exprLoop (node : ASTNode) (p : Parser) : Except Exn (ASTNode × Parser) :=
  Parser.parseExprLoop (p.lexer.input.length - p.lexer.pos + 1) node p

/-- The tree `parseExpr` returns on a whole input: what `parse` would return
if it handed every statement to `parseExpr`. -/
def exprTree (input : String) : Except Exn ASTNode :=
  match Parser.new (Lexer.new input) with
  | .error e => .error e
  | .ok p =>
    match p.parseExpr with
    | .error e => .error e
    | .ok r => .ok r.1

/-- Trees without an `AssignmentNode`. -/
def noAssign : ASTNode → Bool
  | .NumberNode _ => true
  | .BinaryOpNode _ left right => noAssign left && noAssign right
  | .SquareNode operand => noAssign operand
  | .AssignmentNode _ _ => false
  | .VariableNode _ => true

/-- Lexing the tokens `ts`, none of them END, from the unread input `r`
leaves `r1` unread. -/
def LexSeg : List Char → List Token → List Char → Prop
  | r, [], r1 => r = r1
  | r, t :: ts, r1 => t.type ≠ .END ∧ ∃ r2, lexStep r = .ok (t, r2) ∧ LexSeg r2 ts r1

/-- The unread input `r` lexes to the tokens `ts` and then END. -/
def Lexes (r : List Char) (ts : List Token) : Prop :=
  ∃ r1 r2, LexSeg r ts r1 ∧ lexStep r1 = .ok (⟨.END, ""⟩, r2)

/-- The tokens the parser has before it, up to END: its lookahead and those
of the unread input. -/
def Parser.Sees (p : Parser) : List Token → Prop
  | [] => p.currentToken = ⟨.END, ""⟩
  | t :: ts => p.currentToken = t ∧ t.type ≠ .END ∧ Lexes p.lexer.rest ts

/-- A decimal literal that `stoi` accepts: a non-empty run of digits of value
at most 2147483647. -/
def IsLiteral (ds : List Char) : Prop :=
  ds ≠ [] ∧ (∀ c ∈ ds, Lexer.isdigit c = true) ∧ decimalValue ds ≤ 2147483647

/-- An identifier: a letter followed by letters and digits. -/
def IsName : List Char → Prop
  | [] => False
  | c :: tl => Lexer.isalpha c = true ∧ ∀ d ∈ tl, Lexer.isalnum d = true

instance instDecidableIsLiteral (ds : List Char) : Decidable (IsLiteral ds) := by
  unfold IsLiteral
  infer_instance

instance instDecidableIsName (cs : List Char) : Decidable (IsName cs) := by
  cases cs with
  | nil => exact isFalse (fun h => h)
  | cons c tl =>
    unfold IsName
    infer_instance

/-- The token of a binary operator character. -/
def opToken (op : Char) : Token :=
  if op = '+' then ⟨.PLUS, ""⟩
  else if op = '-' then ⟨.MINUS, ""⟩
  else if op = '*' then ⟨.MULTIPLY, ""⟩
  else ⟨.DIVIDE, ""⟩

/-- The type of the first token of a list, END for the empty list. -/
def headType : List Token → TokenType
  | [] => .END
  | t :: _ => t.type

/-- A factor of the grammar as written: a literal or a name, with or without
the postfix square. -/
structure Factor where
  isNumber : Bool
  text : List Char
  squared : Bool

/-- The text of a factor is a literal `stoi` accepts, or an identifier. -/
def Factor.WellFormed (f : Factor) : Prop :=
  if f.isNumber = true then IsLiteral f.text else IsName f.text

instance instDecidableFactorWellFormed (f : Factor) : Decidable f.WellFormed := by
  unfold Factor.WellFormed
  infer_instance

/-- A factor as input text; the square is written after one space. -/
def Factor.source (f : Factor) : List Char :=
  f.text ++ (if f.squared = true then [' ', '^'] else [])

/-- The tokens of a factor. -/
def Factor.tokens (f : Factor) : List Token :=
  ⟨if f.isNumber = true then .NUMBER else .IDENTIFIER, ⟨f.text⟩⟩ ::
    (if f.squared = true then [⟨.SQUARE, ""⟩] else [])

/-- The tree of a factor. -/
def Factor.node (f : Factor) : ASTNode :=
  if f.squared = true then
    .SquareNode (if f.isNumber = true then .NumberNode (decimalValue f.text)
      else .VariableNode ⟨f.text⟩)
  else if f.isNumber = true then .NumberNode (decimalValue f.text)
  else .VariableNode ⟨f.text⟩

/-- The text of a chain of operands, each after its operator character, with
single spaces around the operator. -/
def chainSource {α : Type} (src : α → List Char) : List (Char × α) → List Char
  | [] => []
  | x :: rest => ' ' :: x.1 :: ' ' :: (src x.2 ++ chainSource src rest)

/-- The tokens of a chain of operands, each after its operator. -/
def chainTokens {α : Type} (toks : α → List Token) : List (Char × α) → List Token
  | [] => []
  | x :: rest => opToken x.1 :: (toks x.2 ++ chainTokens toks rest)

/-- The left fold of a chain of operands onto a first tree. -/
def chainNode {α : Type} (node : α → ASTNode) (first : ASTNode) (rest : List (Char × α)) :
    ASTNode :=
  rest.foldl (fun acc x => .BinaryOpNode x.1 acc (node x.2)) first

/-- A term of the grammar as written: factors joined by `*` and `/`. -/
structure Term where
  first : Factor
  more : List (Char × Factor)

/-- Every factor of the term is well formed and every operator is `*` or `/`. -/
def Term.WellFormed (t : Term) : Prop :=
  t.first.WellFormed ∧ ∀ x ∈ t.more, (x.1 = '*' ∨ x.1 = '/') ∧ x.2.WellFormed

@[inherit_doc Factor.source]
def Term.source (t : Term) : List Char := t.first.source ++ chainSource Factor.source t.more

@[inherit_doc Factor.tokens]
def Term.tokens (t : Term) : List Token := t.first.tokens ++ chainTokens Factor.tokens t.more

/-- The tree of a term: the left fold of its factors. -/
def Term.node (t : Term) : ASTNode := chainNode Factor.node t.first.node t.more

/-- An expression of the grammar as written: terms joined by `+` and `-`. -/
structure Expr where
  first : Term
  more : List (Char × Term)

/-- Every term of the expression is well formed and every operator between
terms is `+` or `-`. -/
def Expr.WellFormed (e : Expr) : Prop :=
  e.first.WellFormed ∧ ∀ x ∈ e.more, (x.1 = '+' ∨ x.1 = '-') ∧ x.2.WellFormed

@[inherit_doc Factor.source]
def Expr.source (e : Expr) : List Char := e.first.source ++ chainSource Term.source e.more

@[inherit_doc Factor.tokens]
def Expr.tokens (e : Expr) : List Token := e.first.tokens ++ chainTokens Term.tokens e.more

/-- The tree of an expression: the left fold of its terms. -/
def Expr.node (e : Expr) : ASTNode := chainNode Term.node e.first.node e.more

/-- The unread input is empty or starts with a space. -/
def Sep (r : List Char) : Prop := ∀ c ∈ r.head?, c = ' '

/-- The tokens of `n` successive calls of `getNextToken`. -/
def Lexer.nextTokens : Nat → Lexer → Except Exn (List Token)
  | 0, _ => .ok []
  | n + 1, l =>
    match l.getNextToken with
    | .error e => .error e
    | .ok (t, l1) =>
      match nextTokens n l1 with
      | .error e => .error e
      | .ok ts => .ok (t :: ts)

/-- The operand of every square in the tree is a number or a variable. -/
def squaresOnAtoms : ASTNode → Bool
  | .NumberNode _ => true
  | .BinaryOpNode _ left right => squaresOnAtoms left && squaresOnAtoms right
  | .SquareNode (.NumberNode _) => true
  | .SquareNode (.VariableNode _) => true
  | .SquareNode _ => false
  | .AssignmentNode _ value => squaresOnAtoms value
  | .VariableNode _ => true

/-- Every binary node of the tree has one of `+ - * /` as operator. -/
def opsKnown : ASTNode → Bool
  | .NumberNode _ => true
  | .BinaryOpNode op left right =>
    (op = '+' || op = '-' || op = '*' || op = '/') && opsKnown left && opsKnown right
  | .SquareNode operand => opsKnown operand
  | .AssignmentNode _ value => opsKnown value
  | .VariableNode _ => true

/-- A number node with a value between 0 and 2147483647, or a variable node
whose name is an identifier. -/
def atomShape : ASTNode → Bool
  | .NumberNode v => decide (0 ≤ v ∧ v ≤ 2147483647)
  | .VariableNode n => decide (IsName n.data)
  | _ => false

/-- The trees `parseExpr` builds: atoms, squares of atoms, and binary nodes
with an operator among `+ - * /`. -/
def exprShape : ASTNode → Bool
  | .NumberNode v => decide (0 ≤ v ∧ v ≤ 2147483647)
  | .VariableNode n => decide (IsName n.data)
  | .SquareNode operand => atomShape operand
  | .BinaryOpNode op left right =>
    (op = '+' || op = '-' || op = '*' || op = '/') && exprShape left && exprShape right
  | .AssignmentNode _ _ => false

/-- The trees `parse` builds: an expression, or the assignment of an
expression to an identifier. -/
def stmtShape : ASTNode → Bool
  | .AssignmentNode n value => decide (IsName n.data) && exprShape value
  | t => exprShape t

/-- A token as the lexer makes it: the text of an IDENTIFIER is a letter
followed by letters and digits. -/
def TokOK (t : Token) : Prop := t.type = .IDENTIFIER → IsName t.value.data

/-- The first tokens lexed from the unread input `r` are `ts`, in order;
nothing is said of what follows them. -/
def LexPre : List Char → List Token → Prop
  | _, [] => True
  | r, t :: ts => ∃ r2, lexStep r = .ok (t, r2) ∧ LexPre r2 ts

/-- The parser has the tokens `ts` before it: its lookahead, then the first
tokens of the unread input. -/
def Parser.Ahead (p : Parser) : List Token → Prop
  | [] => True
  | t :: ts => p.currentToken = t ∧ LexPre p.lexer.rest ts

/-- The error `parseFactor` throws on a token that starts no factor. -/
def factorError : Exn := .runtime_error "Unexpected token in factor"

/-! ### The target machine of the emitted code -/

/-- Modelled from the spec: the instructions that occur in the text
`toAssembly` returns.  `square` is the line `square eax`, a use of the macro
that `generateCode` defines as `mov ebx, %1` followed by `imul %1, ebx`. -/
inductive Instr
  | movImm (v : Int)
  | load (name : String)
  | store (name : String)
  | push
  | pop
  | add
  | sub
  | imul
  | cdq
  | idiv
  | square
  deriving DecidableEq

/-- Modelled from the spec: the machine state the emitted code works on.
Registers and memory slots hold 32-bit words, kept as integers from 0 to
2^32 - 1; there is one slot per variable name. -/
structure Machine where
  eax : Int
  ebx : Int
  edx : Int
  stack : List Int
  mem : String → Int

/-- The 32-bit word of an integer: its value modulo 2^32. -/
def word (x : Int) : Int := x % 4294967296

/-- The signed reading of a 32-bit word. -/
def signed (w : Int) : Int := if w < 2147483648 then w else w - 4294967296

/-- The signed reading of the 64-bit pair `edx:eax`. -/
def signed64 (hi lo : Int) : Int :=
  if hi < 2147483648 then hi * 4294967296 + lo
  else hi * 4294967296 + lo - 18446744073709551616

/-- Modelled from the spec: the usual meaning of one instruction on the
machine; `none` is a fault (pop from the empty stack, or the divide error of
`idiv` on a zero divisor or a quotient that does not fit 32 bits). -/
def step : Instr → Machine → Option Machine
  | .movImm v, m => some { m with eax := word v }
  | .load name, m => some { m with eax := m.mem name }
  | .store name, m => some { m with mem := fun k => if k = name then m.eax else m.mem k }
  | .push, m => some { m with stack := m.eax :: m.stack }
  | .pop, m =>
    match m.stack with
    | [] => none
    | w :: st => some { m with ebx := w, stack := st }
  | .add, m => some { m with eax := word (m.eax + m.ebx) }
  | .sub, m => some { m with eax := word (m.eax - m.ebx) }
  | .imul, m => some { m with eax := word (signed m.eax * signed m.ebx) }
  | .cdq, m => some { m with edx := if m.eax < 2147483648 then 0 else 4294967295 }
  | .idiv, m =>
    if signed m.ebx = 0 then none
    else if Int.tdiv (signed64 m.edx m.eax) (signed m.ebx) < -2147483648 ∨
        2147483647 < Int.tdiv (signed64 m.edx m.eax) (signed m.ebx) then none
    else some { m with
      eax := word (Int.tdiv (signed64 m.edx m.eax) (signed m.ebx))
      edx := word (Int.tmod (signed64 m.edx m.eax) (signed m.ebx)) }
  | .square, m =>
    some { m with ebx := m.eax, eax := word (signed m.eax * signed m.eax) }

/-- Execution of a list of instructions in order. -/
def exec : List Instr → Machine → Option Machine
  | [], m => some m
  | i :: rest, m =>
    match step i m with
    | none => none
    | some m1 => exec rest m1

/-- The text of an instruction, as `toAssembly` writes it, without the end
of line. -/
def Instr.text : Instr → List Char
  | .movImm v => "    mov eax, ".data ++ (toString v).data
  | .load name => "    mov eax, [".data ++ name.data ++ [']']
  | .store name => "    mov [".data ++ name.data ++ "], eax".data
  | .push => "    push eax".data
  | .pop => "    pop ebx".data
  | .add => "    add eax, ebx".data
  | .sub => "    sub eax, ebx".data
  | .imul => "    imul eax, ebx".data
  | .cdq => "    cdq".data
  | .idiv => "    idiv ebx".data
  | .square => "    square eax".data

/-- The text of a list of instructions, one per line. -/
def progText : List Instr → List Char
  | [] => []
  | i :: rest => i.text ++ '\n' :: progText rest

/-- The instructions of the `switch(op)` of `BinaryOpNode::toAssembly`. -/
def opInstrs (op : Char) : Except Exn (List Instr) :=
  if op = '+' then .ok [.add]
  else if op = '-' then .ok [.sub]
  else if op = '*' then .ok [.imul]
  else if op = '/' then .ok [.cdq, .idiv]
  else .error (.runtime_error "Unknown operator")

/-- The instructions whose text `toAssembly` returns (`toAssembly_text`). -/
def emitInstrs : ASTNode → Except Exn (List Instr)
  | .NumberNode value => .ok [.movImm value]
  | .BinaryOpNode op left right =>
    match emitInstrs right with
    | .error e => .error e
    | .ok rcode =>
      match emitInstrs left with
      | .error e => .error e
      | .ok lcode =>
        match opInstrs op with
        | .error e => .error e
        | .ok instr => .ok (rcode ++ [.push] ++ lcode ++ [.pop] ++ instr)
  | .SquareNode operand =>
    match emitInstrs operand with
    | .error e => .error e
    | .ok code => .ok (code ++ [.square])
  | .AssignmentNode name value =>
    match emitInstrs value with
    | .error e => .error e
    | .ok code => .ok (code ++ [.store name])
  | .VariableNode name => .ok [.load name]

/-- The rest of a list after a given beginning, when it begins so. -/
def stripPre : List Char → List Char → Option (List Char)
  | [], l => some l
  | _ :: _, [] => none
  | a :: pre, c :: l => if a = c then stripPre pre l else none

/-- The lines of a text: the runs of characters ended by a newline, and what
is left after the last newline when that is not empty. -/
def splitLines : List Char → List Char → List (List Char)
  | [], cur => if cur = [] then [] else [cur]
  | c :: rest, cur => if c = '\n' then cur :: splitLines rest [] else splitLines rest (cur ++ [c])

/-- The integer written by a decimal numeral with an optional minus sign. -/
def readInt : List Char → Option Int
  | [] => none
  | c :: ds =>
    if c = '-' then
      if ds ≠ [] ∧ ∀ x ∈ ds, Lexer.isdigit x = true then some (-(decimalValue ds : Int)) else none
    else if ∀ x ∈ c :: ds, Lexer.isdigit x = true then some (decimalValue (c :: ds) : Int)
    else none

/-- The instruction written on a line of assembly text. -/
def decodeLine (line : List Char) : Option Instr :=
  match stripPre "    mov eax, [".data line with
  | some r =>
    if r.dropWhile (fun c => c != ']') = [']'] then
      some (.load ⟨r.takeWhile (fun c => c != ']')⟩)
    else none
  | none =>
    match stripPre "    mov [".data line with
    | some r =>
      if r.dropWhile (fun c => c != ']') = "], eax".data then
        some (.store ⟨r.takeWhile (fun c => c != ']')⟩)
      else none
    | none =>
      match stripPre "    mov eax, ".data line with
      | some r =>
        match readInt r with
        | some v => some (.movImm v)
        | none => none
      | none =>
        if line = "    push eax".data then some .push
        else if line = "    pop ebx".data then some .pop
        else if line = "    add eax, ebx".data then some .add
        else if line = "    sub eax, ebx".data then some .sub
        else if line = "    imul eax, ebx".data then some .imul
        else if line = "    cdq".data then some .cdq
        else if line = "    idiv ebx".data then some .idiv
        else if line = "    square eax".data then some .square
        else none

/-- The instructions written on a list of lines; `none` when a line is no
instruction. -/
def decodeLines : List (List Char) → Option (List Instr)
  | [] => some []
  | line :: rest =>
    match decodeLine line, decodeLines rest with
    | some i, some is => some (i :: is)
    | _, _ => none

/-- The instructions written in an assembly text. -/
def decode (text : String) : Option (List Instr) := decodeLines (splitLines text.data [])

/-- Execution of an assembly text: of the instructions written in it. -/
def runText (text : String) (m : Machine) : Option Machine :=
  match decode text with
  | none => none
  | some prog => exec prog m

/-- Every value of the store is a 32-bit signed integer. -/
def StoreOK (s : Store) : Prop := ∀ n x, s.find n = some x → -2147483648 ≤ x ∧ x ≤ 2147483647

/-- The memory slot of every variable of the store holds the word of its
value. -/
def SlotsAgree (m : Machine) (s : Store) : Prop := ∀ n x, s.find n = some x → m.mem n = word x

/-- Instructions as they are emitted for parsed trees: the immediate is not
negative and a slot name is an identifier. -/
def GoodInstr : Instr → Prop
  | .movImm v => 0 ≤ v
  | .load name => IsName name.data
  | .store name => IsName name.data
  | _ => True

/-! ## The lexer on the unread input -/

namespace Lexer

theorem rest_length (l : Lexer) : l.rest.length = l.input.length - l.pos := by
  simp [rest]

theorem peek_eq (l : Lexer) : l.peek = l.rest.headD nul := by
  unfold peek rest nul
  split
  · rw [List.drop_eq_nil_of_le (by omega)]; rfl
  · rw [List.headD_eq_head?_getD, List.head?_drop, List.getD_eq_getElem?_getD]

theorem advance_fst (l : Lexer) : l.advance.1 = l.rest.headD nul := by
  unfold advance rest nul
  split
  · rw [List.drop_eq_nil_of_le (by omega)]; rfl
  · simp only
    rw [List.headD_eq_head?_getD, List.head?_drop, List.getD_eq_getElem?_getD]

theorem advance_input (l : Lexer) : l.advance.2.input = l.input := by
  unfold advance; split <;> rfl

theorem advance_rest (l : Lexer) : l.advance.2.rest = l.rest.tail := by
  unfold advance rest
  split
  · simp only; rw [List.drop_eq_nil_of_le (by omega)]; rfl
  · simp only; rw [List.tail_drop]

theorem skipWhitespaceLoop_spec (n : Nat) (l : Lexer) (h : l.rest.length ≤ n) :
    (skipWhitespaceLoop n l).input = l.input ∧
      (skipWhitespaceLoop n l).rest = l.rest.dropWhile isBlank := by
  induction n generalizing l with
  | zero =>
    have h0 : l.rest = [] := List.length_eq_zero.mp (Nat.le_zero.mp h)
    simp [skipWhitespaceLoop, h0]
  | succ n ih =>
    unfold skipWhitespaceLoop
    rw [peek_eq]
    cases hr : l.rest with
    | nil => simp [isBlank, nul, hr]
    | cons c tl =>
      have hlen : l.advance.2.rest.length ≤ n := by
        rw [advance_rest, hr]; rw [hr] at h; simpa using h
      by_cases hc : isBlank c = true
      · have := ih l.advance.2 hlen
        simp only [List.headD_cons, hc, if_true]
        rw [this.1, this.2, advance_input, advance_rest, hr]
        simp [List.dropWhile_cons, hc]
      · simp [List.dropWhile_cons, hc, hr]

theorem skipWhitespace_spec (l : Lexer) :
    l.skipWhitespace.input = l.input ∧ l.skipWhitespace.rest = l.rest.dropWhile isBlank :=
  skipWhitespaceLoop_spec _ l (by rw [rest_length])

/-- The loop of `skipWhitespace` ends because its condition fails, not
because its steps are used up. -/
theorem skipWhitespaceLoop_stops (l : Lexer) : isBlank l.skipWhitespace.peek = false := by
  rw [peek_eq, (skipWhitespace_spec l).2]
  induction l.rest with
  | nil => simp [isBlank, nul]
  | cons c tl ih =>
    by_cases hc : isBlank c = true
    · simpa [List.dropWhile_cons, hc] using ih
    · simp [List.dropWhile_cons, hc]

theorem numberLoop_spec (n : Nat) (l : Lexer) (num : String) (h : l.rest.length ≤ n) :
    (numberLoop n l num).1 = ⟨num.data ++ l.rest.takeWhile isdigit⟩ ∧
      (numberLoop n l num).2.input = l.input ∧
      (numberLoop n l num).2.rest = l.rest.dropWhile isdigit := by
  induction n generalizing l num with
  | zero =>
    have h0 : l.rest = [] := List.length_eq_zero.mp (Nat.le_zero.mp h)
    simp [numberLoop, h0]
  | succ n ih =>
    unfold numberLoop
    rw [peek_eq]
    cases hr : l.rest with
    | nil => simp [isdigit, nul, hr]
    | cons c tl =>
      have hlen : l.advance.2.rest.length ≤ n := by
        rw [advance_rest, hr]; rw [hr] at h; simpa using h
      by_cases hc : isdigit c = true
      · have := ih l.advance.2 (num.push l.advance.1) hlen
        simp only [List.headD_cons, hc, if_true]
        rw [this.1, this.2.1, this.2.2, advance_input, advance_rest, advance_fst, hr]
        simp [List.dropWhile_cons, List.takeWhile_cons, hc, String.push]
      · simp [List.dropWhile_cons, List.takeWhile_cons, hc, hr]

theorem identifierLoop_spec (n : Nat) (l : Lexer) (id : String) (h : l.rest.length ≤ n) :
    (identifierLoop n l id).1 = ⟨id.data ++ l.rest.takeWhile isalnum⟩ ∧
      (identifierLoop n l id).2.input = l.input ∧
      (identifierLoop n l id).2.rest = l.rest.dropWhile isalnum := by
  induction n generalizing l id with
  | zero =>
    have h0 : l.rest = [] := List.length_eq_zero.mp (Nat.le_zero.mp h)
    simp [identifierLoop, h0]
  | succ n ih =>
    unfold identifierLoop
    rw [peek_eq]
    cases hr : l.rest with
    | nil => simp [isalnum, nul, hr]
    | cons c tl =>
      have hlen : l.advance.2.rest.length ≤ n := by
        rw [advance_rest, hr]; rw [hr] at h; simpa using h
      by_cases hc : isalnum c = true
      · have := ih l.advance.2 (id.push l.advance.1) hlen
        simp only [List.headD_cons, hc, if_true]
        rw [this.1, this.2.1, this.2.2, advance_input, advance_rest, advance_fst, hr]
        simp [List.dropWhile_cons, List.takeWhile_cons, hc, String.push]
      · simp [List.dropWhile_cons, List.takeWhile_cons, hc, hr]

/-- The token `getNextToken` returns and the input it leaves unread are those
of `lexStep` on the unread input; the input buffer is not changed. -/
theorem getNextToken_spec (l : Lexer) :
    match lexStep l.rest with
    | .ok (t, r) => ∃ l1, l.getNextToken = .ok (t, l1) ∧ l1.input = l.input ∧ l1.rest = r
    | .error e => l.getNextToken = .error e := by
  unfold getNextToken lexStep
  have hs := skipWhitespace_spec l
  simp only [peek_eq, advance_fst, hs.2]
  by_cases h0 : (List.dropWhile isBlank l.rest).headD nul = nul
  · have h0a : (List.dropWhile isBlank l.rest).headD nul = Char.ofNat 0 := h0
    simp only [h0, h0a, if_true]
    exact ⟨_, rfl, hs.1, hs.2⟩
  · have h0a : ¬ (List.dropWhile isBlank l.rest).headD nul = Char.ofNat 0 := h0
    simp only [h0, h0a, if_false]
    by_cases hd : isdigit ((List.dropWhile isBlank l.rest).headD nul) = true
    · simp only [hd, if_true]
      have := numberLoop_spec (l.skipWhitespace.input.length - l.skipWhitespace.pos)
        l.skipWhitespace "" (by rw [rest_length])
      rw [this.1, hs.2]
      exact ⟨_, rfl, by rw [this.2.1, hs.1], by rw [this.2.2, hs.2]⟩
    · simp only [hd, if_false]
      by_cases ha : isalpha ((List.dropWhile isBlank l.rest).headD nul) = true
      · simp only [ha, if_true]
        have := identifierLoop_spec (l.skipWhitespace.input.length - l.skipWhitespace.pos)
          l.skipWhitespace "" (by rw [rest_length])
        rw [this.1, hs.2]
        exact ⟨_, rfl, by rw [this.2.1, hs.1], by rw [this.2.2, hs.2]⟩
      · simp only [ha, if_false]
        cases hsym : symbolToken ((List.dropWhile isBlank l.rest).headD nul) with
        | error e => simp
        | ok t =>
          simp only
          exact ⟨_, rfl, by rw [advance_input, hs.1], by rw [advance_rest, hs.2]⟩

theorem getNextToken_ok {l l1 : Lexer} {t : Token} (h : l.getNextToken = .ok (t, l1)) :
    lexStep l.rest = .ok (t, l1.rest) ∧ l1.input = l.input := by
  have hs := getNextToken_spec l
  cases hl : lexStep l.rest with
  | error e => rw [hl] at hs; simp only at hs; rw [hs] at h; cases h
  | ok x =>
    obtain ⟨t2, r⟩ := x
    rw [hl] at hs
    obtain ⟨l2, h2, hi, hr⟩ := hs
    rw [h2] at h
    cases h
    exact ⟨by rw [hr], hi⟩

end Lexer

theorem length_dropWhile_le (q : Char → Bool) (r : List Char) :
    (r.dropWhile q).length ≤ r.length :=
  (List.dropWhile_suffix q).length_le

theorem symbolToken_type {c : Char} {t : Token} (h : Lexer.symbolToken c = .ok t) :
    t.type ≠ .END := by
  unfold Lexer.symbolToken at h
  repeat' split at h
  all_goals first
    | (cases h; decide)
    | cases h

/-- A token never puts input back, and a token other than END uses up at
least one character. -/
theorem lexStep_length {r r1 : List Char} {t : Token} (h : lexStep r = .ok (t, r1)) :
    r1.length ≤ r.length ∧ (t.type ≠ .END → r1.length < r.length) := by
  unfold lexStep at h
  have hle := length_dropWhile_le Lexer.isBlank r
  cases hr : r.dropWhile Lexer.isBlank with
  | nil =>
    rw [hr] at h
    simp at h
    obtain ⟨rfl, rfl⟩ := h
    simp
  | cons c tl =>
    rw [hr] at h hle
    simp only [List.headD_cons, List.length_cons] at h hle
    split at h
    · cases h
      simp only [List.length_cons]
      exact ⟨hle, fun hne => absurd rfl hne⟩
    · split at h
      · rename_i hd
        cases h
        simp only [List.dropWhile_cons, hd, if_true]
        have := length_dropWhile_le Lexer.isdigit tl
        constructor <;> intros <;> omega
      · split at h
        · rename_i ha
          cases h
          have hn : Lexer.isalnum c = true := by
            simp only [Lexer.isalpha, Lexer.isalnum, Char.isAlphanum] at ha ⊢
            simp [ha]
          simp only [List.dropWhile_cons, hn, if_true]
          have := length_dropWhile_le Lexer.isalnum tl
          constructor <;> intros <;> omega
        · split at h
          · cases h
            simp only [List.tail_cons]
            constructor <;> intros <;> omega
          · cases h

/-! ## Lexing of literals, names and operator characters -/

theorem lexStep_nil : lexStep [] = .ok (⟨.END, ""⟩, []) := by
  simp [lexStep]

theorem lexStep_blank (c : Char) (r : List Char) (hc : Lexer.isBlank c = true) :
    lexStep (c :: r) = lexStep r := by
  simp [lexStep, List.dropWhile_cons, hc]

theorem lexStep_space (r : List Char) : lexStep (' ' :: r) = lexStep r :=
  lexStep_blank ' ' r (by decide)

theorem isdigit_not_blank {c : Char} (h : Lexer.isdigit c = true) :
    Lexer.isBlank c = false ∧ c ≠ nul := by
  constructor
  · cases hb : Lexer.isBlank c with
    | false => rfl
    | true =>
      simp only [Lexer.isBlank, Bool.or_eq_true, decide_eq_true_eq] at hb
      rcases hb with (hb | hb) | hb <;> subst hb <;> revert h <;> decide
  · intro hn
    subst hn
    revert h
    decide

theorem isalpha_not_blank {c : Char} (h : Lexer.isalpha c = true) :
    Lexer.isBlank c = false ∧ c ≠ nul ∧ Lexer.isdigit c = false ∧ Lexer.isalnum c = true := by
  refine ⟨?_, ?_, ?_, ?_⟩
  · cases hb : Lexer.isBlank c with
    | false => rfl
    | true =>
      simp only [Lexer.isBlank, Bool.or_eq_true, decide_eq_true_eq] at hb
      rcases hb with (hb | hb) | hb <;> subst hb <;> revert h <;> decide
  · intro hn
    subst hn
    revert h
    decide
  · simp only [Lexer.isalpha, Lexer.isdigit, Char.isAlpha, Char.isUpper, Char.isLower,
      Char.isDigit, Bool.or_eq_true, Bool.and_eq_true, decide_eq_true_eq,
      Bool.and_eq_false_imp, decide_eq_false_iff_not] at h ⊢
    intro h1
    have h2 : (48 : UInt32) ≤ c.val := h1
    have : c.val.toNat ≥ 48 := h1
    rcases h with ⟨h3, h4⟩ | ⟨h3, h4⟩
    · have h5 : c.val.toNat ≥ 65 := h3
      intro h6
      have h7 : c.val.toNat ≤ 57 := h6
      omega
    · have h5 : c.val.toNat ≥ 97 := h3
      intro h6
      have h7 : c.val.toNat ≤ 57 := h6
      omega
  · simp only [Lexer.isalpha, Lexer.isalnum, Char.isAlphanum] at h ⊢
    simp [h]

/-- A run of digits followed by a character that is no digit, or by the end
of input, is one NUMBER token carrying the digits. -/
theorem lexStep_digits (ds r : List Char) (hne : ds ≠ [])
    (hds : ∀ c ∈ ds, Lexer.isdigit c = true)
    (hr : ∀ c ∈ r.head?, Lexer.isdigit c = false) :
    lexStep (ds ++ r) = .ok (⟨.NUMBER, ⟨ds⟩⟩, r) := by
  cases ds with
  | nil => exact absurd rfl hne
  | cons d tl =>
    have hd : Lexer.isdigit d = true := hds d (List.mem_cons_self _ _)
    have hb := isdigit_not_blank hd
    have htake : List.takeWhile Lexer.isdigit r = [] := by
      cases r with
      | nil => rfl
      | cons c r0 => simp [List.takeWhile_cons, hr c (by simp)]
    have hdrop : List.dropWhile Lexer.isdigit r = r := by
      cases r with
      | nil => rfl
      | cons c r0 => simp [List.dropWhile_cons, hr c (by simp)]
    have h1 : List.takeWhile Lexer.isdigit (d :: tl ++ r) = d :: tl := by
      rw [List.takeWhile_append_of_pos hds, htake, List.append_nil]
    have h2 : List.dropWhile Lexer.isdigit (d :: tl ++ r) = r := by
      rw [List.dropWhile_append_of_pos hds, hdrop]
    unfold lexStep
    have h0 : List.dropWhile Lexer.isBlank (d :: tl ++ r) = d :: tl ++ r := by
      simp [List.dropWhile_cons, hb.1]
    simp only [h0, h1, h2]
    simp [hb.2, hd]

/-- A letter with letters and digits after it, followed by a character that
is neither, or by the end of input, is one IDENTIFIER token. -/
theorem lexStep_name (cs r : List Char) (hcs : IsName cs)
    (hr : ∀ c ∈ r.head?, Lexer.isalnum c = false) :
    lexStep (cs ++ r) = .ok (⟨.IDENTIFIER, ⟨cs⟩⟩, r) := by
  cases cs with
  | nil => exact absurd hcs (fun h => h)
  | cons d tl =>
  obtain ⟨hd, htl⟩ := hcs
  have hb := isalpha_not_blank hd
  have hall : ∀ c ∈ d :: tl, Lexer.isalnum c = true := by
    intro c hc
    rcases List.mem_cons.mp hc with h | h
    · rw [h]; exact hb.2.2.2
    · exact htl c h
  have htake : List.takeWhile Lexer.isalnum r = [] := by
    cases r with
    | nil => rfl
    | cons c r0 => simp [List.takeWhile_cons, hr c (by simp)]
  have hdrop : List.dropWhile Lexer.isalnum r = r := by
    cases r with
    | nil => rfl
    | cons c r0 => simp [List.dropWhile_cons, hr c (by simp)]
  have h1 : List.takeWhile Lexer.isalnum (d :: tl ++ r) = d :: tl := by
    rw [List.takeWhile_append_of_pos hall, htake, List.append_nil]
  have h2 : List.dropWhile Lexer.isalnum (d :: tl ++ r) = r := by
    rw [List.dropWhile_append_of_pos hall, hdrop]
  unfold lexStep
  have h0 : List.dropWhile Lexer.isBlank (d :: tl ++ r) = d :: tl ++ r := by
    simp [List.dropWhile_cons, hb.1]
  simp only [h0, h1, h2]
  simp [hb.2.1, hb.2.2.1, hd]

theorem lexStep_op (op : Char) (r : List Char)
    (hop : op = '+' ∨ op = '-' ∨ op = '*' ∨ op = '/') :
    lexStep (op :: r) = .ok (opToken op, r) := by
  rcases hop with h | h | h | h <;> subst h <;>
    simp [lexStep, List.dropWhile_cons, Lexer.isBlank, nul, Lexer.isdigit, Lexer.isalpha,
      Lexer.symbolToken, opToken]

theorem lexStep_caret (r : List Char) : lexStep ('^' :: r) = .ok (⟨.SQUARE, ""⟩, r) := by
  simp [lexStep, List.dropWhile_cons, Lexer.isBlank, nul, Lexer.isdigit, Lexer.isalpha,
    Lexer.symbolToken]

/-! ## Lexing of written factors, terms and expressions -/

theorem LexSeg_append {r r1 r2 : List Char} {ts1 ts2 : List Token}
    (h1 : LexSeg r ts1 r1) (h2 : LexSeg r1 ts2 r2) : LexSeg r (ts1 ++ ts2) r2 := by
  induction ts1 generalizing r with
  | nil =>
    simp only [LexSeg] at h1
    subst h1
    exact h2
  | cons t ts ih =>
    obtain ⟨hne, r3, hl, hs⟩ := h1
    exact ⟨hne, r3, hl, ih hs⟩

theorem Sep_not_digit {r : List Char} (h : Sep r) :
    (∀ c ∈ r.head?, Lexer.isdigit c = false) ∧ (∀ c ∈ r.head?, Lexer.isalnum c = false) := by
  constructor <;> intro c hc <;> rw [h c hc] <;> decide

theorem Sep_chainSource {α : Type} (src : α → List Char) (rest : List (Char × α))
    (r : List Char) (h : Sep r) : Sep (chainSource src rest ++ r) := by
  cases rest with
  | nil => exact h
  | cons x rest =>
    intro c hc
    simp only [chainSource, List.cons_append, List.head?_cons, Option.mem_def,
      Option.some.injEq] at hc
    exact hc.symm

theorem opToken_type (op : Char) : (opToken op).type ≠ .END := by
  unfold opToken
  repeat' split
  all_goals decide

theorem LexSeg_factor (f : Factor) (hf : f.WellFormed) (r : List Char) (hr : Sep r) :
    LexSeg (f.source ++ r) f.tokens r := by
  obtain ⟨isNumber, text, squared⟩ := f
  have hsep : ∀ r0 : List Char, Sep r0 →
      lexStep (text ++ r0) =
        .ok (⟨if isNumber = true then .NUMBER else .IDENTIFIER, ⟨text⟩⟩, r0) := by
    intro r0 h0
    cases isNumber with
    | true => exact lexStep_digits text r0 hf.1 hf.2.1 (Sep_not_digit h0).1
    | false => exact lexStep_name text r0 hf (Sep_not_digit h0).2
  have hty : (⟨if isNumber = true then .NUMBER else .IDENTIFIER, ⟨text⟩⟩ : Token).type ≠
      .END := by
    cases isNumber <;> simp
  cases squared with
  | false =>
    simp only [Factor.source, Factor.tokens, Bool.false_eq_true, if_false, List.append_nil]
    exact ⟨hty, r, hsep r hr, rfl⟩
  | true =>
    simp only [Factor.source, Factor.tokens, if_true, List.append_assoc, List.cons_append,
      List.nil_append]
    refine ⟨hty, _, hsep (' ' :: '^' :: r) (by intro c hc; simpa using hc.symm), ?_⟩
    refine ⟨by decide, r, ?_, rfl⟩
    rw [lexStep_space, lexStep_caret]

theorem LexSeg_chain {α : Type} (src : α → List Char) (toks : α → List Token)
    (ok : α → Prop) (ops : Char → Prop)
    (hops : ∀ op, ops op → op = '+' ∨ op = '-' ∨ op = '*' ∨ op = '/')
    (hseg : ∀ a, ok a → ∀ r, Sep r → LexSeg (src a ++ r) (toks a) r)
    (hne : ∀ a, ok a → toks a ≠ [])
    (rest : List (Char × α)) (hrest : ∀ x ∈ rest, ops x.1 ∧ ok x.2)
    (r : List Char) (hr : Sep r) :
    LexSeg (chainSource src rest ++ r) (chainTokens toks rest) r := by
  induction rest with
  | nil => rfl
  | cons x rest ih =>
    have hx := hrest x (List.mem_cons_self _ _)
    have ih1 := ih (fun y hy => hrest y (List.mem_cons_of_mem _ hy))
    simp only [chainSource, chainTokens, List.cons_append, List.append_assoc]
    refine ⟨opToken_type x.1, ' ' :: (src x.2 ++ (chainSource src rest ++ r)), ?_, ?_⟩
    · rw [lexStep_space, lexStep_op x.1 _ (hops x.1 hx.1)]
    · have h2 := hseg x.2 hx.2 (chainSource src rest ++ r) (Sep_chainSource src rest r hr)
      have h3 : LexSeg (' ' :: (src x.2 ++ (chainSource src rest ++ r))) (toks x.2)
          (chainSource src rest ++ r) := by
        cases htk : toks x.2 with
        | nil => exact absurd htk (hne x.2 hx.2)
        | cons t ts =>
          rw [htk] at h2
          obtain ⟨hne, r3, hl, hs⟩ := h2
          exact ⟨hne, r3, by rw [lexStep_space]; exact hl, hs⟩
      exact LexSeg_append h3 ih1

theorem Factor.tokens_nonempty (f : Factor) : f.tokens ≠ [] := by
  simp [Factor.tokens]

theorem Term.tokens_all_nonempty (t : Term) : t.tokens ≠ [] := by
  simp [Term.tokens, Factor.tokens]

theorem LexSeg_term (t : Term) (ht : t.WellFormed) (r : List Char) (hr : Sep r) :
    LexSeg (t.source ++ r) t.tokens r := by
  unfold Term.source Term.tokens
  rw [List.append_assoc]
  exact LexSeg_append (LexSeg_factor t.first ht.1 _ (Sep_chainSource _ _ r hr))
    (LexSeg_chain Factor.source Factor.tokens Factor.WellFormed (fun op => op = '*' ∨ op = '/')
      (fun op h => Or.inr (Or.inr h)) LexSeg_factor (fun a _ => a.tokens_nonempty) t.more ht.2 r hr)

theorem LexSeg_expr (e : Expr) (he : e.WellFormed) (r : List Char) (hr : Sep r) :
    LexSeg (e.source ++ r) e.tokens r := by
  unfold Expr.source Expr.tokens
  rw [List.append_assoc]
  exact LexSeg_append (LexSeg_term e.first he.1 _ (Sep_chainSource _ _ r hr))
    (LexSeg_chain Term.source Term.tokens Term.WellFormed (fun op => op = '+' ∨ op = '-')
      (fun op h => by rcases h with h | h <;> simp [h]) LexSeg_term
      (fun a _ => a.tokens_all_nonempty) e.more he.2 r hr)

/-- A well-formed written expression lexes to its tokens and then END. -/
theorem Lexes_expr (e : Expr) (he : e.WellFormed) : Lexes e.source e.tokens := by
  have h := LexSeg_expr e he [] (by intro c hc; cases hc)
  rw [List.append_nil] at h
  exact ⟨[], [], h, lexStep_nil⟩

/-! ## The parser: progress and loop steps -/

namespace Parser

theorem left_eq (p : Parser) : p.left = p.lexer.input.length - p.lexer.pos :=
  Lexer.rest_length p.lexer

theorem eat_ok {p p1 : Parser} {ty : TokenType} (h : p.eat ty = .ok p1) :
    p.currentToken.type = ty ∧ lexStep p.lexer.rest = .ok (p1.currentToken, p1.lexer.rest) := by
  unfold eat at h
  split at h
  · rename_i hty
    cases hg : p.lexer.getNextToken with
    | error e => rw [hg] at h; cases h
    | ok x =>
      obtain ⟨t, l1⟩ := x
      rw [hg] at h
      cases h
      exact ⟨hty, (Lexer.getNextToken_ok hg).1⟩
  · cases h

theorem eat_left {p p1 : Parser} {ty : TokenType} (h : p.eat ty = .ok p1) :
    p1.left ≤ p.left ∧ (p1.currentToken.type ≠ .END → p1.left < p.left) :=
  lexStep_length (eat_ok h).2

/-- When the lookahead has the expected type, `eat` replaces it by the next
token of the unread input. -/
theorem eat_spec (p : Parser) (ty : TokenType) (hty : p.currentToken.type = ty) :
    match lexStep p.lexer.rest with
    | .ok (t, r) => ∃ p1, p.eat ty = .ok p1 ∧ p1.currentToken = t ∧ p1.lexer.rest = r
    | .error e => p.eat ty = .error e := by
  have hs := Lexer.getNextToken_spec p.lexer
  unfold eat
  simp only [hty, if_true]
  cases hl : lexStep p.lexer.rest with
  | error e => rw [hl] at hs; simp only at hs ⊢; rw [hs]
  | ok x =>
    obtain ⟨t, r⟩ := x
    rw [hl] at hs
    obtain ⟨l1, h1, _, h3⟩ := hs
    simp only [h1]
    exact ⟨_, rfl, rfl, h3⟩

theorem parseSquare_left {node n1 : ASTNode} {p p1 : Parser}
    (h : parseSquare node p = .ok (n1, p1)) : p1.left ≤ p.left := by
  unfold parseSquare at h
  split at h
  · cases he : p.eat .SQUARE with
    | error e => rw [he] at h; cases h
    | ok p2 =>
      rw [he] at h
      cases h
      exact (eat_left he).1
  · cases h
    exact Nat.le_refl _

theorem parseFactor_ok {p p1 : Parser} {node : ASTNode} (h : p.parseFactor = .ok (node, p1)) :
    (p.currentToken.type = .NUMBER ∨ p.currentToken.type = .IDENTIFIER) ∧ p1.left ≤ p.left := by
  unfold parseFactor at h
  split at h
  · rename_i hn
    refine ⟨Or.inl hn, ?_⟩
    cases hv : stoi p.currentToken.value with
    | error e => rw [hv] at h; cases h
    | ok v =>
      rw [hv] at h
      cases he : p.eat .NUMBER with
      | error e => rw [he] at h; cases h
      | ok p2 =>
        rw [he] at h
        exact Nat.le_trans (parseSquare_left h) (eat_left he).1
  · split at h
    · rename_i hi
      refine ⟨Or.inr hi, ?_⟩
      cases he : p.eat .IDENTIFIER with
      | error e => rw [he] at h; cases h
      | ok p2 =>
        rw [he] at h
        exact Nat.le_trans (parseSquare_left h) (eat_left he).1
    · cases h

/-- One turn of the loop of `parseTerm` (or of `parseExpr` with `parseFactor`
in place of `parseTerm`) leaves strictly less input unread. -/
theorem eat_parseFactor_left {p p1 p2 : Parser} {ty : TokenType} {node : ASTNode}
    (he : p.eat ty = .ok p1) (hf : p1.parseFactor = .ok (node, p2)) : p2.left < p.left := by
  have h1 := parseFactor_ok hf
  have h2 := eat_left he
  have hne : p1.currentToken.type ≠ .END := by
    rcases h1.1 with h | h <;> rw [h] <;> decide
  exact Nat.lt_of_le_of_lt h1.2 (h2.2 hne)

theorem parseTermLoop_left (n : Nat) (node n1 : ASTNode) (p p1 : Parser)
    (h : parseTermLoop n node p = .ok (n1, p1)) : p1.left ≤ p.left := by
  induction n generalizing node p with
  | zero => cases h
  | succ n ih =>
    unfold parseTermLoop at h
    split at h
    · cases he : p.eat p.currentToken.type with
      | error e => rw [he] at h; cases h
      | ok p2 =>
        simp only [he] at h
        cases hf : p2.parseFactor with
        | error e => rw [hf] at h; cases h
        | ok x =>
          obtain ⟨right, p3⟩ := x
          simp only [hf] at h
          exact Nat.le_trans (ih _ _ h) (Nat.le_of_lt (eat_parseFactor_left he hf))
    · cases h
      exact Nat.le_refl _

/-- The loop of `parseTerm` gives the same result on every number of steps
above the number of unread characters. -/
theorem parseTermLoop_steps (n m : Nat) (node : ASTNode) (p : Parser)
    (hn : p.left < n) (hm : p.left < m) : parseTermLoop n node p = parseTermLoop m node p := by
  induction n generalizing m node p with
  | zero => omega
  | succ n ih =>
    cases m with
    | zero => omega
    | succ m =>
      unfold parseTermLoop
      split
      · cases he : p.eat p.currentToken.type with
        | error e => rfl
        | ok p2 =>
          dsimp only
          cases hf : p2.parseFactor with
          | error e => rfl
          | ok x =>
            obtain ⟨right, p3⟩ := x
            have := eat_parseFactor_left he hf
            dsimp only
            exact ih m _ p3 (by omega) (by omega)
      · rfl

/-- One turn of the loop of `parseTerm`, with no count of steps. -/
theorem termLoop_unfold (node : ASTNode) (p : Parser) :
    termLoop node p =
      if p.currentToken.type = .MULTIPLY ∨ p.currentToken.type = .DIVIDE then
        match p.eat p.currentToken.type with
        | .error e => .error e
        | .ok p1 =>
          match p1.parseFactor with
          | .error e => .error e
          | .ok (right, p2) =>
            termLoop
              (.BinaryOpNode (if p.currentToken.type = .MULTIPLY then '*' else '/') node right) p2
      else .ok (node, p) := by
  unfold termLoop
  rw [parseTermLoop]
  split
  · cases he : p.eat p.currentToken.type with
    | error e => rfl
    | ok p2 =>
      dsimp only
      cases hf : p2.parseFactor with
      | error e => rfl
      | ok x =>
        obtain ⟨right, p3⟩ := x
        have := eat_parseFactor_left he hf
        dsimp only
        rw [← left_eq, ← left_eq]
        exact parseTermLoop_steps _ _ _ p3 (by omega) (by omega)
  · rfl

theorem parseTerm_eq (p : Parser) :
    p.parseTerm =
      match p.parseFactor with
      | .error e => .error e
      | .ok (node, p1) => termLoop node p1 := rfl

theorem parseExpr_eq (p : Parser) :
    p.parseExpr =
      match p.parseTerm with
      | .error e => .error e
      | .ok (node, p1) => exprLoop node p1 := rfl

theorem parseTerm_ok {p p1 : Parser} {node : ASTNode} (h : p.parseTerm = .ok (node, p1)) :
    (p.currentToken.type = .NUMBER ∨ p.currentToken.type = .IDENTIFIER) ∧ p1.left ≤ p.left := by
  unfold parseTerm at h
  cases hf : p.parseFactor with
  | error e => rw [hf] at h; cases h
  | ok x =>
    obtain ⟨n2, p2⟩ := x
    simp only [hf] at h
    have h1 := parseFactor_ok hf
    exact ⟨h1.1, Nat.le_trans (parseTermLoop_left _ _ _ _ _ h) h1.2⟩

theorem eat_parseTerm_left {p p1 p2 : Parser} {ty : TokenType} {node : ASTNode}
    (he : p.eat ty = .ok p1) (hf : p1.parseTerm = .ok (node, p2)) : p2.left < p.left := by
  have h1 := parseTerm_ok hf
  have h2 := eat_left he
  have hne : p1.currentToken.type ≠ .END := by
    rcases h1.1 with h | h <;> rw [h] <;> decide
  exact Nat.lt_of_le_of_lt h1.2 (h2.2 hne)

theorem parseExprLoop_left (n : Nat) (node n1 : ASTNode) (p p1 : Parser)
    (h : parseExprLoop n node p = .ok (n1, p1)) : p1.left ≤ p.left := by
  induction n generalizing node p with
  | zero => cases h
  | succ n ih =>
    unfold parseExprLoop at h
    split at h
    · cases he : p.eat p.currentToken.type with
      | error e => rw [he] at h; cases h
      | ok p2 =>
        simp only [he] at h
        cases hf : p2.parseTerm with
        | error e => rw [hf] at h; cases h
        | ok x =>
          obtain ⟨right, p3⟩ := x
          simp only [hf] at h
          exact Nat.le_trans (ih _ _ h) (Nat.le_of_lt (eat_parseTerm_left he hf))
    · cases h
      exact Nat.le_refl _

/-- The loop of `parseExpr` gives the same result on every number of steps
above the number of unread characters. -/
theorem parseExprLoop_steps (n m : Nat) (node : ASTNode) (p : Parser)
    (hn : p.left < n) (hm : p.left < m) : parseExprLoop n node p = parseExprLoop m node p := by
  induction n generalizing m node p with
  | zero => omega
  | succ n ih =>
    cases m with
    | zero => omega
    | succ m =>
      unfold parseExprLoop
      split
      · cases he : p.eat p.currentToken.type with
        | error e => rfl
        | ok p2 =>
          dsimp only
          cases hf : p2.parseTerm with
          | error e => rfl
          | ok x =>
            obtain ⟨right, p3⟩ := x
            have := eat_parseTerm_left he hf
            dsimp only
            exact ih m _ p3 (by omega) (by omega)
      · rfl

/-- One turn of the loop of `parseExpr`, with no count of steps. -/
theorem exprLoop_unfold (node : ASTNode) (p : Parser) :
    exprLoop node p =
      if p.currentToken.type = .PLUS ∨ p.currentToken.type = .MINUS then
        match p.eat p.currentToken.type with
        | .error e => .error e
        | .ok p1 =>
          match p1.parseTerm with
          | .error e => .error e
          | .ok (right, p2) =>
            exprLoop
              (.BinaryOpNode (if p.currentToken.type = .PLUS then '+' else '-') node right) p2
      else .ok (node, p) := by
  unfold exprLoop
  rw [parseExprLoop]
  split
  · cases he : p.eat p.currentToken.type with
    | error e => rfl
    | ok p2 =>
      dsimp only
      cases hf : p2.parseTerm with
      | error e => rfl
      | ok x =>
        obtain ⟨right, p3⟩ := x
        have := eat_parseTerm_left he hf
        dsimp only
        rw [← left_eq, ← left_eq]
        exact parseExprLoop_steps _ _ _ p3 (by omega) (by omega)
  · rfl

/-! ### The parser loops never use up their steps -/

theorem symbolToken_error {c : Char} {e : Exn} (h : Lexer.symbolToken c = .error e) :
    e = .runtime_error "Invalid character" := by
  unfold Lexer.symbolToken at h
  repeat' split at h
  all_goals first
    | (cases h; rfl)
    | cases h

theorem getNextToken_error {l : Lexer} {e : Exn} (h : l.getNextToken = .error e) :
    e = .runtime_error "Invalid character" := by
  unfold Lexer.getNextToken at h
  dsimp only at h
  split at h
  · cases h
  · split at h
    · cases h
    · split at h
      · cases h
      · split at h
        · cases h
        · rename_i e1 hs
          cases h
          exact symbolToken_error hs

theorem eat_error {p : Parser} {ty : TokenType} {e : Exn} (h : p.eat ty = .error e) :
    e = .runtime_error "Invalid character" ∨ e = .runtime_error "Unexpected token" := by
  unfold eat at h
  split at h
  · cases hg : p.lexer.getNextToken with
    | error e1 =>
      rw [hg] at h
      cases h
      exact Or.inl (getNextToken_error hg)
    | ok x => rw [hg] at h; cases h
  · cases h
    exact Or.inr rfl

theorem eat_ne_budget {p : Parser} {ty : TokenType} : p.eat ty ≠ .error .budget := by
  intro h
  rcases eat_error h with h1 | h1 <;> cases h1

theorem stoi_ne_budget {s : String} : stoi s ≠ .error .budget := by
  unfold stoi
  dsimp only
  split
  · intro h; cases h
  · split <;> intro h <;> cases h

theorem parseSquare_ne_budget {node : ASTNode} {p : Parser} :
    parseSquare node p ≠ .error .budget := by
  unfold parseSquare
  split
  · cases he : p.eat .SQUARE with
    | error e =>
      intro h
      cases h
      exact eat_ne_budget he
    | ok p1 => intro h; cases h
  · intro h; cases h

theorem parseFactor_ne_budget {p : Parser} : p.parseFactor ≠ .error .budget := by
  unfold parseFactor
  split
  · cases hv : stoi p.currentToken.value with
    | error e =>
      intro h
      cases h
      exact stoi_ne_budget hv
    | ok v =>
      dsimp only
      cases he : p.eat .NUMBER with
      | error e =>
        intro h
        cases h
        exact eat_ne_budget he
      | ok p1 => exact parseSquare_ne_budget
  · split
    · cases he : p.eat .IDENTIFIER with
      | error e =>
        intro h
        cases h
        exact eat_ne_budget he
      | ok p1 => exact parseSquare_ne_budget
    · intro h; cases h

/-- With more steps than unread characters the loop of `parseTerm` ends by
its own condition or by a C++ exception. -/
theorem parseTermLoop_budget (n : Nat) (node : ASTNode) (p : Parser) (hn : p.left < n) :
    parseTermLoop n node p ≠ .error .budget := by
  induction n generalizing node p with
  | zero => omega
  | succ n ih =>
    unfold parseTermLoop
    split
    · cases he : p.eat p.currentToken.type with
      | error e =>
        intro h
        cases h
        exact eat_ne_budget he
      | ok p2 =>
        dsimp only
        cases hf : p2.parseFactor with
        | error e =>
          intro h
          cases h
          exact parseFactor_ne_budget hf
        | ok x =>
          obtain ⟨right, p3⟩ := x
          have := eat_parseFactor_left he hf
          exact ih _ p3 (by omega)
    · intro h; cases h

theorem parseTerm_ne_budget {p : Parser} : p.parseTerm ≠ .error .budget := by
  unfold parseTerm
  cases hf : p.parseFactor with
  | error e =>
    intro h
    cases h
    exact parseFactor_ne_budget hf
  | ok x =>
    obtain ⟨node, p1⟩ := x
    exact parseTermLoop_budget _ _ _ (by rw [left_eq]; omega)

/-- With more steps than unread characters the loop of `parseExpr` ends by
its own condition or by a C++ exception. -/
theorem parseExprLoop_budget (n : Nat) (node : ASTNode) (p : Parser) (hn : p.left < n) :
    parseExprLoop n node p ≠ .error .budget := by
  induction n generalizing node p with
  | zero => omega
  | succ n ih =>
    unfold parseExprLoop
    split
    · cases he : p.eat p.currentToken.type with
      | error e =>
        intro h
        cases h
        exact eat_ne_budget he
      | ok p2 =>
        dsimp only
        cases hf : p2.parseTerm with
        | error e =>
          intro h
          cases h
          exact parseTerm_ne_budget hf
        | ok x =>
          obtain ⟨right, p3⟩ := x
          have := eat_parseTerm_left he hf
          exact ih _ p3 (by omega)
    · intro h; cases h

theorem parseExpr_ne_budget {p : Parser} : p.parseExpr ≠ .error .budget := by
  unfold parseExpr
  cases hf : p.parseTerm with
  | error e =>
    intro h
    cases h
    exact parseTerm_ne_budget hf
  | ok x =>
    obtain ⟨node, p1⟩ := x
    exact parseExprLoop_budget _ _ _ (by rw [left_eq]; omega)

/-- The step budget of the embedding is never what stops `parse`. -/
theorem parse_ne_budget {p : Parser} : p.parse ≠ .error .budget := by
  unfold parse
  split
  · cases he : p.eat .IDENTIFIER with
    | error e =>
      intro h
      cases h
      exact eat_ne_budget he
    | ok p1 =>
      dsimp only
      split
      · cases he2 : p1.eat .ASSIGN with
        | error e =>
          intro h
          cases h
          exact eat_ne_budget he2
        | ok p2 =>
          dsimp only
          cases hx : p2.parseExpr with
          | error e =>
            intro h
            cases h
            exact parseExpr_ne_budget hx
          | ok x => intro h; cases h
      · intro h; cases h
  · exact parseExpr_ne_budget

/-! ### The lookahead after a loop -/

theorem parseTermLoop_exit (n : Nat) (node n1 : ASTNode) (p p1 : Parser)
    (h : parseTermLoop n node p = .ok (n1, p1)) :
    p1.currentToken.type ≠ .MULTIPLY ∧ p1.currentToken.type ≠ .DIVIDE := by
  induction n generalizing node p with
  | zero => cases h
  | succ n ih =>
    unfold parseTermLoop at h
    split at h
    · cases he : p.eat p.currentToken.type with
      | error e => rw [he] at h; cases h
      | ok p2 =>
        simp only [he] at h
        cases hf : p2.parseFactor with
        | error e => rw [hf] at h; cases h
        | ok x =>
          obtain ⟨right, p3⟩ := x
          simp only [hf] at h
          exact ih _ _ h
    · rename_i hc
      cases h
      exact ⟨fun h1 => hc (Or.inl h1), fun h1 => hc (Or.inr h1)⟩

theorem parseTerm_exit {p p1 : Parser} {node : ASTNode} (h : p.parseTerm = .ok (node, p1)) :
    p1.currentToken.type ≠ .MULTIPLY ∧ p1.currentToken.type ≠ .DIVIDE := by
  unfold parseTerm at h
  cases hf : p.parseFactor with
  | error e => rw [hf] at h; cases h
  | ok x =>
    obtain ⟨n2, p2⟩ := x
    simp only [hf] at h
    exact parseTermLoop_exit _ _ _ _ _ h

theorem parseExprLoop_exit (n : Nat) (node n1 : ASTNode) (p p1 : Parser)
    (h : parseExprLoop n node p = .ok (n1, p1))
    (hp : p.currentToken.type ≠ .MULTIPLY ∧ p.currentToken.type ≠ .DIVIDE) :
    p1.currentToken.type ≠ .PLUS ∧ p1.currentToken.type ≠ .MINUS ∧
      p1.currentToken.type ≠ .MULTIPLY ∧ p1.currentToken.type ≠ .DIVIDE := by
  induction n generalizing node p with
  | zero => cases h
  | succ n ih =>
    unfold parseExprLoop at h
    split at h
    · cases he : p.eat p.currentToken.type with
      | error e => rw [he] at h; cases h
      | ok p2 =>
        simp only [he] at h
        cases hf : p2.parseTerm with
        | error e => rw [hf] at h; cases h
        | ok x =>
          obtain ⟨right, p3⟩ := x
          simp only [hf] at h
          exact ih _ _ h (parseTerm_exit hf)
    · rename_i hc
      cases h
      exact ⟨fun h1 => hc (Or.inl h1), fun h1 => hc (Or.inr h1), hp.1, hp.2⟩

/-- When `parseExpr` returns, the lookahead is none of `+ - * /`. -/
theorem parseExpr_exit {p p1 : Parser} {node : ASTNode} (h : p.parseExpr = .ok (node, p1)) :
    p1.currentToken.type ≠ .PLUS ∧ p1.currentToken.type ≠ .MINUS ∧
      p1.currentToken.type ≠ .MULTIPLY ∧ p1.currentToken.type ≠ .DIVIDE := by
  unfold parseExpr at h
  cases hf : p.parseTerm with
  | error e => rw [hf] at h; cases h
  | ok x =>
    obtain ⟨n2, p2⟩ := x
    simp only [hf] at h
    exact parseExprLoop_exit _ _ _ _ _ h (parseTerm_exit hf)

/-! ### The parser on a known token stream -/

theorem sees_type {p : Parser} {ts : List Token} (h : p.Sees ts) :
    p.currentToken.type = headType ts := by
  cases ts with
  | nil =>
    have h1 : p.currentToken = ⟨.END, ""⟩ := h
    rw [h1]; rfl
  | cons t ts => rw [h.1]; rfl

theorem eat_sees {p : Parser} {t : Token} {ts : List Token} (h : p.Sees (t :: ts)) :
    ∃ p1, p.eat t.type = .ok p1 ∧ p1.Sees ts := by
  obtain ⟨htok, _, r1, r2, hseg, hend⟩ := h
  have hs := eat_spec p t.type (by rw [htok])
  cases ts with
  | nil =>
    have hseg1 : p.lexer.rest = r1 := hseg
    rw [hseg1, hend] at hs
    obtain ⟨p1, h1, h2, _⟩ := hs
    exact ⟨p1, h1, h2⟩
  | cons t2 ts =>
    obtain ⟨hne2, r3, hl, hseg2⟩ := hseg
    rw [hl] at hs
    obtain ⟨p1, h1, h2, h3⟩ := hs
    refine ⟨p1, h1, h2, hne2, r1, r2, ?_, hend⟩
    rw [h3]
    exact hseg2

theorem stoi_literal {ds : List Char} (h : IsLiteral ds) :
    stoi ⟨ds⟩ = .ok (decimalValue ds : Nat) := by
  obtain ⟨hne, hds, hmax⟩ := h
  have ht : List.takeWhile Lexer.isdigit ds = ds := by
    have := @List.takeWhile_append_of_pos Char Lexer.isdigit ds [] hds
    simpa using this
  unfold stoi
  simp only [ht, hne, if_false]
  rw [if_neg (by omega)]

theorem parseSquare_stay {p : Parser} {ts : List Token} (node : ASTNode) (h : p.Sees ts)
    (hts : headType ts ≠ .SQUARE) : parseSquare node p = .ok (node, p) := by
  unfold parseSquare
  rw [sees_type h, if_neg hts]

theorem parseSquare_sq {p : Parser} {v : String} {ts : List Token} (node : ASTNode)
    (h : p.Sees (⟨.SQUARE, v⟩ :: ts)) :
    ∃ p1, parseSquare node p = .ok (.SquareNode node, p1) ∧ p1.Sees ts := by
  obtain ⟨p1, he, hs⟩ := eat_sees h
  have he1 : p.eat .SQUARE = .ok p1 := he
  refine ⟨p1, ?_, hs⟩
  unfold parseSquare
  rw [sees_type h]
  simp only [headType, if_true, he1]

/-- On the tokens of a well-formed factor, followed by a token that is no
square, `parseFactor` returns the tree of the factor and stops behind it. -/
theorem parseFactor_sees (f : Factor) (hf : f.WellFormed) (ts : List Token)
    (hts : headType ts ≠ .SQUARE) (p : Parser) (h : p.Sees (f.tokens ++ ts)) :
    ∃ p1, p.parseFactor = .ok (f.node, p1) ∧ p1.Sees ts := by
  obtain ⟨isNumber, text, squared⟩ := f
  cases isNumber with
  | true =>
    have hlit : IsLiteral text := hf
    simp only [Factor.tokens, if_true, List.cons_append] at h
    obtain ⟨p1, he, hs⟩ := eat_sees h
    have he1 : p.eat .NUMBER = .ok p1 := he
    have htok : p.currentToken = ⟨.NUMBER, ⟨text⟩⟩ := h.1
    unfold parseFactor
    simp only [htok, if_true, stoi_literal hlit]
    simp only [he1]
    cases squared with
    | false =>
      simp only [Bool.false_eq_true, if_false, List.nil_append] at hs
      exact ⟨p1, by simp [Factor.node, parseSquare_stay _ hs hts], hs⟩
    | true =>
      simp only [if_true, List.cons_append, List.nil_append] at hs
      obtain ⟨p2, h2, hs2⟩ := parseSquare_sq (.NumberNode (decimalValue text : Nat)) hs
      exact ⟨p2, by simp [Factor.node, h2], hs2⟩
  | false =>
    simp only [Factor.tokens, Bool.false_eq_true, if_false, List.cons_append] at h
    obtain ⟨p1, he, hs⟩ := eat_sees h
    have he1 : p.eat .IDENTIFIER = .ok p1 := he
    have htok : p.currentToken = ⟨.IDENTIFIER, ⟨text⟩⟩ := h.1
    unfold parseFactor
    have hty : p.currentToken.type = .IDENTIFIER := by rw [htok]
    have hval : p.currentToken.value = ⟨text⟩ := by rw [htok]
    simp only [hty, hval, he1]
    simp only [reduceCtorEq, if_false, if_true]
    cases squared with
    | false =>
      simp only [Bool.false_eq_true, if_false, List.nil_append] at hs
      exact ⟨p1, by simp [Factor.node, parseSquare_stay _ hs hts], hs⟩
    | true =>
      simp only [if_true, List.cons_append, List.nil_append] at hs
      obtain ⟨p2, h2, hs2⟩ := parseSquare_sq (.VariableNode ⟨text⟩) hs
      exact ⟨p2, by simp [Factor.node, h2], hs2⟩

theorem headType_chain {α : Type} (toks : α → List Token) (rest : List (Char × α))
    (ts : List Token) (P : TokenType → Prop) (hops : ∀ x ∈ rest, P (opToken x.1).type)
    (hts : P (headType ts)) : P (headType (chainTokens toks rest ++ ts)) := by
  cases rest with
  | nil => exact hts
  | cons x rest => exact hops x (List.mem_cons_self _ _)

theorem opToken_mul {op : Char} (h : op = '*' ∨ op = '/') :
    ((opToken op).type = .MULTIPLY ∨ (opToken op).type = .DIVIDE) ∧
      (if (opToken op).type = .MULTIPLY then '*' else '/') = op ∧
      (opToken op).type ≠ .SQUARE ∧ (opToken op).type ≠ .PLUS ∧ (opToken op).type ≠ .MINUS := by
  rcases h with h | h <;> subst h <;> decide

theorem opToken_add {op : Char} (h : op = '+' ∨ op = '-') :
    ((opToken op).type = .PLUS ∨ (opToken op).type = .MINUS) ∧
      (if (opToken op).type = .PLUS then '+' else '-') = op ∧
      (opToken op).type ≠ .SQUARE ∧ (opToken op).type ≠ .MULTIPLY ∧
      (opToken op).type ≠ .DIVIDE := by
  rcases h with h | h <;> subst h <;> decide

theorem termLoop_stop {p : Parser} {ts : List Token} (node : ASTNode) (h : p.Sees ts)
    (h1 : headType ts ≠ .MULTIPLY) (h2 : headType ts ≠ .DIVIDE) :
    termLoop node p = .ok (node, p) := by
  rw [termLoop_unfold, sees_type h, if_neg (by simp [h1, h2])]

theorem exprLoop_stop {p : Parser} {ts : List Token} (node : ASTNode) (h : p.Sees ts)
    (h1 : headType ts ≠ .PLUS) (h2 : headType ts ≠ .MINUS) :
    exprLoop node p = .ok (node, p) := by
  rw [exprLoop_unfold, sees_type h, if_neg (by simp [h1, h2])]

/-- The loop of `parseTerm` folds a chain of `*` and `/` factors to the left. -/
theorem termLoop_chain (rest : List (Char × Factor))
    (hrest : ∀ x ∈ rest, (x.1 = '*' ∨ x.1 = '/') ∧ x.2.WellFormed) (ts : List Token)
    (hts : headType ts ≠ .MULTIPLY ∧ headType ts ≠ .DIVIDE ∧ headType ts ≠ .SQUARE)
    (node : ASTNode) (p : Parser) (h : p.Sees (chainTokens Factor.tokens rest ++ ts)) :
    ∃ p1, termLoop node p = .ok (chainNode Factor.node node rest, p1) ∧ p1.Sees ts := by
  induction rest generalizing node p with
  | nil => exact ⟨p, termLoop_stop node h hts.1 hts.2.1, h⟩
  | cons x rest ih =>
    have hx := hrest x (List.mem_cons_self _ _)
    have hrest1 : ∀ y ∈ rest, (y.1 = '*' ∨ y.1 = '/') ∧ y.2.WellFormed :=
      fun y hy => hrest y (List.mem_cons_of_mem _ hy)
    simp only [chainTokens, List.cons_append, List.append_assoc] at h
    obtain ⟨p1, he, hs⟩ := eat_sees h
    have hty : p.currentToken.type = (opToken x.1).type := by rw [h.1]
    have hsq : headType (chainTokens Factor.tokens rest ++ ts) ≠ .SQUARE :=
      headType_chain Factor.tokens rest ts (fun t => t ≠ .SQUARE)
        (fun y hy => (opToken_mul (hrest1 y hy).1).2.2.1) hts.2.2
    obtain ⟨p2, hf, hs2⟩ := parseFactor_sees x.2 hx.2 _ hsq p1 hs
    obtain ⟨p3, hl, hs3⟩ := ih hrest1 (.BinaryOpNode x.1 node x.2.node) p2 hs2
    refine ⟨p3, ?_, hs3⟩
    have hm := opToken_mul hx.1
    rw [termLoop_unfold, hty, if_pos hm.1, he]
    simp only [hf, hm.2.1]
    exact hl

/-- On the tokens of a well-formed term `parseTerm` returns its tree. -/
theorem parseTerm_sees (t : Term) (ht : t.WellFormed) (ts : List Token)
    (hts : headType ts ≠ .MULTIPLY ∧ headType ts ≠ .DIVIDE ∧ headType ts ≠ .SQUARE)
    (p : Parser) (h : p.Sees (t.tokens ++ ts)) :
    ∃ p1, p.parseTerm = .ok (t.node, p1) ∧ p1.Sees ts := by
  simp only [Term.tokens, List.append_assoc] at h
  have hsq : headType (chainTokens Factor.tokens t.more ++ ts) ≠ .SQUARE :=
    headType_chain Factor.tokens t.more ts (fun t => t ≠ .SQUARE)
      (fun y hy => (opToken_mul (ht.2 y hy).1).2.2.1) hts.2.2
  obtain ⟨p1, hf, hs⟩ := parseFactor_sees t.first ht.1 _ hsq p h
  obtain ⟨p2, hl, hs2⟩ := termLoop_chain t.more ht.2 ts hts t.first.node p1 hs
  refine ⟨p2, ?_, hs2⟩
  rw [parseTerm_eq, hf]
  exact hl

/-- The loop of `parseExpr` folds a chain of `+` and `-` terms to the left. -/
theorem exprLoop_chain (rest : List (Char × Term))
    (hrest : ∀ x ∈ rest, (x.1 = '+' ∨ x.1 = '-') ∧ x.2.WellFormed) (ts : List Token)
    (hts : (headType ts ≠ .PLUS ∧ headType ts ≠ .MINUS) ∧
      headType ts ≠ .MULTIPLY ∧ headType ts ≠ .DIVIDE ∧ headType ts ≠ .SQUARE)
    (node : ASTNode) (p : Parser) (h : p.Sees (chainTokens Term.tokens rest ++ ts)) :
    ∃ p1, exprLoop node p = .ok (chainNode Term.node node rest, p1) ∧ p1.Sees ts := by
  induction rest generalizing node p with
  | nil => exact ⟨p, exprLoop_stop node h hts.1.1 hts.1.2, h⟩
  | cons x rest ih =>
    have hx := hrest x (List.mem_cons_self _ _)
    have hrest1 : ∀ y ∈ rest, (y.1 = '+' ∨ y.1 = '-') ∧ y.2.WellFormed :=
      fun y hy => hrest y (List.mem_cons_of_mem _ hy)
    simp only [chainTokens, List.cons_append, List.append_assoc] at h
    obtain ⟨p1, he, hs⟩ := eat_sees h
    have hty : p.currentToken.type = (opToken x.1).type := by rw [h.1]
    have hnext : headType (chainTokens Term.tokens rest ++ ts) ≠ .MULTIPLY ∧
        headType (chainTokens Term.tokens rest ++ ts) ≠ .DIVIDE ∧
        headType (chainTokens Term.tokens rest ++ ts) ≠ .SQUARE :=
      headType_chain Term.tokens rest ts
        (fun t => t ≠ .MULTIPLY ∧ t ≠ .DIVIDE ∧ t ≠ .SQUARE)
        (fun y hy =>
          have := opToken_add (hrest1 y hy).1
          ⟨this.2.2.2.1, this.2.2.2.2, this.2.2.1⟩) hts.2
    obtain ⟨p2, hf, hs2⟩ := parseTerm_sees x.2 hx.2 _ hnext p1 hs
    obtain ⟨p3, hl, hs3⟩ := ih hrest1 (.BinaryOpNode x.1 node x.2.node) p2 hs2
    refine ⟨p3, ?_, hs3⟩
    have hm := opToken_add hx.1
    rw [exprLoop_unfold, hty, if_pos hm.1, he]
    simp only [hf, hm.2.1]
    exact hl

/-- On the tokens of a well-formed expression `parseExpr` returns its tree. -/
theorem parseExpr_sees (e : Expr) (he : e.WellFormed) (ts : List Token)
    (hts : (headType ts ≠ .PLUS ∧ headType ts ≠ .MINUS) ∧
      headType ts ≠ .MULTIPLY ∧ headType ts ≠ .DIVIDE ∧ headType ts ≠ .SQUARE)
    (p : Parser) (h : p.Sees (e.tokens ++ ts)) :
    ∃ p1, p.parseExpr = .ok (e.node, p1) ∧ p1.Sees ts := by
  simp only [Expr.tokens, List.append_assoc] at h
  have hnext : headType (chainTokens Term.tokens e.more ++ ts) ≠ .MULTIPLY ∧
      headType (chainTokens Term.tokens e.more ++ ts) ≠ .DIVIDE ∧
      headType (chainTokens Term.tokens e.more ++ ts) ≠ .SQUARE :=
    headType_chain Term.tokens e.more ts
      (fun t => t ≠ .MULTIPLY ∧ t ≠ .DIVIDE ∧ t ≠ .SQUARE)
      (fun y hy =>
        have := opToken_add (he.2 y hy).1
        ⟨this.2.2.2.1, this.2.2.2.2, this.2.2.1⟩) hts.2
  obtain ⟨p1, hf, hs⟩ := parseTerm_sees e.first he.1 _ hnext p h
  obtain ⟨p2, hl, hs2⟩ := exprLoop_chain e.more he.2 ts hts e.first.node p1 hs
  refine ⟨p2, ?_, hs2⟩
  rw [parseExpr_eq, hf]
  exact hl

/-- The constructor of `Parser` on an input that lexes to a non-empty token
list has that list before it. -/
theorem new_sees (s : String) (t : Token) (ts : List Token) (h : Lexes s.data (t :: ts)) :
    ∃ p, Parser.new (Lexer.new s) = .ok p ∧ p.Sees (t :: ts) := by
  obtain ⟨r1, r2, ⟨hne, r3, hl, hseg⟩, hend⟩ := h
  have hs := Lexer.getNextToken_spec (Lexer.new s)
  have hrest : (Lexer.new s).rest = s.data := by simp [Lexer.rest, Lexer.new]
  rw [hrest, hl] at hs
  obtain ⟨l1, h1, _, h3⟩ := hs
  refine ⟨⟨l1, t⟩, ?_, rfl, hne, r1, r2, ?_, hend⟩
  · unfold Parser.new
    rw [h1]
  · show LexSeg l1.rest ts r1
    rw [h3]
    exact hseg

end Parser

/-- An input that lexes to the tokens of a well-formed expression beginning
with a literal parses to the left-folded tree of the expression, and `parse`
stops at END. -/
theorem parseInput_tokens (s : String) (e : Expr) (he : e.WellFormed)
    (hnum : e.first.first.isNumber = true) (hlex : Lexes s.data e.tokens) :
    ∃ p, parseInput s = .ok (e.node, p) ∧ p.currentToken = ⟨.END, ""⟩ := by
  cases htk : e.tokens with
  | nil => simp [Expr.tokens, Term.tokens, Factor.tokens] at htk
  | cons t ts =>
    rw [htk] at hlex
    obtain ⟨p, hnew, hs⟩ := Parser.new_sees s t ts hlex
    rw [← htk] at hs
    have hs1 : p.Sees (e.tokens ++ []) := by rw [List.append_nil]; exact hs
    obtain ⟨p1, hp, hs2⟩ := Parser.parseExpr_sees e he [] (by decide) p hs1
    refine ⟨p1, ?_, hs2⟩
    have hty : p.currentToken.type = .NUMBER := by
      rw [Parser.sees_type hs]
      simp [Expr.tokens, Term.tokens, Factor.tokens, headType, hnum]
    unfold parseInput
    rw [hnew]
    simp only
    unfold Parser.parse
    rw [hty, if_neg (by decide)]
    exact hp

theorem parseTree_tokens (s : String) (e : Expr) (he : e.WellFormed)
    (hnum : e.first.first.isNumber = true) (hlex : Lexes s.data e.tokens) :
    parseTree s = .ok e.node := by
  obtain ⟨p, hp, _⟩ := parseInput_tokens s e he hnum hlex
  unfold parseTree
  rw [hp]

/-- An input that is a well-formed written expression beginning with a
literal parses to the left-folded tree of the expression. -/
theorem parseTree_expr (e : Expr) (he : e.WellFormed) (hnum : e.first.first.isNumber = true) :
    parseTree ⟨e.source⟩ = .ok e.node :=
  parseTree_tokens ⟨e.source⟩ e he hnum (Lexes_expr e he)

/-! ## The evaluator -/

/-- A tree without assignment leaves the variable map as it found it. -/
theorem evaluate_noAssign (t : ASTNode) (s : Store) (h : noAssign t = true) :
    (evaluate t s).2 = s := by
  induction t generalizing s with
  | NumberNode v => rfl
  | BinaryOpNode op l r ihl ihr =>
    simp only [noAssign, Bool.and_eq_true] at h
    have hl := ihl s h.1
    cases hel : evaluate l s with
    | mk o s1 =>
      rw [hel] at hl
      simp only at hl
      subst hl
      have hr := ihr s1 h.2
      cases her : evaluate r s1 with
      | mk o2 s2 =>
        rw [her] at hr
        simp only at hr
        subst hr
        cases o <;> cases o2 <;> simp [evaluate, hel, her]
  | SquareNode t ih =>
    simp only [noAssign] at h
    have ht := ih s h
    cases het : evaluate t s with
    | mk o s1 =>
      rw [het] at ht
      simp only at ht
      subst ht
      cases o <;> simp [evaluate, het]
  | AssignmentNode n t ih => simp [noAssign] at h
  | VariableNode n =>
    unfold evaluate
    cases s.find n <;> rfl

theorem wrap32_of_range (x : Int) (h1 : -2147483648 ≤ x) (h2 : x ≤ 2147483647) :
    wrap32 x = x := by
  unfold wrap32
  omega

theorem evaluate_binary_numbers (op : Char) (a b : Int) (s : Store) :
    evaluate (.BinaryOpNode op (.NumberNode a) (.NumberNode b)) s = (applyOp op a b, s) := by
  simp [evaluate]

theorem chainSource_single (rest : List (Char × Factor)) :
    chainSource Term.source (rest.map fun x => (x.1, (⟨x.2, []⟩ : Term))) =
      chainSource Factor.source rest := by
  induction rest with
  | nil => rfl
  | cons x rest ih => simp [chainSource, Term.source, ih]

theorem chainNode_single (first : ASTNode) (rest : List (Char × Factor)) :
    chainNode Term.node first (rest.map fun x => (x.1, (⟨x.2, []⟩ : Term))) =
      chainNode Factor.node first rest := by
  induction rest generalizing first with
  | nil => rfl
  | cons x rest ih =>
    simp only [chainNode, List.map_cons, List.foldl_cons] at ih ⊢
    exact ih _

/-! ## Claims -/

/-- C2, at the input "5 / 0": the parser returns the division of 5 by 0 and
its evaluation ends in the divide fault of the unchecked `l / r`; no
exception is thrown, so no division-by-zero error reaches the caller. -/
theorem C2_division_by_zero_unchecked :
    parseTree "5 / 0" = .ok (.BinaryOpNode '/' (.NumberNode 5) (.NumberNode 0)) ∧
      (evaluate (.BinaryOpNode '/' (.NumberNode 5) (.NumberNode 0)) Store.empty).1 = .trap ∧
      ∀ e, (evaluate (.BinaryOpNode '/' (.NumberNode 5) (.NumberNode 0)) Store.empty).1 ≠
        .thrown e := by
  refine ⟨by decide, by decide, ?_⟩
  intro e h
  have h2 : (evaluate (.BinaryOpNode '/' (.NumberNode 5) (.NumberNode 0)) Store.empty).1 =
      .trap := by decide
  rw [h2] at h
  cases h

/-- C3: reading a variable n that has no entry in the store throws the runtime
error "Undefined variable: n"; the result is not the value zero and the store
is returned as it was, still without an entry for n.  The input "y" parses to
the reference to y. -/
theorem C3_undefined_variable (n : String) (s : Store) (h : s.find n = none) :
    evaluate (.VariableNode n) s =
        (.thrown (.runtime_error ("Undefined variable: " ++ n)), s) ∧
      (evaluate (.VariableNode n) s).1 ≠ .value 0 ∧
      (evaluate (.VariableNode n) s).2.find n = none ∧
      parseTree "y" = .ok (.VariableNode "y") := by
  have h1 : evaluate (.VariableNode n) s =
      (.thrown (.runtime_error ("Undefined variable: " ++ n)), s) := by
    unfold evaluate
    rw [h]
  refine ⟨h1, ?_, ?_, by decide⟩
  · rw [h1]; intro h2; cases h2
  · rw [h1]; exact h

/-- C3 at the variable y and the empty store. -/
theorem C3_undefined_variable_witness :
    Store.empty.find "y" = none ∧
      evaluate (.VariableNode "y") Store.empty =
        (.thrown (.runtime_error "Undefined variable: y"), Store.empty) :=
  ⟨rfl, (C3_undefined_variable "y" Store.empty rfl).1⟩

/-- C4 as stated fails when the value expression itself assigns: evaluating
the assignment of (y = 1) to x in the empty store succeeds with 1, and the
entry of the other name y is changed from absent to 1. -/
theorem C4_counterexample :
    (evaluate (.AssignmentNode "y" (.NumberNode 1)) Store.empty).1 = .value 1 ∧
      (evaluate (.AssignmentNode "x" (.AssignmentNode "y" (.NumberNode 1))) Store.empty).1 =
        .value 1 ∧
      "y" ≠ "x" ∧
      Store.empty.find "y" = none ∧
      (evaluate (.AssignmentNode "x" (.AssignmentNode "y" (.NumberNode 1)))
        Store.empty).2.find "y" = some 1 := by
  decide

/-- C4, amended: when evaluating e in s succeeds with value v and store s1,
evaluating the assignment of e to n returns v with the store s1 updated at n:
n is mapped to v, every other name has the entry it has in s1, and reading n
from that store returns v.  When e contains no assignment s1 is s.  Evaluating
the parse of "x = 7" and then the parse of "x" returns 7. -/
theorem C4_assignment (n : String) (e : ASTNode) (s s1 : Store) (v : Int)
    (h : evaluate e s = (.value v, s1)) :
    evaluate (.AssignmentNode n e) s = (.value v, s1.assign n v) ∧
      (s1.assign n v).find n = some v ∧
      (∀ m, m ≠ n → (s1.assign n v).find m = s1.find m) ∧
      evaluate (.VariableNode n) (s1.assign n v) = (.value v, s1.assign n v) ∧
      (noAssign e = true → s1 = s) ∧
      (parseTree "x = 7" = .ok (.AssignmentNode "x" (.NumberNode 7)) ∧
        parseTree "x" = .ok (.VariableNode "x") ∧
        ∀ s0, (evaluate (.VariableNode "x")
          (evaluate (.AssignmentNode "x" (.NumberNode 7)) s0).2).1 = .value 7) := by
  have hfind : (s1.assign n v).find n = some v := by simp [Store.assign, Store.find]
  refine ⟨?_, hfind, ?_, ?_, ?_, by decide, by decide, ?_⟩
  · unfold evaluate
    rw [h]
  · intro m hm
    simp [Store.assign, Store.find, hm]
  · unfold evaluate
    rw [hfind]
  · intro hna
    have := evaluate_noAssign e s hna
    rw [h] at this
    exact this
  · intro s0
    simp [evaluate, Store.assign, Store.find]

/-- C4 (amended) at the assignment of 7 to x in the empty store. -/
theorem C4_assignment_witness :
    evaluate (.NumberNode 7) Store.empty = (.value 7, Store.empty) ∧
      evaluate (.AssignmentNode "x" (.NumberNode 7)) Store.empty =
        (.value 7, Store.empty.assign "x" 7) :=
  ⟨rfl, (C4_assignment "x" (.NumberNode 7) Store.empty Store.empty 7 rfl).1⟩

/-- C7, at the inputs "x + 1" and "x ^": `parse` returns the bare reference
to x and leaves the operator unread as lookahead, where `parseExpr` on the
same input returns the sum of x and 1, and the square of x. -/
theorem C7_identifier_statement_stops_early :
    parseTree "x + 1" = .ok (.VariableNode "x") ∧
      exprTree "x + 1" = .ok (.BinaryOpNode '+' (.VariableNode "x") (.NumberNode 1)) ∧
      parseTree "x ^" = .ok (.VariableNode "x") ∧
      exprTree "x ^" = .ok (.SquareNode (.VariableNode "x")) := by
  decide

/-- C10: for op among + - * /, when the operands emit rcode (right) and lcode
(left), the binary node emits rcode, the line "    push eax", lcode, the line
"    pop ebx" and the instruction of op (add, sub, imul, or cdq and idiv); so
the text of the right operand stands before the text of the left operand. -/
theorem C10_binary_emission (op : Char) (l r : ASTNode) (lcode rcode : String)
    (hop : op = '+' ∨ op = '-' ∨ op = '*' ∨ op = '/')
    (hl : toAssembly l = .ok lcode) (hr : toAssembly r = .ok rcode) :
    (op = '+' → toAssembly (.BinaryOpNode op l r) =
        .ok (rcode ++ "    push eax\n" ++ lcode ++ "    pop ebx\n" ++ "    add eax, ebx\n")) ∧
      (op = '-' → toAssembly (.BinaryOpNode op l r) =
        .ok (rcode ++ "    push eax\n" ++ lcode ++ "    pop ebx\n" ++ "    sub eax, ebx\n")) ∧
      (op = '*' → toAssembly (.BinaryOpNode op l r) =
        .ok (rcode ++ "    push eax\n" ++ lcode ++ "    pop ebx\n" ++ "    imul eax, ebx\n")) ∧
      (op = '/' → toAssembly (.BinaryOpNode op l r) =
        .ok (rcode ++ "    push eax\n" ++ lcode ++ "    pop ebx\n" ++
          "    cdq\n    idiv ebx\n")) ∧
      ∃ mid post, toAssembly (.BinaryOpNode op l r) = .ok (rcode ++ mid ++ lcode ++ post) := by
  refine ⟨?_, ?_, ?_, ?_, ?_⟩
  · intro h; subst h; simp [toAssembly, hl, hr, opInstr]
  · intro h; subst h; simp [toAssembly, hl, hr, opInstr]
  · intro h; subst h; simp [toAssembly, hl, hr, opInstr]
  · intro h; subst h; simp [toAssembly, hl, hr, opInstr]
  · rcases hop with h | h | h | h <;> subst h
    · exact ⟨"    push eax\n", "    pop ebx\n" ++ "    add eax, ebx\n", by
        simp [toAssembly, hl, hr, opInstr, String.append_assoc]⟩
    · exact ⟨"    push eax\n", "    pop ebx\n" ++ "    sub eax, ebx\n", by
        simp [toAssembly, hl, hr, opInstr, String.append_assoc]⟩
    · exact ⟨"    push eax\n", "    pop ebx\n" ++ "    imul eax, ebx\n", by
        simp [toAssembly, hl, hr, opInstr, String.append_assoc]⟩
    · exact ⟨"    push eax\n", "    pop ebx\n" ++ "    cdq\n    idiv ebx\n", by
        simp [toAssembly, hl, hr, opInstr, String.append_assoc]⟩

/-- C10 at the difference of 8 and x. -/
theorem C10_binary_emission_witness :
    toAssembly (.NumberNode 8) = .ok "    mov eax, 8\n" ∧
      toAssembly (.VariableNode "x") = .ok "    mov eax, [x]\n" ∧
      toAssembly (.BinaryOpNode '-' (.NumberNode 8) (.VariableNode "x")) =
        .ok ("    mov eax, [x]\n" ++ "    push eax\n" ++ "    mov eax, 8\n" ++ "    pop ebx\n" ++
          "    sub eax, ebx\n") :=
  ⟨by decide, by decide,
    (C10_binary_emission '-' (.NumberNode 8) (.VariableNode "x") _ _ (Or.inr (Or.inl rfl))
      (by decide) (by decide)).2.1 rfl⟩

/-- C1: for literals d1 and d2 that fit a 32-bit int and op among + - * /
(d2 not of value 0 when op is /), the input "d1 op d2" parses to the binary
node of the two literals and evaluates, in every store, to the int result of
op on the two values: the sum and the product as a 32-bit int (exact when
they fit), the exact difference, and the truncated quotient. -/
theorem C1_binary_round_trip (d1 d2 : List Char) (op : Char) (h1 : IsLiteral d1)
    (h2 : IsLiteral d2) (hop : op = '+' ∨ op = '-' ∨ op = '*' ∨ op = '/')
    (hdiv : op = '/' → decimalValue d2 ≠ 0) :
    parseTree ⟨d1 ++ ' ' :: op :: ' ' :: d2⟩ =
        .ok (.BinaryOpNode op (.NumberNode (decimalValue d1)) (.NumberNode (decimalValue d2))) ∧
      ∀ s : Store,
        (op = '+' →
          evaluate (.BinaryOpNode op (.NumberNode (decimalValue d1))
              (.NumberNode (decimalValue d2))) s =
            (.value (wrap32 ((decimalValue d1 : Int) + decimalValue d2)), s) ∧
          (decimalValue d1 + decimalValue d2 ≤ 2147483647 →
            wrap32 ((decimalValue d1 : Int) + decimalValue d2) =
              (decimalValue d1 : Int) + decimalValue d2)) ∧
        (op = '-' →
          evaluate (.BinaryOpNode op (.NumberNode (decimalValue d1))
              (.NumberNode (decimalValue d2))) s =
            (.value ((decimalValue d1 : Int) - decimalValue d2), s)) ∧
        (op = '*' →
          evaluate (.BinaryOpNode op (.NumberNode (decimalValue d1))
              (.NumberNode (decimalValue d2))) s =
            (.value (wrap32 ((decimalValue d1 : Int) * decimalValue d2)), s) ∧
          (decimalValue d1 * decimalValue d2 ≤ 2147483647 →
            wrap32 ((decimalValue d1 : Int) * decimalValue d2) =
              (decimalValue d1 : Int) * decimalValue d2)) ∧
        (op = '/' →
          evaluate (.BinaryOpNode op (.NumberNode (decimalValue d1))
              (.NumberNode (decimalValue d2))) s =
            (.value ((decimalValue d1 / decimalValue d2 : Nat) : Int), s)) := by
  have hf1 : (⟨true, d1, false⟩ : Factor).WellFormed := h1
  have hf2 : (⟨true, d2, false⟩ : Factor).WellFormed := h2
  have hm1 := h1.2.2
  have hm2 := h2.2.2
  constructor
  · by_cases hadd : op = '+' ∨ op = '-'
    · have he : (⟨⟨⟨true, d1, false⟩, []⟩, [(op, ⟨⟨true, d2, false⟩, []⟩)]⟩ : Expr).WellFormed := by
        refine ⟨⟨hf1, fun x hx => by cases hx⟩, fun x hx => ?_⟩
        rw [List.mem_singleton] at hx
        subst hx
        exact ⟨hadd, hf2, fun x hx => by cases hx⟩
      have h := parseTree_expr _ he rfl
      simpa [Expr.source, Term.source, Factor.source, chainSource, Expr.node, Term.node,
        Factor.node, chainNode] using h
    · have hmul : op = '*' ∨ op = '/' := by
        rcases hop with h | h | h | h
        · exact absurd (Or.inl h) hadd
        · exact absurd (Or.inr h) hadd
        · exact Or.inl h
        · exact Or.inr h
      have he : (⟨⟨⟨true, d1, false⟩, [(op, ⟨true, d2, false⟩)]⟩, []⟩ : Expr).WellFormed := by
        refine ⟨⟨hf1, fun x hx => ?_⟩, fun x hx => by cases hx⟩
        rw [List.mem_singleton] at hx
        subst hx
        exact ⟨hmul, hf2⟩
      have h := parseTree_expr _ he rfl
      simpa [Expr.source, Term.source, Factor.source, chainSource, Expr.node, Term.node,
        Factor.node, chainNode] using h
  · intro s
    rw [evaluate_binary_numbers]
    refine ⟨?_, ?_, ?_, ?_⟩
    · intro h
      subst h
      refine ⟨by simp [applyOp], fun hle => wrap32_of_range _ (by omega) (by omega)⟩
    · intro h
      subst h
      have hw := wrap32_of_range ((decimalValue d1 : Int) - decimalValue d2) (by omega) (by omega)
      simp [applyOp, hw]
    · intro h
      subst h
      refine ⟨by simp [applyOp], fun hle => wrap32_of_range _ ?_ ?_⟩
      · have : (0 : Int) ≤ (decimalValue d1 : Int) * decimalValue d2 := by positivity
        omega
      · exact_mod_cast hle
    · intro h
      have hne := hdiv h
      subst h
      have hne1 : ¬ ((decimalValue d2 : Int) = 0) := by exact_mod_cast hne
      have hne2 : ¬ ((decimalValue d1 : Int) = -2147483648 ∧ (decimalValue d2 : Int) = -1) := by
        omega
      rw [Int.ofNat_tdiv]
      simp [applyOp, hne1, hne2]

/-- C1 at the input "7 / 2". -/
theorem C1_binary_round_trip_witness :
    IsLiteral ['7'] ∧ IsLiteral ['2'] ∧
      parseTree "7 / 2" = .ok (.BinaryOpNode '/' (.NumberNode 7) (.NumberNode 2)) ∧
      evaluate (.BinaryOpNode '/' (.NumberNode 7) (.NumberNode 2)) Store.empty =
        (.value 3, Store.empty) :=
  ⟨by decide, by decide,
    (C1_binary_round_trip ['7'] ['2'] '/' (by decide) (by decide) (by decide) (by decide)).1,
    ((C1_binary_round_trip ['7'] ['2'] '/' (by decide) (by decide) (by decide)
      (by decide)).2 Store.empty).2.2.2 rfl⟩

/-- C5 as stated fails for a literal whose square does not fit a 32-bit int:
"46341^" parses to the square of 46341 and evaluates to -2147479015, which is
not 46341 * 46341 = 2147488281. -/
theorem C5_counterexample :
    parseTree "46341^" = .ok (.SquareNode (.NumberNode 46341)) ∧
      (evaluate (.SquareNode (.NumberNode 46341)) Store.empty).1 = .value (-2147479015) ∧
      (evaluate (.SquareNode (.NumberNode 46341)) Store.empty).1 ≠ .value (46341 * 46341) := by
  decide

/-- C5, amended: for every literal the parser accepts, of value n, the input
"n^" parses to the square of the literal and evaluates, in every store, to
n * n as a 32-bit int, which is n * n itself when n is at most 46340. -/
theorem C5_square (ds : List Char) (h : IsLiteral ds) :
    parseTree ⟨ds ++ ['^']⟩ = .ok (.SquareNode (.NumberNode (decimalValue ds))) ∧
      ∀ s : Store,
        evaluate (.SquareNode (.NumberNode (decimalValue ds))) s =
          (.value (wrap32 ((decimalValue ds : Int) * decimalValue ds)), s) ∧
        (decimalValue ds ≤ 46340 →
          wrap32 ((decimalValue ds : Int) * decimalValue ds) =
            (decimalValue ds : Int) * decimalValue ds) := by
  constructor
  · have he : (⟨⟨⟨true, ds, true⟩, []⟩, []⟩ : Expr).WellFormed :=
      ⟨⟨h, fun x hx => by cases hx⟩, fun x hx => by cases hx⟩
    have hlex : Lexes (⟨ds ++ ['^']⟩ : String).data
        (⟨⟨⟨true, ds, true⟩, []⟩, []⟩ : Expr).tokens := by
      refine ⟨[], [], ?_, lexStep_nil⟩
      show LexSeg (ds ++ ['^']) [⟨.NUMBER, ⟨ds⟩⟩, ⟨.SQUARE, ""⟩] []
      refine ⟨by simp, ['^'], ?_, by simp, [], lexStep_caret [], rfl⟩
      exact lexStep_digits ds ['^'] h.1 h.2.1 (by intro c hc; cases hc; decide)
    have := parseTree_tokens _ _ he rfl hlex
    simpa [Expr.node, Term.node, Factor.node, chainNode] using this
  · intro s
    refine ⟨by simp [evaluate], fun hle => wrap32_of_range _ ?_ ?_⟩
    · have : (0 : Int) ≤ (decimalValue ds : Int) * decimalValue ds := by positivity
      omega
    · have h1 : decimalValue ds * decimalValue ds ≤ 46340 * 46340 := Nat.mul_le_mul hle hle
      have h2 : ((decimalValue ds * decimalValue ds : Nat) : Int) ≤ 2147483647 := by
        have : decimalValue ds * decimalValue ds ≤ 2147483647 := by omega
        exact_mod_cast this
      simpa using h2

/-- C5 (amended) at the input "5^". -/
theorem C5_square_witness :
    IsLiteral ['5'] ∧ parseTree "5^" = .ok (.SquareNode (.NumberNode 5)) ∧
      evaluate (.SquareNode (.NumberNode 5)) Store.empty = (.value 25, Store.empty) :=
  ⟨by decide, (C5_square ['5'] (by decide)).1,
    by
      have h := ((C5_square ['5'] (by decide)).2 Store.empty).1
      exact h⟩

/-- C6 as stated fails: on "1 + 2 3" `parse` returns the sum of 1 and 2 and
leaves the token NUMBER "3" as lookahead, which is not END. -/
theorem C6_counterexample :
    parseInput "1 + 2 3" =
        .ok (.BinaryOpNode '+' (.NumberNode 1) (.NumberNode 2),
          ⟨⟨"1 + 2 3".data, 7⟩, ⟨.NUMBER, "3"⟩⟩) ∧
      (⟨.NUMBER, "3"⟩ : Token).type ≠ .END := by
  decide

/-- C6, amended: when `parse` returns a tree that is not a bare variable
reference, its lookahead is none of PLUS, MINUS, MULTIPLY, DIVIDE; it is not
checked to be END. -/
theorem C6_lookahead_after_parse (input : String) (tree : ASTNode) (p : Parser)
    (h : parseInput input = .ok (tree, p)) (hroot : ∀ name, tree ≠ .VariableNode name) :
    p.currentToken.type ≠ .PLUS ∧ p.currentToken.type ≠ .MINUS ∧
      p.currentToken.type ≠ .MULTIPLY ∧ p.currentToken.type ≠ .DIVIDE := by
  unfold parseInput at h
  cases hn : Parser.new (Lexer.new input) with
  | error e => rw [hn] at h; cases h
  | ok p0 =>
    simp only [hn] at h
    unfold Parser.parse at h
    split at h
    · cases he : p0.eat .IDENTIFIER with
      | error e => rw [he] at h; cases h
      | ok p1 =>
        simp only [he] at h
        split at h
        · cases he2 : p1.eat .ASSIGN with
          | error e => rw [he2] at h; cases h
          | ok p2 =>
            simp only [he2] at h
            cases hx : p2.parseExpr with
            | error e => rw [hx] at h; cases h
            | ok x =>
              obtain ⟨v, p3⟩ := x
              simp only [hx] at h
              cases h
              exact Parser.parseExpr_exit hx
        · cases h
          exact absurd rfl (hroot _)
    · exact Parser.parseExpr_exit h

/-- C6 (amended) at the input "1 + 2 3". -/
theorem C6_lookahead_after_parse_witness :
    parseInput "1 + 2 3" =
        .ok (.BinaryOpNode '+' (.NumberNode 1) (.NumberNode 2),
          ⟨⟨"1 + 2 3".data, 7⟩, ⟨.NUMBER, "3"⟩⟩) ∧
      (⟨.NUMBER, "3"⟩ : Token).type ≠ .PLUS :=
  ⟨by decide,
    (C6_lookahead_after_parse "1 + 2 3" (.BinaryOpNode '+' (.NumberNode 1) (.NumberNode 2))
      ⟨⟨"1 + 2 3".data, 7⟩, ⟨.NUMBER, "3"⟩⟩ (by decide) (fun _ h => by cases h)).1⟩

/-- C8: a chain of well-formed factors that begins with a literal and whose
operators are all `+` or `-`, or all `*` or `/`, written with single spaces,
parses to the left fold of the factors; "8 - 3 - 2" parses to the difference
of (8 - 3) and 2 and evaluates to 3. -/
theorem C8_left_associative (f : Factor) (rest : List (Char × Factor))
    (hnum : f.isNumber = true) (hf : f.WellFormed) (hrest : ∀ x ∈ rest, x.2.WellFormed)
    (hops : (∀ x ∈ rest, x.1 = '+' ∨ x.1 = '-') ∨ (∀ x ∈ rest, x.1 = '*' ∨ x.1 = '/')) :
    parseTree ⟨f.source ++ chainSource Factor.source rest⟩ =
        .ok (rest.foldl (fun acc x => .BinaryOpNode x.1 acc x.2.node) f.node) ∧
      parseTree "8 - 3 - 2" =
        .ok (.BinaryOpNode '-' (.BinaryOpNode '-' (.NumberNode 8) (.NumberNode 3))
          (.NumberNode 2)) ∧
      ∀ s : Store,
        evaluate (.BinaryOpNode '-' (.BinaryOpNode '-' (.NumberNode 8) (.NumberNode 3))
          (.NumberNode 2)) s = (.value 3, s) := by
  refine ⟨?_, by decide, fun s => by simp [evaluate, applyOp, wrap32]⟩
  rcases hops with hadd | hmul
  · have he : (⟨⟨f, []⟩, rest.map fun x => (x.1, (⟨x.2, []⟩ : Term))⟩ : Expr).WellFormed := by
      refine ⟨⟨hf, fun x hx => by cases hx⟩, fun x hx => ?_⟩
      obtain ⟨y, hy, rfl⟩ := List.mem_map.mp hx
      exact ⟨hadd y hy, hrest y hy, fun x hx => by cases hx⟩
    have h := parseTree_expr _ he hnum
    simp only [Expr.source, Expr.node, chainSource_single, chainNode_single] at h
    simpa [Term.source, Term.node, chainSource, chainNode] using h
  · have he : (⟨⟨f, rest⟩, []⟩ : Expr).WellFormed :=
      ⟨⟨hf, fun x hx => ⟨hmul x hx, hrest x hx⟩⟩, fun x hx => by cases hx⟩
    have h := parseTree_expr _ he hnum
    simpa [Expr.source, Expr.node, Term.source, Term.node, chainSource, chainNode] using h

/-- C8 at the input "8 / 4 * 2". -/
theorem C8_left_associative_witness :
    (⟨true, ['8'], false⟩ : Factor).WellFormed ∧
      parseTree "8 / 4 * 2" =
        .ok (.BinaryOpNode '*' (.BinaryOpNode '/' (.NumberNode 8) (.NumberNode 4))
          (.NumberNode 2)) :=
  ⟨by decide,
    (C8_left_associative ⟨true, ['8'], false⟩
      [('/', ⟨true, ['4'], false⟩), ('*', ⟨true, ['2'], false⟩)] rfl (by decide)
      (by decide) (Or.inr (by decide))).1⟩

/-- C9: for all literals a, b, c that fit an int, "a + b * c" parses to the
sum of a and the product of b and c, "a * b + c" to the sum of the product of
a and b and c, and "a * b ^" to the product of a and the square of b. -/
theorem C9_precedence (a b c : List Char) (ha : IsLiteral a) (hb : IsLiteral b)
    (hc : IsLiteral c) :
    parseTree ⟨a ++ ' ' :: '+' :: ' ' :: (b ++ ' ' :: '*' :: ' ' :: c)⟩ =
        .ok (.BinaryOpNode '+' (.NumberNode (decimalValue a))
          (.BinaryOpNode '*' (.NumberNode (decimalValue b)) (.NumberNode (decimalValue c)))) ∧
      parseTree ⟨a ++ ' ' :: '*' :: ' ' :: (b ++ ' ' :: '+' :: ' ' :: c)⟩ =
        .ok (.BinaryOpNode '+'
          (.BinaryOpNode '*' (.NumberNode (decimalValue a)) (.NumberNode (decimalValue b)))
          (.NumberNode (decimalValue c))) ∧
      parseTree ⟨a ++ ' ' :: '*' :: ' ' :: (b ++ [' ', '^'])⟩ =
        .ok (.BinaryOpNode '*' (.NumberNode (decimalValue a))
          (.SquareNode (.NumberNode (decimalValue b)))) := by
  have hfa : (⟨true, a, false⟩ : Factor).WellFormed := ha
  have hfb : (⟨true, b, false⟩ : Factor).WellFormed := hb
  have hfc : (⟨true, c, false⟩ : Factor).WellFormed := hc
  have hfb2 : (⟨true, b, true⟩ : Factor).WellFormed := hb
  refine ⟨?_, ?_, ?_⟩
  · have he : (⟨⟨⟨true, a, false⟩, []⟩,
        [('+', ⟨⟨true, b, false⟩, [('*', ⟨true, c, false⟩)]⟩)]⟩ : Expr).WellFormed := by
      refine ⟨⟨hfa, fun x hx => by cases hx⟩, fun x hx => ?_⟩
      rw [List.mem_singleton] at hx
      subst hx
      refine ⟨Or.inl rfl, hfb, fun y hy => ?_⟩
      rw [List.mem_singleton] at hy
      subst hy
      exact ⟨Or.inl rfl, hfc⟩
    have h := parseTree_expr _ he rfl
    simpa [Expr.source, Term.source, Factor.source, chainSource, Expr.node, Term.node,
      Factor.node, chainNode] using h
  · have he : (⟨⟨⟨true, a, false⟩, [('*', ⟨true, b, false⟩)]⟩,
        [('+', ⟨⟨true, c, false⟩, []⟩)]⟩ : Expr).WellFormed := by
      refine ⟨⟨hfa, fun x hx => ?_⟩, fun x hx => ?_⟩
      · rw [List.mem_singleton] at hx
        subst hx
        exact ⟨Or.inl rfl, hfb⟩
      · rw [List.mem_singleton] at hx
        subst hx
        exact ⟨Or.inl rfl, hfc, fun y hy => by cases hy⟩
    have h := parseTree_expr _ he rfl
    simpa [Expr.source, Term.source, Factor.source, chainSource, Expr.node, Term.node,
      Factor.node, chainNode] using h
  · have he : (⟨⟨⟨true, a, false⟩, [('*', ⟨true, b, true⟩)]⟩, []⟩ : Expr).WellFormed := by
      refine ⟨⟨hfa, fun x hx => ?_⟩, fun x hx => by cases hx⟩
      rw [List.mem_singleton] at hx
      subst hx
      exact ⟨Or.inl rfl, hfb2⟩
    have h := parseTree_expr _ he rfl
    simpa [Expr.source, Term.source, Factor.source, chainSource, Expr.node, Term.node,
      Factor.node, chainNode] using h

/-- C9 at the inputs "2 + 3 * 4", "2 * 3 + 4" and "2 * 3 ^". -/
theorem C9_precedence_witness :
    IsLiteral ['2'] ∧ IsLiteral ['3'] ∧ IsLiteral ['4'] ∧
      parseTree "2 + 3 * 4" =
        .ok (.BinaryOpNode '+' (.NumberNode 2)
          (.BinaryOpNode '*' (.NumberNode 3) (.NumberNode 4))) ∧
      parseTree "2 * 3 + 4" =
        .ok (.BinaryOpNode '+' (.BinaryOpNode '*' (.NumberNode 2) (.NumberNode 3))
          (.NumberNode 4)) ∧
      parseTree "2 * 3 ^" =
        .ok (.BinaryOpNode '*' (.NumberNode 2) (.SquareNode (.NumberNode 3))) :=
  ⟨by decide, by decide, by decide,
    (C9_precedence ['2'] ['3'] ['4'] (by decide) (by decide) (by decide)).1,
    (C9_precedence ['2'] ['3'] ['4'] (by decide) (by decide) (by decide)).2.1,
    (C9_precedence ['2'] ['3'] ['4'] (by decide) (by decide) (by decide)).2.2⟩

/-! ## Claims on the lexer, the literals and the evaluator's store -/

theorem skipWhitespace_fixed (l : Lexer) (h : Lexer.isBlank l.peek = false) :
    l.skipWhitespace = l := by
  unfold Lexer.skipWhitespace
  cases l.input.length - l.pos with
  | zero => rfl
  | succ n => simp [Lexer.skipWhitespaceLoop, h]

/-- When `getNextToken` returns END, the lexer it leaves is the one after the
blanks, with NUL under the cursor. -/
theorem getNextToken_end {l l1 : Lexer} {t : Token} (h : l.getNextToken = .ok (t, l1))
    (ht : t.type = .END) : t = ⟨.END, ""⟩ ∧ l1 = l.skipWhitespace ∧ l1.peek = nul := by
  unfold Lexer.getNextToken at h
  dsimp only at h
  split at h
  · rename_i h0
    cases h
    exact ⟨rfl, rfl, h0⟩
  · split at h
    · cases h
      cases ht
    · split at h
      · cases h
        cases ht
      · split at h
        · rename_i t1 hs
          cases h
          exact absurd ht (symbolToken_type hs)
        · cases h

/-- C12: six successive calls of `getNextToken` on "x = 5 ^ 2" return
IDENTIFIER "x", ASSIGN, NUMBER "5", SQUARE, NUMBER "2", END, the operator and
END tokens with empty text. -/
theorem C12_token_sequence :
    Lexer.nextTokens 6 (Lexer.new "x = 5 ^ 2") =
      .ok [⟨.IDENTIFIER, "x"⟩, ⟨.ASSIGN, ""⟩, ⟨.NUMBER, "5"⟩, ⟨.SQUARE, ""⟩, ⟨.NUMBER, "2"⟩,
        ⟨.END, ""⟩] := by
  decide

/-- C13 as stated fails on an input with a NUL character: on the two
characters NUL and `+` the first call returns END with the cursor at 0, while
the character `+`, which is no blank, is still unread. -/
theorem C13_counterexample :
    Lexer.getNextToken ⟨[Char.ofNat 0, '+'], 0⟩ =
        .ok (⟨.END, ""⟩, ⟨[Char.ofNat 0, '+'], 0⟩) ∧
      '+' ∈ (⟨[Char.ofNat 0, '+'], 0⟩ : Lexer).rest ∧ Lexer.isBlank '+' = false := by
  decide

/-- C13, amended: once `getNextToken` has returned END, every later call
returns END and leaves the lexer, cursor included, unchanged; END is returned
only when, after the blanks, the cursor is at the end of the input or at a NUL
character, so on an input without NUL only when every unread character is a
blank. -/
theorem C13_end_is_final (l l1 : Lexer) (t : Token) (h : l.getNextToken = .ok (t, l1))
    (ht : t.type = .END) :
    l1.getNextToken = .ok (⟨.END, ""⟩, l1) ∧
      (∀ n, Lexer.nextTokens n l1 = .ok (List.replicate n ⟨.END, ""⟩)) ∧
      (l.rest.dropWhile Lexer.isBlank = [] ∨
        (l.rest.dropWhile Lexer.isBlank).head? = some nul) ∧
      (nul ∉ l.input → ∀ c ∈ l.rest, Lexer.isBlank c = true) := by
  obtain ⟨_, h1, h2⟩ := getNextToken_end h ht
  have hb : Lexer.isBlank l1.peek = false := by rw [h2]; decide
  have hfix : l1.getNextToken = .ok (⟨.END, ""⟩, l1) := by
    unfold Lexer.getNextToken
    have h3 : l1.skipWhitespace.peek = Char.ofNat 0 := by
      rw [skipWhitespace_fixed l1 hb]; exact h2
    simp only [h3, if_true]
    rw [skipWhitespace_fixed l1 hb]
  have hrest : l1.rest = l.rest.dropWhile Lexer.isBlank := by
    rw [h1]; exact (Lexer.skipWhitespace_spec l).2
  have hhead : l.rest.dropWhile Lexer.isBlank = [] ∨
      (l.rest.dropWhile Lexer.isBlank).head? = some nul := by
    rw [Lexer.peek_eq, hrest] at h2
    cases hd : l.rest.dropWhile Lexer.isBlank with
    | nil => exact Or.inl rfl
    | cons c tl =>
      rw [hd] at h2
      simp only [List.headD_cons] at h2
      exact Or.inr (by rw [h2]; rfl)
  refine ⟨hfix, ?_, hhead, ?_⟩
  · intro n
    induction n with
    | zero => rfl
    | succ n ih => simp [Lexer.nextTokens, hfix, ih, List.replicate_succ]
  · intro hn c hc
    rcases hhead with hnil | hnul
    · exact (List.dropWhile_eq_nil_iff.mp hnil) c hc
    · exfalso
      apply hn
      have hmem : nul ∈ l.rest.dropWhile Lexer.isBlank := by
        cases hd : l.rest.dropWhile Lexer.isBlank with
        | nil => rw [hd] at hnul; cases hnul
        | cons d tl =>
          rw [hd] at hnul
          simp only [List.head?_cons, Option.some.injEq] at hnul
          rw [hnul]
          exact List.mem_cons_self _ _
      have h4 : nul ∈ l.rest := (List.dropWhile_suffix _).subset hmem
      exact (List.drop_suffix _ _).subset h4

/-- C13 (amended) at the input of two spaces. -/
theorem C13_end_is_final_witness :
    (Lexer.new "  ").getNextToken = .ok (⟨.END, ""⟩, ⟨"  ".data, 2⟩) ∧
      (⟨"  ".data, 2⟩ : Lexer).getNextToken = .ok (⟨.END, ""⟩, ⟨"  ".data, 2⟩) :=
  ⟨by decide, (C13_end_is_final (Lexer.new "  ") ⟨"  ".data, 2⟩ ⟨.END, ""⟩ (by decide) rfl).1⟩

/-- C14 as stated fails twice: the error thrown for `$` and the error thrown
for `#` are the same value, the runtime error "Invalid character", so the
error does not carry the character; and a NUL character, which is no digit,
letter or operator, gives END and no error. -/
theorem C14_counterexample :
    (Lexer.new "$").getNextToken = .error (.runtime_error "Invalid character") ∧
      (Lexer.new "#").getNextToken = .error (.runtime_error "Invalid character") ∧
      '$' ≠ '#' ∧
      Lexer.getNextToken ⟨[Char.ofNat 0], 0⟩ = .ok (⟨.END, ""⟩, ⟨[Char.ofNat 0], 0⟩) := by
  decide

/-- C14, amended: when the first character after the blanks is not NUL, not a
digit, not a letter and none of `+ - * / = ^`, `getNextToken` throws the
runtime error with the fixed text "Invalid character". -/
theorem C14_invalid_character (l : Lexer) (c : Char) (tl : List Char)
    (hrest : l.rest.dropWhile Lexer.isBlank = c :: tl) (h0 : c ≠ nul)
    (hd : Lexer.isdigit c = false) (ha : Lexer.isalpha c = false)
    (hs : c ≠ '+' ∧ c ≠ '-' ∧ c ≠ '*' ∧ c ≠ '/' ∧ c ≠ '=' ∧ c ≠ '^') :
    l.getNextToken = .error (.runtime_error "Invalid character") := by
  have hspec := Lexer.getNextToken_spec l
  have hl : lexStep l.rest = .error (.runtime_error "Invalid character") := by
    unfold lexStep
    simp only [hrest, List.headD_cons, h0, if_false, hd, ha, Bool.false_eq_true]
    simp [Lexer.symbolToken, hs.1, hs.2.1, hs.2.2.1, hs.2.2.2.1, hs.2.2.2.2.1, hs.2.2.2.2.2]
  rw [hl] at hspec
  exact hspec

/-- C14 (amended) at the input " $". -/
theorem C14_invalid_character_witness :
    (Lexer.new " $").rest.dropWhile Lexer.isBlank = ['$'] ∧
      (Lexer.new " $").getNextToken = .error (.runtime_error "Invalid character") :=
  ⟨by decide,
    C14_invalid_character (Lexer.new " $") '$' [] (by decide) (by decide) (by decide)
      (by decide) (by decide)⟩

/-- C16: on a NUMBER token whose text is a non-empty run of digits,
`parseFactor` builds the literal of exactly the decimal value when that is at
most 2147483647 (every tree it returns is that literal or its square), and
throws `out_of_range` when the value is larger; leading zeros do not matter,
"007" is 7, "2147483647" is accepted and "2147483648" is refused. -/
theorem C16_literal_conversion (p : Parser) (ds : List Char)
    (htok : p.currentToken = ⟨.NUMBER, ⟨ds⟩⟩) (hne : ds ≠ [])
    (hds : ∀ c ∈ ds, Lexer.isdigit c = true) :
    (decimalValue ds ≤ 2147483647 →
        (p.parseFactor =
          match p.eat .NUMBER with
          | .error e => .error e
          | .ok p1 => Parser.parseSquare (.NumberNode (decimalValue ds)) p1) ∧
        ∀ node p1, p.parseFactor = .ok (node, p1) →
          node = .NumberNode (decimalValue ds) ∨
            node = .SquareNode (.NumberNode (decimalValue ds))) ∧
      (2147483647 < decimalValue ds → p.parseFactor = .error (.out_of_range "stoi")) ∧
      parseTree "007" = .ok (.NumberNode 7) ∧
      parseTree "2147483647" = .ok (.NumberNode 2147483647) ∧
      parseTree "2147483648" = .error (.out_of_range "stoi") := by
  have ht : List.takeWhile Lexer.isdigit ds = ds := by
    have := @List.takeWhile_append_of_pos Char Lexer.isdigit ds [] hds
    simpa using this
  refine ⟨?_, ?_, by decide, by decide, by decide⟩
  · intro hle
    have hstoi : stoi ⟨ds⟩ = .ok (decimalValue ds : Nat) := Parser.stoi_literal ⟨hne, hds, hle⟩
    have heq : p.parseFactor =
        match p.eat .NUMBER with
        | .error e => .error e
        | .ok p1 => Parser.parseSquare (.NumberNode (decimalValue ds)) p1 := by
      unfold Parser.parseFactor
      simp only [htok, if_true, hstoi]
    refine ⟨heq, ?_⟩
    intro node p1 h
    rw [heq] at h
    cases he : p.eat .NUMBER with
    | error e => rw [he] at h; cases h
    | ok p2 =>
      simp only [he] at h
      unfold Parser.parseSquare at h
      split at h
      · cases he2 : p2.eat .SQUARE with
        | error e => rw [he2] at h; cases h
        | ok p3 =>
          simp only [he2] at h
          cases h
          exact Or.inr rfl
      · cases h
        exact Or.inl rfl
  · intro hgt
    unfold Parser.parseFactor
    have hstoi : stoi ⟨ds⟩ = .error (.out_of_range "stoi") := by
      unfold stoi
      simp only [ht, hne, if_false]
      rw [if_pos hgt]
    simp only [htok, if_true, hstoi]

/-- C16 at the parser on "12". -/
theorem C16_literal_conversion_witness :
    Parser.new (Lexer.new "12") = .ok ⟨⟨"12".data, 2⟩, ⟨.NUMBER, "12"⟩⟩ ∧
      ∀ node p1, (⟨⟨"12".data, 2⟩, ⟨.NUMBER, "12"⟩⟩ : Parser).parseFactor = .ok (node, p1) →
        node = .NumberNode 12 ∨ node = .SquareNode (.NumberNode 12) :=
  ⟨by decide,
    ((C16_literal_conversion ⟨⟨"12".data, 2⟩, ⟨.NUMBER, "12"⟩⟩ ['1', '2'] rfl (by decide)
      (by decide)).1 (by decide)).2⟩

/-- C19: evaluating a tree without assignment leaves the store as it was,
whatever the outcome, so that a second evaluation right after the first one
gives the same outcome and store. -/
theorem C19_evaluation_keeps_store (t : ASTNode) (s : Store) (h : noAssign t = true) :
    (evaluate t s).2 = s ∧ evaluate t (evaluate t s).2 = evaluate t s := by
  have h1 := evaluate_noAssign t s h
  exact ⟨h1, by rw [h1]⟩

/-- C19 at the reference to an undefined variable y and at the sum 1 + 2. -/
theorem C19_evaluation_keeps_store_witness :
    noAssign (.VariableNode "y") = true ∧
      (evaluate (.VariableNode "y") Store.empty).2 = Store.empty ∧
      evaluate (.BinaryOpNode '+' (.NumberNode 1) (.NumberNode 2))
          (evaluate (.BinaryOpNode '+' (.NumberNode 1) (.NumberNode 2)) Store.empty).2 =
        evaluate (.BinaryOpNode '+' (.NumberNode 1) (.NumberNode 2)) Store.empty :=
  ⟨rfl, (C19_evaluation_keeps_store (.VariableNode "y") Store.empty rfl).1,
    (C19_evaluation_keeps_store (.BinaryOpNode '+' (.NumberNode 1) (.NumberNode 2)) Store.empty
      rfl).2⟩

/-- C20: when the value expression e has no assignment and its evaluation in
s does not return a value, the assignment of e to n ends with the same
outcome as e and with the store s itself: no entry is created or changed. -/
theorem C20_assignment_atomic (n : String) (e : ASTNode) (s : Store)
    (hna : noAssign e = true) (hfail : ∀ v, (evaluate e s).1 ≠ .value v) :
    evaluate (.AssignmentNode n e) s = ((evaluate e s).1, s) ∧
      (evaluate (.AssignmentNode n e) s).1 = (evaluate e s).1 ∧
      (evaluate (.AssignmentNode n e) s).2 = s := by
  have h1 := evaluate_noAssign e s hna
  have h2 : evaluate (.AssignmentNode n e) s = ((evaluate e s).1, s) := by
    cases he : evaluate e s with
    | mk o s1 =>
      rw [he] at h1 hfail
      simp only at h1 hfail
      subst h1
      cases o with
      | value v => exact absurd rfl (hfail v)
      | thrown x => simp [evaluate, he]
      | trap => simp [evaluate, he]
  exact ⟨h2, by rw [h2], by rw [h2]⟩

/-- C20 at the assignment of the undefined variable y to x. -/
theorem C20_assignment_atomic_witness :
    noAssign (.VariableNode "y") = true ∧
      (evaluate (.AssignmentNode "x" (.VariableNode "y")) Store.empty).1 =
        .thrown (.runtime_error "Undefined variable: y") ∧
      (evaluate (.AssignmentNode "x" (.VariableNode "y")) Store.empty).2 = Store.empty :=
  ⟨rfl,
    (C20_assignment_atomic "x" (.VariableNode "y") Store.empty rfl
      (fun v h => by
        have h1 : (evaluate (.VariableNode "y") Store.empty).1 =
            .thrown (.runtime_error "Undefined variable: y") := rfl
        rw [h1] at h
        cases h)).2.1,
    (C20_assignment_atomic "x" (.VariableNode "y") Store.empty rfl
      (fun v h => by
        have h1 : (evaluate (.VariableNode "y") Store.empty).1 =
            .thrown (.runtime_error "Undefined variable: y") := rfl
        rw [h1] at h
        cases h)).2.2⟩

/-! ## The shape of parsed trees -/

theorem symbolToken_not_identifier {c : Char} {t : Token} (h : Lexer.symbolToken c = .ok t) :
    t.type ≠ .IDENTIFIER := by
  unfold Lexer.symbolToken at h
  repeat' split at h
  all_goals first
    | (cases h; decide)
    | cases h

theorem lexStep_tokOK {r r1 : List Char} {t : Token} (h : lexStep r = .ok (t, r1)) :
    TokOK t := by
  unfold lexStep at h
  dsimp only at h
  split at h
  · cases h
    intro hty
    cases hty
  · rename_i h0
    split at h
    · cases h
      intro hty
      cases hty
    · split at h
      · rename_i ha
        cases h
        intro _
        cases hr : List.dropWhile Lexer.isBlank r with
        | nil =>
          rw [hr] at h0
          exact absurd rfl h0
        | cons c tl =>
          rw [hr] at ha
          simp only [List.headD_cons] at ha
          have hn := (isalpha_not_blank ha).2.2.2
          show IsName (List.takeWhile Lexer.isalnum (c :: tl))
          rw [List.takeWhile_cons, if_pos hn]
          exact ⟨ha, fun d hd => (List.mem_takeWhile_imp hd)⟩
      · split at h
        · rename_i t1 hs
          cases h
          intro hty
          exact absurd hty (symbolToken_not_identifier hs)
        · cases h

theorem eat_tokOK {p p1 : Parser} {ty : TokenType} (h : p.eat ty = .ok p1) :
    TokOK p1.currentToken :=
  lexStep_tokOK (Parser.eat_ok h).2

theorem new_tokOK {l : Lexer} {p : Parser} (h : Parser.new l = .ok p) :
    TokOK p.currentToken := by
  unfold Parser.new at h
  cases hg : l.getNextToken with
  | error e => rw [hg] at h; cases h
  | ok x =>
    obtain ⟨t, l1⟩ := x
    simp only [hg] at h
    cases h
    exact lexStep_tokOK (Lexer.getNextToken_ok hg).1

theorem stoi_range {s : String} {v : Int} (h : stoi s = .ok v) : 0 ≤ v ∧ v ≤ 2147483647 := by
  unfold stoi at h
  dsimp only at h
  split at h
  · cases h
  · split at h
    · cases h
    · rename_i hle
      cases h
      constructor
      · exact Int.ofNat_nonneg _
      · have : decimalValue (List.takeWhile Lexer.isdigit s.data) ≤ 2147483647 := by omega
        exact_mod_cast this

theorem atomShape_exprShape {t : ASTNode} (h : atomShape t = true) : exprShape t = true := by
  cases t <;> simp_all [atomShape, exprShape]

theorem parseSquare_shape {node n1 : ASTNode} {p p1 : Parser} (hn : atomShape node = true)
    (h : Parser.parseSquare node p = .ok (n1, p1)) (hp : TokOK p.currentToken) :
    exprShape n1 = true ∧ TokOK p1.currentToken := by
  unfold Parser.parseSquare at h
  split at h
  · cases he : p.eat .SQUARE with
    | error e => rw [he] at h; cases h
    | ok p2 =>
      simp only [he] at h
      cases h
      exact ⟨hn, eat_tokOK he⟩
  · cases h
    exact ⟨atomShape_exprShape hn, hp⟩

theorem parseFactor_shape {p p1 : Parser} {node : ASTNode}
    (h : p.parseFactor = .ok (node, p1)) (hp : TokOK p.currentToken) :
    exprShape node = true ∧ TokOK p1.currentToken := by
  unfold Parser.parseFactor at h
  split at h
  · cases hv : stoi p.currentToken.value with
    | error e => rw [hv] at h; cases h
    | ok v =>
      simp only [hv] at h
      cases he : p.eat .NUMBER with
      | error e => rw [he] at h; cases h
      | ok p2 =>
        simp only [he] at h
        exact parseSquare_shape (by simp [atomShape, stoi_range hv]) h (eat_tokOK he)
  · split at h
    · rename_i hi
      cases he : p.eat .IDENTIFIER with
      | error e => rw [he] at h; cases h
      | ok p2 =>
        simp only [he] at h
        exact parseSquare_shape (by simp [atomShape, hp hi]) h (eat_tokOK he)
    · cases h

theorem exprShape_binary {op : Char} {l r : ASTNode}
    (hop : op = '+' ∨ op = '-' ∨ op = '*' ∨ op = '/') (hl : exprShape l = true)
    (hr : exprShape r = true) : exprShape (.BinaryOpNode op l r) = true := by
  simp only [exprShape, hl, hr, Bool.and_true, Bool.or_eq_true, decide_eq_true_eq]
  tauto

theorem parseTermLoop_shape (n : Nat) (node n1 : ASTNode) (p p1 : Parser)
    (h : Parser.parseTermLoop n node p = .ok (n1, p1)) (hn : exprShape node = true)
    (hp : TokOK p.currentToken) : exprShape n1 = true ∧ TokOK p1.currentToken := by
  induction n generalizing node p with
  | zero => cases h
  | succ n ih =>
    unfold Parser.parseTermLoop at h
    split at h
    · cases he : p.eat p.currentToken.type with
      | error e => rw [he] at h; cases h
      | ok p2 =>
        simp only [he] at h
        cases hf : p2.parseFactor with
        | error e => rw [hf] at h; cases h
        | ok x =>
          obtain ⟨right, p3⟩ := x
          simp only [hf] at h
          have hs := parseFactor_shape hf (eat_tokOK he)
          refine ih _ _ h (exprShape_binary ?_ hn hs.1) hs.2
          split
          · exact Or.inr (Or.inr (Or.inl rfl))
          · exact Or.inr (Or.inr (Or.inr rfl))
    · cases h
      exact ⟨hn, hp⟩

theorem parseTerm_shape {p p1 : Parser} {node : ASTNode} (h : p.parseTerm = .ok (node, p1))
    (hp : TokOK p.currentToken) : exprShape node = true ∧ TokOK p1.currentToken := by
  unfold Parser.parseTerm at h
  cases hf : p.parseFactor with
  | error e => rw [hf] at h; cases h
  | ok x =>
    obtain ⟨n2, p2⟩ := x
    simp only [hf] at h
    have hs := parseFactor_shape hf hp
    exact parseTermLoop_shape _ _ _ _ _ h hs.1 hs.2

theorem parseExprLoop_shape (n : Nat) (node n1 : ASTNode) (p p1 : Parser)
    (h : Parser.parseExprLoop n node p = .ok (n1, p1)) (hn : exprShape node = true)
    (hp : TokOK p.currentToken) : exprShape n1 = true ∧ TokOK p1.currentToken := by
  induction n generalizing node p with
  | zero => cases h
  | succ n ih =>
    unfold Parser.parseExprLoop at h
    split at h
    · cases he : p.eat p.currentToken.type with
      | error e => rw [he] at h; cases h
      | ok p2 =>
        simp only [he] at h
        cases hf : p2.parseTerm with
        | error e => rw [hf] at h; cases h
        | ok x =>
          obtain ⟨right, p3⟩ := x
          simp only [hf] at h
          have hs := parseTerm_shape hf (eat_tokOK he)
          refine ih _ _ h (exprShape_binary ?_ hn hs.1) hs.2
          split
          · exact Or.inl rfl
          · exact Or.inr (Or.inl rfl)
    · cases h
      exact ⟨hn, hp⟩

theorem parseExpr_shape {p p1 : Parser} {node : ASTNode} (h : p.parseExpr = .ok (node, p1))
    (hp : TokOK p.currentToken) : exprShape node = true ∧ TokOK p1.currentToken := by
  unfold Parser.parseExpr at h
  cases hf : p.parseTerm with
  | error e => rw [hf] at h; cases h
  | ok x =>
    obtain ⟨n2, p2⟩ := x
    simp only [hf] at h
    have hs := parseTerm_shape hf hp
    exact parseExprLoop_shape _ _ _ _ _ h hs.1 hs.2

theorem parse_shape {p p1 : Parser} {tree : ASTNode} (h : p.parse = .ok (tree, p1))
    (hp : TokOK p.currentToken) : stmtShape tree = true := by
  unfold Parser.parse at h
  split at h
  · rename_i hi
    cases he : p.eat .IDENTIFIER with
    | error e => rw [he] at h; cases h
    | ok p2 =>
      simp only [he] at h
      split at h
      · cases he2 : p2.eat .ASSIGN with
        | error e => rw [he2] at h; cases h
        | ok p3 =>
          simp only [he2] at h
          cases hx : p3.parseExpr with
          | error e => rw [hx] at h; cases h
          | ok x =>
            obtain ⟨v, p4⟩ := x
            simp only [hx] at h
            cases h
            simp [stmtShape, hp hi, (parseExpr_shape hx (eat_tokOK he2)).1]
      · cases h
        simp [stmtShape, exprShape, hp hi]
  · have hs := (parseExpr_shape h hp).1
    cases tree <;> simp_all [stmtShape, exprShape]

/-- Every tree `parse` returns on an input is an expression of atoms, squares
of atoms and known operators, or the assignment of one to an identifier. -/
theorem parseInput_shape {input : String} {tree : ASTNode} {p : Parser}
    (h : parseInput input = .ok (tree, p)) : stmtShape tree = true := by
  unfold parseInput at h
  cases hn : Parser.new (Lexer.new input) with
  | error e => rw [hn] at h; cases h
  | ok p0 =>
    simp only [hn] at h
    exact parse_shape h (new_tokOK hn)

theorem exprShape_parts (t : ASTNode) (h : exprShape t = true) :
    noAssign t = true ∧ squaresOnAtoms t = true ∧ opsKnown t = true := by
  induction t with
  | NumberNode v => simp [noAssign, squaresOnAtoms, opsKnown]
  | VariableNode n => simp [noAssign, squaresOnAtoms, opsKnown]
  | AssignmentNode n v ih => simp [exprShape] at h
  | SquareNode t ih =>
    simp only [exprShape] at h
    cases t <;> simp_all [atomShape, noAssign, squaresOnAtoms, opsKnown]
  | BinaryOpNode op l r ihl ihr =>
    simp only [exprShape, Bool.and_eq_true] at h
    have h1 := ihl h.1.2
    have h2 := ihr h.2
    simp [noAssign, squaresOnAtoms, opsKnown, h1, h2, h.1.1]

theorem toAssembly_opsKnown (t : ASTNode) (h : opsKnown t = true) :
    ∃ code, toAssembly t = .ok code := by
  induction t with
  | NumberNode v => exact ⟨_, rfl⟩
  | VariableNode n => exact ⟨_, rfl⟩
  | AssignmentNode n v ih =>
    obtain ⟨c, hc⟩ := ih (by simpa [opsKnown] using h)
    exact ⟨c ++ "    mov [" ++ n ++ "], eax\n", by simp [toAssembly, hc]⟩
  | SquareNode t ih =>
    obtain ⟨c, hc⟩ := ih (by simpa [opsKnown] using h)
    exact ⟨c ++ "    square eax\n", by simp [toAssembly, hc]⟩
  | BinaryOpNode op l r ihl ihr =>
    simp only [opsKnown, Bool.and_eq_true, Bool.or_eq_true, decide_eq_true_eq] at h
    obtain ⟨cl, hl⟩ := ihl h.1.2
    obtain ⟨cr, hr⟩ := ihr h.2
    have hi : ∃ instr, opInstr op = .ok instr := by
      rcases h.1.1 with ((h1 | h1) | h1) | h1 <;> subst h1 <;> exact ⟨_, rfl⟩
    obtain ⟨instr, hi⟩ := hi
    exact ⟨cr ++ "    push eax\n" ++ cl ++ "    pop ebx\n" ++ instr, by
      simp [toAssembly, hl, hr, hi]⟩

/-- C15: for every input on which `parse` returns a tree, every binary node
of the tree has its operator among `+ - * /`, and `toAssembly` returns a
string; it throws no error on that tree. -/
theorem C15_emission_total (input : String) (tree : ASTNode) (p : Parser)
    (h : parseInput input = .ok (tree, p)) :
    opsKnown tree = true ∧ (∃ code, toAssembly tree = .ok code) ∧
      ∀ e, toAssembly tree ≠ .error e := by
  have hs := parseInput_shape h
  have hops : opsKnown tree = true := by
    cases tree with
    | AssignmentNode n v =>
      simp only [stmtShape, Bool.and_eq_true] at hs
      simpa [opsKnown] using (exprShape_parts v hs.2).2.2
    | NumberNode v => exact (exprShape_parts _ hs).2.2
    | VariableNode n => exact (exprShape_parts _ hs).2.2
    | SquareNode t => exact (exprShape_parts _ hs).2.2
    | BinaryOpNode op l r => exact (exprShape_parts _ hs).2.2
  obtain ⟨code, hc⟩ := toAssembly_opsKnown tree hops
  refine ⟨hops, ⟨code, hc⟩, ?_⟩
  intro e he
  rw [hc] at he
  cases he

/-- C15 at the input "x = 5 ^ 2". -/
theorem C15_emission_total_witness :
    parseInput "x = 5 ^ 2" =
        .ok (.AssignmentNode "x" (.SquareNode (.NumberNode 5)),
          ⟨⟨"x = 5 ^ 2".data, 9⟩, ⟨.NUMBER, "2"⟩⟩) ∧
      ∃ code, toAssembly (.AssignmentNode "x" (.SquareNode (.NumberNode 5))) = .ok code :=
  ⟨by decide,
    (C15_emission_total "x = 5 ^ 2" (.AssignmentNode "x" (.SquareNode (.NumberNode 5)))
      ⟨⟨"x = 5 ^ 2".data, 9⟩, ⟨.NUMBER, "2"⟩⟩ (by decide)).2.1⟩

/-- C18: in every tree `parse` returns, an assignment occurs at the root or
nowhere, the operand of every square is a number or a variable, and every
binary node has its operator among `+ - * /`. -/
theorem C18_tree_shape (input : String) (tree : ASTNode) (p : Parser)
    (h : parseInput input = .ok (tree, p)) :
    (noAssign tree = true ∨ ∃ n e, tree = .AssignmentNode n e ∧ noAssign e = true) ∧
      squaresOnAtoms tree = true ∧ opsKnown tree = true := by
  have hs := parseInput_shape h
  cases tree with
  | AssignmentNode n v =>
    simp only [stmtShape, Bool.and_eq_true] at hs
    have hp := exprShape_parts v hs.2
    exact ⟨Or.inr ⟨n, v, rfl, hp.1⟩, by simpa [squaresOnAtoms] using hp.2.1,
      by simpa [opsKnown] using hp.2.2⟩
  | NumberNode v => exact ⟨Or.inl (exprShape_parts _ hs).1, (exprShape_parts _ hs).2⟩
  | VariableNode n => exact ⟨Or.inl (exprShape_parts _ hs).1, (exprShape_parts _ hs).2⟩
  | SquareNode t => exact ⟨Or.inl (exprShape_parts _ hs).1, (exprShape_parts _ hs).2⟩
  | BinaryOpNode op l r => exact ⟨Or.inl (exprShape_parts _ hs).1, (exprShape_parts _ hs).2⟩

/-- C18 at the input "y = 2 * x ^". -/
theorem C18_tree_shape_witness :
    parseInput "y = 2 * x ^" =
        .ok (.AssignmentNode "y"
          (.BinaryOpNode '*' (.NumberNode 2) (.SquareNode (.VariableNode "x"))),
          ⟨⟨"y = 2 * x ^".data, 11⟩, ⟨.END, ""⟩⟩) ∧
      squaresOnAtoms (.AssignmentNode "y"
        (.BinaryOpNode '*' (.NumberNode 2) (.SquareNode (.VariableNode "x")))) = true :=
  ⟨by decide,
    (C18_tree_shape "y = 2 * x ^"
      (.AssignmentNode "y" (.BinaryOpNode '*' (.NumberNode 2) (.SquareNode (.VariableNode "x"))))
      ⟨⟨"y = 2 * x ^".data, 11⟩, ⟨.END, ""⟩⟩ (by decide)).2.1⟩

/-! ## The parser on the first tokens of an input -/

namespace Parser

theorem ahead_type {p : Parser} {ts : List Token} (h : p.Ahead ts) (hne : ts ≠ []) :
    p.currentToken.type = headType ts := by
  cases ts with
  | nil => exact absurd rfl hne
  | cons t ts => rw [h.1]; rfl

theorem eat_ahead {p : Parser} {t : Token} {ts : List Token} (h : p.Ahead (t :: ts))
    (hne : ts ≠ []) : ∃ p1, p.eat t.type = .ok p1 ∧ p1.Ahead ts := by
  cases ts with
  | nil => exact absurd rfl hne
  | cons t2 ts =>
    obtain ⟨htok, r2, hl, hpre⟩ := h
    have hs := eat_spec p t.type (by rw [htok])
    rw [hl] at hs
    obtain ⟨p1, h1, h2, h3⟩ := hs
    refine ⟨p1, h1, h2, ?_⟩
    rw [h3]
    exact hpre

theorem parseSquare_stay_ahead {p : Parser} {ts : List Token} (node : ASTNode)
    (h : p.Ahead ts) (hne : ts ≠ []) (hts : headType ts ≠ .SQUARE) :
    parseSquare node p = .ok (node, p) := by
  unfold parseSquare
  rw [ahead_type h hne, if_neg hts]

theorem parseSquare_sq_ahead {p : Parser} {v : String} {ts : List Token} (node : ASTNode)
    (h : p.Ahead (⟨.SQUARE, v⟩ :: ts)) (hne : ts ≠ []) :
    ∃ p1, parseSquare node p = .ok (.SquareNode node, p1) ∧ p1.Ahead ts := by
  obtain ⟨p1, he, hs⟩ := eat_ahead h hne
  have he1 : p.eat .SQUARE = .ok p1 := he
  refine ⟨p1, ?_, hs⟩
  unfold parseSquare
  rw [ahead_type h (by simp)]
  simp only [headType, if_true, he1]

/-- The analogue of `parseFactor_sees` when only the first tokens of the
input are known. -/
theorem parseFactor_ahead (f : Factor) (hf : f.WellFormed) (ts : List Token) (hne : ts ≠ [])
    (hts : headType ts ≠ .SQUARE) (p : Parser) (h : p.Ahead (f.tokens ++ ts)) :
    ∃ p1, p.parseFactor = .ok (f.node, p1) ∧ p1.Ahead ts := by
  obtain ⟨isNumber, text, squared⟩ := f
  cases isNumber with
  | true =>
    have hlit : IsLiteral text := hf
    simp only [Factor.tokens, if_true, List.cons_append] at h
    obtain ⟨p1, he, hs⟩ := eat_ahead h (by cases squared <;> simp [hne])
    have he1 : p.eat .NUMBER = .ok p1 := he
    have htok : p.currentToken = ⟨.NUMBER, ⟨text⟩⟩ := h.1
    unfold parseFactor
    simp only [htok, if_true, stoi_literal hlit]
    simp only [he1]
    cases squared with
    | false =>
      simp only [Bool.false_eq_true, if_false, List.nil_append] at hs
      exact ⟨p1, by simp [Factor.node, parseSquare_stay_ahead _ hs hne hts], hs⟩
    | true =>
      simp only [if_true, List.cons_append, List.nil_append] at hs
      obtain ⟨p2, h2, hs2⟩ := parseSquare_sq_ahead (.NumberNode (decimalValue text : Nat)) hs hne
      exact ⟨p2, by simp [Factor.node, h2], hs2⟩
  | false =>
    simp only [Factor.tokens, Bool.false_eq_true, if_false, List.cons_append] at h
    obtain ⟨p1, he, hs⟩ := eat_ahead h (by cases squared <;> simp [hne])
    have he1 : p.eat .IDENTIFIER = .ok p1 := he
    have htok : p.currentToken = ⟨.IDENTIFIER, ⟨text⟩⟩ := h.1
    unfold parseFactor
    have hty : p.currentToken.type = .IDENTIFIER := by rw [htok]
    have hval : p.currentToken.value = ⟨text⟩ := by rw [htok]
    simp only [hty, hval, he1]
    simp only [reduceCtorEq, if_false, if_true]
    cases squared with
    | false =>
      simp only [Bool.false_eq_true, if_false, List.nil_append] at hs
      exact ⟨p1, by simp [Factor.node, parseSquare_stay_ahead _ hs hne hts], hs⟩
    | true =>
      simp only [if_true, List.cons_append, List.nil_append] at hs
      obtain ⟨p2, h2, hs2⟩ := parseSquare_sq_ahead (.VariableNode ⟨text⟩) hs hne
      exact ⟨p2, by simp [Factor.node, h2], hs2⟩

theorem chainTokens_append_ne_nil {α : Type} (toks : α → List Token)
    (rest : List (Char × α)) {ts : List Token} (hne : ts ≠ []) :
    chainTokens toks rest ++ ts ≠ [] := by
  cases rest with
  | nil => exact hne
  | cons x rest => simp [chainTokens]

theorem termLoop_stop_ahead {p : Parser} {ts : List Token} (node : ASTNode) (h : p.Ahead ts)
    (hne : ts ≠ []) (h1 : headType ts ≠ .MULTIPLY) (h2 : headType ts ≠ .DIVIDE) :
    termLoop node p = .ok (node, p) := by
  rw [termLoop_unfold, ahead_type h hne, if_neg (by simp [h1, h2])]

theorem termLoop_chain_ahead (rest : List (Char × Factor))
    (hrest : ∀ x ∈ rest, (x.1 = '*' ∨ x.1 = '/') ∧ x.2.WellFormed) (ts : List Token)
    (hne : ts ≠ [])
    (hts : headType ts ≠ .MULTIPLY ∧ headType ts ≠ .DIVIDE ∧ headType ts ≠ .SQUARE)
    (node : ASTNode) (p : Parser) (h : p.Ahead (chainTokens Factor.tokens rest ++ ts)) :
    ∃ p1, termLoop node p = .ok (chainNode Factor.node node rest, p1) ∧ p1.Ahead ts := by
  induction rest generalizing node p with
  | nil => exact ⟨p, termLoop_stop_ahead node h hne hts.1 hts.2.1, h⟩
  | cons x rest ih =>
    have hx := hrest x (List.mem_cons_self _ _)
    have hrest1 : ∀ y ∈ rest, (y.1 = '*' ∨ y.1 = '/') ∧ y.2.WellFormed :=
      fun y hy => hrest y (List.mem_cons_of_mem _ hy)
    simp only [chainTokens, List.cons_append, List.append_assoc] at h
    obtain ⟨p1, he, hs⟩ := eat_ahead h (by simp [Factor.tokens])
    have hty : p.currentToken.type = (opToken x.1).type := by rw [h.1]
    have hsq : headType (chainTokens Factor.tokens rest ++ ts) ≠ .SQUARE :=
      headType_chain Factor.tokens rest ts (fun t => t ≠ .SQUARE)
        (fun y hy => (opToken_mul (hrest1 y hy).1).2.2.1) hts.2.2
    obtain ⟨p2, hf, hs2⟩ := parseFactor_ahead x.2 hx.2 _
      (chainTokens_append_ne_nil _ rest hne) hsq p1 hs
    obtain ⟨p3, hl, hs3⟩ := ih hrest1 (.BinaryOpNode x.1 node x.2.node) p2 hs2
    refine ⟨p3, ?_, hs3⟩
    have hm := opToken_mul hx.1
    rw [termLoop_unfold, hty, if_pos hm.1, he]
    simp only [hf, hm.2.1]
    exact hl

theorem parseTerm_ahead (t : Term) (ht : t.WellFormed) (ts : List Token) (hne : ts ≠ [])
    (hts : headType ts ≠ .MULTIPLY ∧ headType ts ≠ .DIVIDE ∧ headType ts ≠ .SQUARE)
    (p : Parser) (h : p.Ahead (t.tokens ++ ts)) :
    ∃ p1, p.parseTerm = .ok (t.node, p1) ∧ p1.Ahead ts := by
  simp only [Term.tokens, List.append_assoc] at h
  have hsq : headType (chainTokens Factor.tokens t.more ++ ts) ≠ .SQUARE :=
    headType_chain Factor.tokens t.more ts (fun t => t ≠ .SQUARE)
      (fun y hy => (opToken_mul (ht.2 y hy).1).2.2.1) hts.2.2
  obtain ⟨p1, hf, hs⟩ := parseFactor_ahead t.first ht.1 _
    (chainTokens_append_ne_nil _ t.more hne) hsq p h
  obtain ⟨p2, hl, hs2⟩ := termLoop_chain_ahead t.more ht.2 ts hne hts t.first.node p1 hs
  refine ⟨p2, ?_, hs2⟩
  rw [parseTerm_eq, hf]
  exact hl

/-! ### A token that starts no factor -/

theorem parseFactor_bad {p : Parser} (h1 : p.currentToken.type ≠ .NUMBER)
    (h2 : p.currentToken.type ≠ .IDENTIFIER) : p.parseFactor = .error factorError := by
  unfold parseFactor
  rw [if_neg h1, if_neg h2]
  rfl

theorem parseTerm_bad_start {p : Parser} (h1 : p.currentToken.type ≠ .NUMBER)
    (h2 : p.currentToken.type ≠ .IDENTIFIER) : p.parseTerm = .error factorError := by
  rw [parseTerm_eq, parseFactor_bad h1 h2]

theorem parseExpr_bad_start {p : Parser} (h1 : p.currentToken.type ≠ .NUMBER)
    (h2 : p.currentToken.type ≠ .IDENTIFIER) : p.parseExpr = .error factorError := by
  rw [parseExpr_eq, parseTerm_bad_start h1 h2]

theorem termLoop_bad (rest : List (Char × Factor))
    (hrest : ∀ x ∈ rest, (x.1 = '*' ∨ x.1 = '/') ∧ x.2.WellFormed) (op : Char)
    (hop : op = '*' ∨ op = '/') (bad : Token) (h1 : bad.type ≠ .NUMBER)
    (h2 : bad.type ≠ .IDENTIFIER) (node : ASTNode) (p : Parser)
    (h : p.Ahead (chainTokens Factor.tokens rest ++ [opToken op, bad])) :
    termLoop node p = .error factorError := by
  induction rest generalizing node p with
  | nil =>
    simp only [chainTokens, List.nil_append] at h
    obtain ⟨p1, he, hs⟩ := eat_ahead h (by simp)
    have hty : p.currentToken.type = (opToken op).type := by rw [h.1]
    have hb : p1.currentToken = bad := hs.1
    have hm := opToken_mul hop
    rw [termLoop_unfold, hty, if_pos hm.1, he]
    simp only [parseFactor_bad (p := p1) (by rw [hb]; exact h1) (by rw [hb]; exact h2)]
  | cons x rest ih =>
    have hx := hrest x (List.mem_cons_self _ _)
    have hrest1 : ∀ y ∈ rest, (y.1 = '*' ∨ y.1 = '/') ∧ y.2.WellFormed :=
      fun y hy => hrest y (List.mem_cons_of_mem _ hy)
    simp only [chainTokens, List.cons_append, List.append_assoc] at h
    obtain ⟨p1, he, hs⟩ := eat_ahead h (by simp [Factor.tokens])
    have hty : p.currentToken.type = (opToken x.1).type := by rw [h.1]
    have hsq : headType (chainTokens Factor.tokens rest ++ [opToken op, bad]) ≠ .SQUARE :=
      headType_chain Factor.tokens rest _ (fun t => t ≠ .SQUARE)
        (fun y hy => (opToken_mul (hrest1 y hy).1).2.2.1) (opToken_mul hop).2.2.1
    obtain ⟨p2, hf, hs2⟩ := parseFactor_ahead x.2 hx.2 _
      (chainTokens_append_ne_nil _ rest (by simp)) hsq p1 hs
    have hm := opToken_mul hx.1
    rw [termLoop_unfold, hty, if_pos hm.1, he]
    simp only [hf, hm.2.1]
    exact ih hrest1 _ p2 hs2

theorem parseTerm_bad (t : Term) (ht : t.WellFormed) (op : Char) (hop : op = '*' ∨ op = '/')
    (bad : Token) (h1 : bad.type ≠ .NUMBER) (h2 : bad.type ≠ .IDENTIFIER) (p : Parser)
    (h : p.Ahead (t.tokens ++ [opToken op, bad])) : p.parseTerm = .error factorError := by
  simp only [Term.tokens, List.append_assoc] at h
  have hsq : headType (chainTokens Factor.tokens t.more ++ [opToken op, bad]) ≠ .SQUARE :=
    headType_chain Factor.tokens t.more _ (fun t => t ≠ .SQUARE)
      (fun y hy => (opToken_mul (ht.2 y hy).1).2.2.1) (opToken_mul hop).2.2.1
  obtain ⟨p1, hf, hs⟩ := parseFactor_ahead t.first ht.1 _
    (chainTokens_append_ne_nil _ t.more (by simp)) hsq p h
  rw [parseTerm_eq, hf]
  exact termLoop_bad t.more ht.2 op hop bad h1 h2 _ p1 hs

end Parser

namespace Parser

theorem exprLoop_bad_add (rest : List (Char × Term))
    (hrest : ∀ x ∈ rest, (x.1 = '+' ∨ x.1 = '-') ∧ x.2.WellFormed) (op : Char)
    (hop : op = '+' ∨ op = '-') (bad : Token) (h1 : bad.type ≠ .NUMBER)
    (h2 : bad.type ≠ .IDENTIFIER) (node : ASTNode) (p : Parser)
    (h : p.Ahead (chainTokens Term.tokens rest ++ [opToken op, bad])) :
    exprLoop node p = .error factorError := by
  induction rest generalizing node p with
  | nil =>
    simp only [chainTokens, List.nil_append] at h
    obtain ⟨p1, he, hs⟩ := eat_ahead h (by simp)
    have hty : p.currentToken.type = (opToken op).type := by rw [h.1]
    have hb : p1.currentToken = bad := hs.1
    have hm := opToken_add hop
    rw [exprLoop_unfold, hty, if_pos hm.1, he]
    simp only [parseTerm_bad_start (p := p1) (by rw [hb]; exact h1) (by rw [hb]; exact h2)]
  | cons x rest ih =>
    have hx := hrest x (List.mem_cons_self _ _)
    have hrest1 : ∀ y ∈ rest, (y.1 = '+' ∨ y.1 = '-') ∧ y.2.WellFormed :=
      fun y hy => hrest y (List.mem_cons_of_mem _ hy)
    simp only [chainTokens, List.cons_append, List.append_assoc] at h
    obtain ⟨p1, he, hs⟩ := eat_ahead h (by simp [Term.tokens, Factor.tokens])
    have hty : p.currentToken.type = (opToken x.1).type := by rw [h.1]
    have hnext : headType (chainTokens Term.tokens rest ++ [opToken op, bad]) ≠ .MULTIPLY ∧
        headType (chainTokens Term.tokens rest ++ [opToken op, bad]) ≠ .DIVIDE ∧
        headType (chainTokens Term.tokens rest ++ [opToken op, bad]) ≠ .SQUARE :=
      headType_chain Term.tokens rest _
        (fun t => t ≠ .MULTIPLY ∧ t ≠ .DIVIDE ∧ t ≠ .SQUARE)
        (fun y hy =>
          have := opToken_add (hrest1 y hy).1
          ⟨this.2.2.2.1, this.2.2.2.2, this.2.2.1⟩)
        (by
          have := opToken_add hop
          exact ⟨this.2.2.2.1, this.2.2.2.2, this.2.2.1⟩)
    obtain ⟨p2, hf, hs2⟩ := parseTerm_ahead x.2 hx.2 _
      (chainTokens_append_ne_nil _ rest (by simp)) hnext p1 hs
    have hm := opToken_add hx.1
    rw [exprLoop_unfold, hty, if_pos hm.1, he]
    simp only [hf, hm.2.1]
    exact ih hrest1 _ p2 hs2

theorem exprLoop_bad_mul (rest : List (Char × Term))
    (hrest : ∀ x ∈ rest, (x.1 = '+' ∨ x.1 = '-') ∧ x.2.WellFormed) (hne : rest ≠ [])
    (op : Char) (hop : op = '*' ∨ op = '/') (bad : Token) (h1 : bad.type ≠ .NUMBER)
    (h2 : bad.type ≠ .IDENTIFIER) (node : ASTNode) (p : Parser)
    (h : p.Ahead (chainTokens Term.tokens rest ++ [opToken op, bad])) :
    exprLoop node p = .error factorError := by
  induction rest generalizing node p with
  | nil => exact absurd rfl hne
  | cons x rest ih =>
    have hx := hrest x (List.mem_cons_self _ _)
    have hrest1 : ∀ y ∈ rest, (y.1 = '+' ∨ y.1 = '-') ∧ y.2.WellFormed :=
      fun y hy => hrest y (List.mem_cons_of_mem _ hy)
    simp only [chainTokens, List.cons_append, List.append_assoc] at h
    obtain ⟨p1, he, hs⟩ := eat_ahead h (by simp [Term.tokens, Factor.tokens])
    have hty : p.currentToken.type = (opToken x.1).type := by rw [h.1]
    have hm := opToken_add hx.1
    rw [exprLoop_unfold, hty, if_pos hm.1, he]
    cases rest with
    | nil =>
      simp only [chainTokens, List.nil_append] at hs
      simp only [parseTerm_bad x.2 hx.2 op hop bad h1 h2 p1 hs]
    | cons y rest =>
      have hy := hrest1 y (List.mem_cons_self _ _)
      have hnext : headType (chainTokens Term.tokens (y :: rest) ++ [opToken op, bad]) ≠
            .MULTIPLY ∧
          headType (chainTokens Term.tokens (y :: rest) ++ [opToken op, bad]) ≠ .DIVIDE ∧
          headType (chainTokens Term.tokens (y :: rest) ++ [opToken op, bad]) ≠ .SQUARE := by
        have := opToken_add hy.1
        exact ⟨this.2.2.2.1, this.2.2.2.2, this.2.2.1⟩
      obtain ⟨p2, hf, hs2⟩ := parseTerm_ahead x.2 hx.2 _
        (chainTokens_append_ne_nil _ (y :: rest) (by simp)) hnext p1 hs
      simp only [hf, hm.2.1]
      exact ih hrest1 (by simp) _ p2 hs2

/-- After a well-formed expression and an operator, a token that starts no
factor makes `parseExpr` throw. -/
theorem parseExpr_bad (e : Expr) (he : e.WellFormed) (op : Char)
    (hop : op = '+' ∨ op = '-' ∨ op = '*' ∨ op = '/') (bad : Token)
    (h1 : bad.type ≠ .NUMBER) (h2 : bad.type ≠ .IDENTIFIER) (p : Parser)
    (h : p.Ahead (e.tokens ++ [opToken op, bad])) : p.parseExpr = .error factorError := by
  simp only [Expr.tokens, List.append_assoc] at h
  by_cases hadd : op = '+' ∨ op = '-'
  · have hnext : headType (chainTokens Term.tokens e.more ++ [opToken op, bad]) ≠ .MULTIPLY ∧
        headType (chainTokens Term.tokens e.more ++ [opToken op, bad]) ≠ .DIVIDE ∧
        headType (chainTokens Term.tokens e.more ++ [opToken op, bad]) ≠ .SQUARE :=
      headType_chain Term.tokens e.more _
        (fun t => t ≠ .MULTIPLY ∧ t ≠ .DIVIDE ∧ t ≠ .SQUARE)
        (fun y hy =>
          have := opToken_add (he.2 y hy).1
          ⟨this.2.2.2.1, this.2.2.2.2, this.2.2.1⟩)
        (by
          have := opToken_add hadd
          exact ⟨this.2.2.2.1, this.2.2.2.2, this.2.2.1⟩)
    obtain ⟨p1, hf, hs⟩ := parseTerm_ahead e.first he.1 _
      (chainTokens_append_ne_nil _ e.more (by simp)) hnext p h
    rw [parseExpr_eq, hf]
    exact exprLoop_bad_add e.more he.2 op hadd bad h1 h2 _ p1 hs
  · have hmul : op = '*' ∨ op = '/' := by
      rcases hop with h | h | h | h
      · exact absurd (Or.inl h) hadd
      · exact absurd (Or.inr h) hadd
      · exact Or.inl h
      · exact Or.inr h
    cases hm : e.more with
    | nil =>
      rw [hm] at h
      simp only [chainTokens, List.nil_append] at h
      rw [parseExpr_eq, parseTerm_bad e.first he.1 op hmul bad h1 h2 p h]
    | cons y rest =>
      have hmore := he.2
      rw [hm] at h hmore
      have hy := hmore y (List.mem_cons_self _ _)
      have hnext : headType (chainTokens Term.tokens (y :: rest) ++ [opToken op, bad]) ≠
            .MULTIPLY ∧
          headType (chainTokens Term.tokens (y :: rest) ++ [opToken op, bad]) ≠ .DIVIDE ∧
          headType (chainTokens Term.tokens (y :: rest) ++ [opToken op, bad]) ≠ .SQUARE := by
        have := opToken_add hy.1
        exact ⟨this.2.2.2.1, this.2.2.2.2, this.2.2.1⟩
      obtain ⟨p1, hf, hs⟩ := parseTerm_ahead e.first he.1 _
        (chainTokens_append_ne_nil _ (y :: rest) (by simp)) hnext p h
      rw [parseExpr_eq, hf]
      exact exprLoop_bad_mul (y :: rest) hmore (by simp) op hmul bad h1 h2 _ p1 hs

theorem new_ahead (s : String) (t : Token) (ts : List Token) (h : LexPre s.data (t :: ts)) :
    ∃ p, Parser.new (Lexer.new s) = .ok p ∧ p.Ahead (t :: ts) := by
  obtain ⟨r2, hl, hpre⟩ := h
  have hs := Lexer.getNextToken_spec (Lexer.new s)
  have hrest : (Lexer.new s).rest = s.data := by simp [Lexer.rest, Lexer.new]
  rw [hrest, hl] at hs
  obtain ⟨l1, h1, _, h3⟩ := hs
  refine ⟨⟨l1, t⟩, ?_, rfl, ?_⟩
  · unfold Parser.new
    rw [h1]
  · show LexPre l1.rest ts
    rw [h3]
    exact hpre

/-- After the identifier and the ASSIGN of an assignment, `parse` hands the
rest to `parseExpr`; an error of `parseExpr` is the error of `parse`. -/
theorem parse_assign_error {p : Parser} {name : String} {ts : List Token} {e : Exn}
    (hne : ts ≠ []) (h : p.Ahead (⟨.IDENTIFIER, name⟩ :: ⟨.ASSIGN, ""⟩ :: ts))
    (hx : ∀ p2 : Parser, p2.Ahead ts → p2.parseExpr = .error e) : p.parse = .error e := by
  obtain ⟨p1, he, hs⟩ := eat_ahead h (by simp)
  have he1 : p.eat .IDENTIFIER = .ok p1 := he
  obtain ⟨p2, he2, hs2⟩ := eat_ahead hs hne
  have he3 : p1.eat .ASSIGN = .ok p2 := he2
  have hty : p.currentToken.type = .IDENTIFIER := by rw [h.1]
  have hty1 : p1.currentToken.type = .ASSIGN := by rw [hs.1]
  unfold parse
  rw [if_pos hty, he1]
  simp only [hty1, if_true, he3, hx p2 hs2]

end Parser

/-- C17: when the token at the start of a statement, the token after the
ASSIGN of an assignment, or the token after a well-formed expression and an
operator `+ - * /` is neither NUMBER nor IDENTIFIER, `parse` throws the runtime
error "Unexpected token in factor" and returns no tree; so it does on the
empty input, "1 +", "* 2" and "x = ". -/
theorem C17_factor_required (input : String) (bad : Token) (h1 : bad.type ≠ .NUMBER)
    (h2 : bad.type ≠ .IDENTIFIER) :
    (LexPre input.data [bad] →
        parseInput input = .error (.runtime_error "Unexpected token in factor")) ∧
      (∀ name, LexPre input.data [⟨.IDENTIFIER, name⟩, ⟨.ASSIGN, ""⟩, bad] →
        parseInput input = .error (.runtime_error "Unexpected token in factor")) ∧
      (∀ (e : Expr) (op : Char), e.WellFormed → e.first.first.isNumber = true →
        op = '+' ∨ op = '-' ∨ op = '*' ∨ op = '/' →
        LexPre input.data (e.tokens ++ [opToken op, bad]) →
        parseInput input = .error (.runtime_error "Unexpected token in factor")) ∧
      (∀ (name : String) (e : Expr) (op : Char), e.WellFormed →
        op = '+' ∨ op = '-' ∨ op = '*' ∨ op = '/' →
        LexPre input.data
          (⟨.IDENTIFIER, name⟩ :: ⟨.ASSIGN, ""⟩ :: (e.tokens ++ [opToken op, bad])) →
        parseInput input = .error (.runtime_error "Unexpected token in factor")) ∧
      parseInput "" = .error (.runtime_error "Unexpected token in factor") ∧
      parseInput "1 +" = .error (.runtime_error "Unexpected token in factor") ∧
      parseInput "* 2" = .error (.runtime_error "Unexpected token in factor") ∧
      parseInput "x = " = .error (.runtime_error "Unexpected token in factor") := by
  refine ⟨?_, ?_, ?_, ?_, by decide, by decide, by decide, by decide⟩
  · intro h
    obtain ⟨p, hnew, hs⟩ := Parser.new_ahead input bad [] h
    have hb : p.currentToken = bad := hs.1
    unfold parseInput
    rw [hnew]
    simp only
    unfold Parser.parse
    rw [if_neg (by rw [hb]; exact h2)]
    exact Parser.parseExpr_bad_start (by rw [hb]; exact h1) (by rw [hb]; exact h2)
  · intro name h
    obtain ⟨p, hnew, hs⟩ := Parser.new_ahead input _ _ h
    unfold parseInput
    rw [hnew]
    simp only
    refine Parser.parse_assign_error (by simp) hs ?_
    intro p2 hp2
    have hb : p2.currentToken = bad := hp2.1
    exact Parser.parseExpr_bad_start (by rw [hb]; exact h1) (by rw [hb]; exact h2)
  · intro e op he hnum hop h
    cases htk : e.tokens ++ [opToken op, bad] with
    | nil => simp at htk
    | cons t ts =>
      rw [htk] at h
      obtain ⟨p, hnew, hs⟩ := Parser.new_ahead input t ts h
      rw [← htk] at hs
      have hty : p.currentToken.type = .NUMBER := by
        rw [Parser.ahead_type hs (by simp)]
        simp [Expr.tokens, Term.tokens, Factor.tokens, headType, hnum]
      unfold parseInput
      rw [hnew]
      simp only
      unfold Parser.parse
      rw [hty, if_neg (by decide)]
      exact Parser.parseExpr_bad e he op hop bad h1 h2 p hs
  · intro name e op he hop h
    obtain ⟨p, hnew, hs⟩ := Parser.new_ahead input _ _ h
    unfold parseInput
    rw [hnew]
    simp only
    exact Parser.parse_assign_error (by simp) hs
      (fun p2 hp2 => Parser.parseExpr_bad e he op hop bad h1 h2 p2 hp2)

/-- C17 at the input "1 + * 2", whose third token is MULTIPLY. -/
theorem C17_factor_required_witness :
    (⟨.MULTIPLY, ""⟩ : Token).type ≠ .NUMBER ∧
      LexPre "1 + * 2".data
        ((⟨⟨⟨true, ['1'], false⟩, []⟩, []⟩ : Expr).tokens ++
          [opToken '+', ⟨.MULTIPLY, ""⟩]) ∧
      parseInput "1 + * 2" = .error (.runtime_error "Unexpected token in factor") :=
  have hpre : LexPre "1 + * 2".data
      ((⟨⟨⟨true, ['1'], false⟩, []⟩, []⟩ : Expr).tokens ++ [opToken '+', ⟨.MULTIPLY, ""⟩]) :=
    ⟨" + * 2".data, by decide, " * 2".data, by decide, " 2".data, by decide, trivial⟩
  ⟨by decide, hpre,
    (C17_factor_required "1 + * 2" ⟨.MULTIPLY, ""⟩ (by decide) (by decide)).2.2.1
      ⟨⟨⟨true, ['1'], false⟩, []⟩, []⟩ '+'
      ⟨⟨by decide, fun x hx => by cases hx⟩, fun x hx => by cases hx⟩ rfl (Or.inl rfl) hpre⟩

/-! ## The emitted text as a program of the target machine -/

theorem progText_append (a b : List Instr) : progText (a ++ b) = progText a ++ progText b := by
  induction a with
  | nil => rfl
  | cons i a ih => simp [progText, ih]

theorem opInstr_text (op : Char) :
    Except.map String.data (opInstr op) = Except.map progText (opInstrs op) := by
  unfold opInstr opInstrs
  repeat' split
  all_goals rfl

/-- The text `toAssembly` returns is, line by line, the text of the
instructions of `emitInstrs`; both throw on the same trees. -/
theorem toAssembly_text (t : ASTNode) :
    Except.map String.data (toAssembly t) = Except.map progText (emitInstrs t) := by
  induction t with
  | NumberNode v =>
    simp only [toAssembly, emitInstrs, Except.map, progText, Instr.text, String.data_append]
  | VariableNode n =>
    simp only [toAssembly, emitInstrs, Except.map, progText, Instr.text, String.data_append]
    simp
  | AssignmentNode n v ih =>
    unfold toAssembly emitInstrs
    cases h1 : toAssembly v with
    | error e =>
      cases h2 : emitInstrs v with
      | error e2 => rw [h1, h2] at ih; exact ih
      | ok c2 => rw [h1, h2] at ih; cases ih
    | ok c =>
      cases h2 : emitInstrs v with
      | error e2 => rw [h1, h2] at ih; cases ih
      | ok c2 =>
        rw [h1, h2] at ih
        simp only [Except.map, Except.ok.injEq] at ih
        simp only [Except.map, String.data_append, ih, progText_append, progText, Instr.text]
        simp
  | SquareNode v ih =>
    unfold toAssembly emitInstrs
    cases h1 : toAssembly v with
    | error e =>
      cases h2 : emitInstrs v with
      | error e2 => rw [h1, h2] at ih; exact ih
      | ok c2 => rw [h1, h2] at ih; cases ih
    | ok c =>
      cases h2 : emitInstrs v with
      | error e2 => rw [h1, h2] at ih; cases ih
      | ok c2 =>
        rw [h1, h2] at ih
        simp only [Except.map, Except.ok.injEq] at ih
        simp only [Except.map, String.data_append, ih, progText_append, progText, Instr.text]
        rfl
  | BinaryOpNode op l r ihl ihr =>
    unfold toAssembly emitInstrs
    cases h1 : toAssembly r with
    | error e =>
      cases h2 : emitInstrs r with
      | error e2 => rw [h1, h2] at ihr; exact ihr
      | ok c2 => rw [h1, h2] at ihr; cases ihr
    | ok cr =>
      cases h2 : emitInstrs r with
      | error e2 => rw [h1, h2] at ihr; cases ihr
      | ok pr =>
        rw [h1, h2] at ihr
        simp only [Except.map, Except.ok.injEq] at ihr
        cases h3 : toAssembly l with
        | error e =>
          cases h4 : emitInstrs l with
          | error e2 => rw [h3, h4] at ihl; exact ihl
          | ok c2 => rw [h3, h4] at ihl; cases ihl
        | ok cl =>
          cases h4 : emitInstrs l with
          | error e2 => rw [h3, h4] at ihl; cases ihl
          | ok pl =>
            rw [h3, h4] at ihl
            simp only [Except.map, Except.ok.injEq] at ihl
            have ho := opInstr_text op
            cases h5 : opInstr op with
            | error e =>
              cases h6 : opInstrs op with
              | error e2 => rw [h5, h6] at ho; exact ho
              | ok c2 => rw [h5, h6] at ho; cases ho
            | ok ci =>
              cases h6 : opInstrs op with
              | error e2 => rw [h5, h6] at ho; cases ho
              | ok pi =>
                rw [h5, h6] at ho
                simp only [Except.map, Except.ok.injEq] at ho
                simp only [Except.map, String.data_append, ihl, ihr, ho, progText_append,
                  progText, Instr.text]
                simp

theorem exec_append (a b : List Instr) (m : Machine) :
    exec (a ++ b) m = match exec a m with
      | none => none
      | some m1 => exec b m1 := by
  induction a generalizing m with
  | nil => rfl
  | cons i a ih =>
    simp only [List.cons_append, exec]
    cases step i m with
    | none => rfl
    | some m1 => exact ih m1

theorem signed_word (x : Int) (h1 : -2147483648 ≤ x) (h2 : x ≤ 2147483647) :
    signed (word x) = x := by
  unfold signed word
  split <;> omega

theorem word_wrap32 (x : Int) : word (wrap32 x) = word x := by
  unfold word wrap32
  omega

theorem wrap32_range (x : Int) : -2147483648 ≤ wrap32 x ∧ wrap32 x ≤ 2147483647 := by
  unfold wrap32
  omega

theorem word_word (x : Int) : word (word x) = word x := by
  unfold word
  omega

theorem word_add (x y : Int) : word (word x + word y) = word (x + y) := by
  unfold word
  omega

theorem word_sub (x y : Int) : word (word x - word y) = word (x - y) := by
  unfold word
  omega

theorem evaluate_binary_value {op : Char} {l r : ASTNode} {s s1 : Store} {v : Int}
    (hl : noAssign l = true) (hr : noAssign r = true)
    (h : evaluate (.BinaryOpNode op l r) s = (.value v, s1)) :
    ∃ vl vr, evaluate l s = (.value vl, s) ∧ evaluate r s = (.value vr, s) ∧
      applyOp op vl vr = .value v ∧ s1 = s := by
  have h1 := evaluate_noAssign l s hl
  have h2 := evaluate_noAssign r s hr
  cases hel : evaluate l s with
  | mk o sl =>
    rw [hel] at h1
    simp only at h1
    subst h1
    cases her : evaluate r sl with
    | mk o2 sr =>
      rw [her] at h2
      simp only at h2
      subst h2
      cases o with
      | value vl =>
        cases o2 with
        | value vr =>
          simp only [evaluate, hel, her, Prod.mk.injEq] at h
          exact ⟨vl, vr, rfl, rfl, h.1, h.2.symm⟩
        | thrown e => simp [evaluate, hel, her] at h
        | trap => simp [evaluate, hel, her] at h
      | thrown e => simp [evaluate, hel] at h
      | trap => simp [evaluate, hel] at h

theorem evaluate_square_value {t : ASTNode} {s s1 : Store} {v : Int}
    (ht : noAssign t = true) (h : evaluate (.SquareNode t) s = (.value v, s1)) :
    ∃ val, evaluate t s = (.value val, s) ∧ v = wrap32 (val * val) ∧ s1 = s := by
  have h1 := evaluate_noAssign t s ht
  cases het : evaluate t s with
  | mk o st =>
    rw [het] at h1
    simp only at h1
    subst h1
    cases o with
    | value val =>
      simp only [evaluate, het, Prod.mk.injEq, Outcome.value.injEq] at h
      exact ⟨val, rfl, h.1.symm, h.2.symm⟩
    | thrown e => simp [evaluate, het] at h
    | trap => simp [evaluate, het] at h

theorem tdiv_range (vl vr : Int) (hl : -2147483648 ≤ vl ∧ vl ≤ 2147483647) (h0 : vr ≠ 0)
    (hov : ¬ (vl = -2147483648 ∧ vr = -1)) :
    -2147483648 ≤ Int.tdiv vl vr ∧ Int.tdiv vl vr ≤ 2147483647 := by
  have hab : (Int.tdiv vl vr).natAbs = vl.natAbs / vr.natAbs := Int.natAbs_tdiv vl vr
  by_cases h1 : vr = 1
  · subst h1
    rw [Int.tdiv_one]
    exact hl
  · by_cases h2 : vr = -1
    · subst h2
      have hneg : Int.tdiv vl (-1) = -vl := by
        rw [Int.tdiv_neg, Int.tdiv_one]
      rw [hneg]
      have : vl ≠ -2147483648 := fun h => hov ⟨h, rfl⟩
      omega
    · have h3 : 2 ≤ vr.natAbs := by omega
      have h4 : vl.natAbs / vr.natAbs ≤ vl.natAbs / 2 := Nat.div_le_div_left h3 (by decide)
      have h5 : vl.natAbs ≤ 2147483648 := by omega
      have h6 : (Int.tdiv vl vr).natAbs ≤ 1073741824 := by omega
      omega

/-- The instruction of a known operator, run with the word of the left value
in `eax` and the word of the right value in `ebx`, leaves the word of the
evaluator's result in `eax`, and stack and memory as they are. -/
theorem exec_opInstrs (op : Char) (vl vr v : Int) (hl : -2147483648 ≤ vl ∧ vl ≤ 2147483647)
    (hr : -2147483648 ≤ vr ∧ vr ≤ 2147483647) (ha : applyOp op vl vr = .value v)
    (hop : op = '+' ∨ op = '-' ∨ op = '*' ∨ op = '/') (m : Machine)
    (hax : m.eax = word vl) (hbx : m.ebx = word vr) :
    ∃ prog, opInstrs op = .ok prog ∧ (∀ i ∈ prog, GoodInstr i) ∧
      (-2147483648 ≤ v ∧ v ≤ 2147483647) ∧
      ∃ m1, exec prog m = some m1 ∧ m1.eax = word v ∧ m1.stack = m.stack ∧ m1.mem = m.mem := by
  rcases hop with h | h | h | h <;> subst h
  · simp only [applyOp, if_true, Outcome.value.injEq] at ha
    subst ha
    refine ⟨[.add], rfl, by simp [GoodInstr], wrap32_range _, _, rfl, ?_, rfl, rfl⟩
    show word (m.eax + m.ebx) = word (wrap32 (vl + vr))
    rw [hax, hbx, word_add, word_wrap32]
  · have ha1 : applyOp '-' vl vr = .value (wrap32 (vl - vr)) := by simp [applyOp]
    rw [ha1] at ha
    simp only [Outcome.value.injEq] at ha
    subst ha
    refine ⟨[.sub], rfl, by simp [GoodInstr], wrap32_range _, _, rfl, ?_, rfl, rfl⟩
    show word (m.eax - m.ebx) = word (wrap32 (vl - vr))
    rw [hax, hbx, word_sub, word_wrap32]
  · have ha1 : applyOp '*' vl vr = .value (wrap32 (vl * vr)) := by simp [applyOp]
    rw [ha1] at ha
    simp only [Outcome.value.injEq] at ha
    subst ha
    refine ⟨[.imul], rfl, by simp [GoodInstr], wrap32_range _, _, rfl, ?_, rfl, rfl⟩
    show word (signed m.eax * signed m.ebx) = word (wrap32 (vl * vr))
    rw [hax, hbx, signed_word vl hl.1 hl.2, signed_word vr hr.1 hr.2, word_wrap32]
  · have ha1 : applyOp '/' vl vr =
        if vr = 0 then .trap
        else if vl = -2147483648 ∧ vr = -1 then .trap else .value (Int.tdiv vl vr) := by
      simp [applyOp]
    rw [ha1] at ha
    by_cases h0 : vr = 0
    · rw [if_pos h0] at ha; cases ha
    · rw [if_neg h0] at ha
      by_cases hov : vl = -2147483648 ∧ vr = -1
      · rw [if_pos hov] at ha; cases ha
      · rw [if_neg hov] at ha
        simp only [Outcome.value.injEq] at ha
        subst ha
        have hq : -2147483648 ≤ Int.tdiv vl vr ∧ Int.tdiv vl vr ≤ 2147483647 :=
          tdiv_range vl vr hl h0 hov
        have hs64 : signed64 (if m.eax < 2147483648 then 0 else 4294967295) m.eax = vl := by
          rw [hax]
          unfold signed64 word
          split <;> split <;> omega
        refine ⟨[.cdq, .idiv], rfl, by simp [GoodInstr], hq, ?_⟩
        have hsb : signed m.ebx = vr := by rw [hbx]; exact signed_word vr hr.1 hr.2
        simp only [exec, step, hsb, h0, if_false, hs64]
        rw [if_neg (by omega)]
        exact ⟨_, rfl, rfl, rfl, rfl⟩

theorem SlotsAgree_of_mem {m m1 : Machine} {s : Store} (h : SlotsAgree m s)
    (hm : m1.mem = m.mem) : SlotsAgree m1 s := by
  intro n x hx
  rw [hm]
  exact h n x hx

theorem exprShape_noAssign {t : ASTNode} (h : exprShape t = true) : noAssign t = true :=
  (exprShape_parts t h).1

/-- The emitted code of an expression computes the evaluator's value: run on
a machine whose slots agree with the store, the instructions of a tree of
`exprShape` end with the word of the value in `eax` and with stack and memory
as at the start. -/
theorem exec_expr (e : ASTNode) (he : exprShape e = true) (s : Store) (hs : StoreOK s)
    (v : Int) (s1 : Store) (hev : evaluate e s = (.value v, s1)) :
    ∃ prog, emitInstrs e = .ok prog ∧ (∀ i ∈ prog, GoodInstr i) ∧
      (-2147483648 ≤ v ∧ v ≤ 2147483647) ∧ s1 = s ∧
      ∀ m, SlotsAgree m s →
        ∃ m1, exec prog m = some m1 ∧ m1.eax = word v ∧ m1.stack = m.stack ∧
          m1.mem = m.mem := by
  induction e generalizing v s1 with
  | NumberNode v0 =>
    simp only [exprShape, decide_eq_true_eq] at he
    simp only [evaluate, Prod.mk.injEq, Outcome.value.injEq] at hev
    obtain ⟨rfl, rfl⟩ := hev
    refine ⟨[.movImm v0], rfl, ?_, ⟨by omega, he.2⟩, rfl, ?_⟩
    · intro i hi
      rw [List.mem_singleton] at hi
      subst hi
      exact he.1
    · intro m _
      exact ⟨_, rfl, rfl, rfl, rfl⟩
  | VariableNode n =>
    simp only [exprShape, decide_eq_true_eq] at he
    cases hf : s.find n with
    | none => simp [evaluate, hf] at hev
    | some x =>
      simp only [evaluate, hf, Prod.mk.injEq, Outcome.value.injEq] at hev
      obtain ⟨rfl, rfl⟩ := hev
      refine ⟨[.load n], rfl, ?_, hs n x hf, rfl, ?_⟩
      · intro i hi
        rw [List.mem_singleton] at hi
        subst hi
        exact he
      · intro m hm
        exact ⟨_, rfl, hm n x hf, rfl, rfl⟩
  | AssignmentNode n t ih => simp [exprShape] at he
  | SquareNode t ih =>
    simp only [exprShape] at he
    have het := atomShape_exprShape he
    obtain ⟨val, hval, hv, hs1⟩ := evaluate_square_value (exprShape_noAssign het) hev
    obtain ⟨prog, hp, hg, hr, _, hx⟩ := ih het val s hval
    refine ⟨prog ++ [.square], by simp [emitInstrs, hp], ?_, ?_, hs1, ?_⟩
    · intro i hi
      rcases List.mem_append.mp hi with h | h
      · exact hg i h
      · rw [List.mem_singleton] at h
        subst h
        trivial
    · rw [hv]
      exact wrap32_range _
    · intro m hm
      obtain ⟨m1, h1, h2, h3, h4⟩ := hx m hm
      refine ⟨{ m1 with ebx := m1.eax, eax := word (signed m1.eax * signed m1.eax) }, ?_, ?_,
        h3, h4⟩
      · rw [exec_append, h1]
        rfl
      · show word (signed m1.eax * signed m1.eax) = word v
        rw [h2, signed_word val hr.1 hr.2, hv, word_wrap32]
  | BinaryOpNode op l r ihl ihr =>
    simp only [exprShape, Bool.and_eq_true, Bool.or_eq_true, decide_eq_true_eq] at he
    obtain ⟨⟨hop, hl⟩, hr⟩ := he
    have hop1 : op = '+' ∨ op = '-' ∨ op = '*' ∨ op = '/' := by tauto
    obtain ⟨vl, vr, hvl, hvr, ha, hs1⟩ :=
      evaluate_binary_value (exprShape_noAssign hl) (exprShape_noAssign hr) hev
    obtain ⟨pl, hpl, hgl, hrl, _, hxl⟩ := ihl hl vl s hvl
    obtain ⟨pr, hpr, hgr, hrr, _, hxr⟩ := ihr hr vr s hvr
    have hm0 : ∃ m0 : Machine, m0.eax = word vl ∧ m0.ebx = word vr :=
      ⟨⟨word vl, word vr, 0, [], fun _ => 0⟩, rfl, rfl⟩
    obtain ⟨m0, h0a, h0b⟩ := hm0
    obtain ⟨po, hpo, hgo, hrv, _⟩ := exec_opInstrs op vl vr v hrl hrr ha hop1 m0 h0a h0b
    refine ⟨pr ++ [.push] ++ pl ++ [.pop] ++ po, by simp [emitInstrs, hpl, hpr, hpo], ?_, hrv,
      hs1, ?_⟩
    · intro i hi
      simp only [List.mem_append, List.mem_singleton] at hi
      rcases hi with (((h | h) | h) | h) | h
      · exact hgr i h
      · subst h; trivial
      · exact hgl i h
      · subst h; trivial
      · exact hgo i h
    · intro m hm
      obtain ⟨m1, h1, h1a, h1s, h1m⟩ := hxr m hm
      obtain ⟨m2, h2, h2a, h2s, h2m⟩ := hxl { m1 with stack := m1.eax :: m1.stack }
        (SlotsAgree_of_mem hm h1m)
      have hpop : step .pop m2 = some { m2 with ebx := word vr, stack := m.stack } := by
        simp only [step, h2s, h1a, h1s]
      obtain ⟨po2, hpo2, _, _, m3, h3, h3a, h3s, h3m⟩ :=
        exec_opInstrs op vl vr v hrl hrr ha hop1
          { m2 with ebx := word vr, stack := m.stack } h2a rfl
      rw [hpo] at hpo2
      cases hpo2
      have e1 : exec [.push] m1 = some { m1 with stack := m1.eax :: m1.stack } := rfl
      have e2 : exec [.pop] m2 = some { m2 with ebx := word vr, stack := m.stack } := by
        show (match step .pop m2 with
          | none => none
          | some m4 => exec [] m4) = _
        rw [hpop]
        rfl
      refine ⟨m3, ?_, h3a, h3s, ?_⟩
      · rw [exec_append, exec_append, exec_append, exec_append, h1]
        simp only [e1, h2, e2, h3]
      · rw [h3m]
        show m2.mem = m.mem
        rw [h2m]
        exact h1m

/-- The emitted code of a parsed statement computes the evaluator's value and
store. -/
theorem exec_stmt (t : ASTNode) (ht : stmtShape t = true) (s : Store) (hs : StoreOK s)
    (v : Int) (s1 : Store) (hev : evaluate t s = (.value v, s1)) :
    ∃ prog, emitInstrs t = .ok prog ∧ (∀ i ∈ prog, GoodInstr i) ∧
      ∀ m, SlotsAgree m s →
        ∃ m1, exec prog m = some m1 ∧ m1.eax = word v ∧ m1.stack = m.stack ∧
          SlotsAgree m1 s1 := by
  have hexpr : ∀ e, exprShape e = true → evaluate e s = (.value v, s1) →
      ∃ prog, emitInstrs e = .ok prog ∧ (∀ i ∈ prog, GoodInstr i) ∧
        ∀ m, SlotsAgree m s →
          ∃ m1, exec prog m = some m1 ∧ m1.eax = word v ∧ m1.stack = m.stack ∧
            SlotsAgree m1 s1 := by
    intro e he hev1
    obtain ⟨prog, hp, hg, _, hs1, hx⟩ := exec_expr e he s hs v s1 hev1
    refine ⟨prog, hp, hg, fun m hm => ?_⟩
    obtain ⟨m1, h1, h2, h3, h4⟩ := hx m hm
    exact ⟨m1, h1, h2, h3, by rw [hs1]; exact SlotsAgree_of_mem hm h4⟩
  cases t with
  | AssignmentNode n e =>
    simp only [stmtShape, Bool.and_eq_true, decide_eq_true_eq] at ht
    cases hee : evaluate e s with
    | mk o se =>
      cases o with
      | value val =>
        simp only [evaluate, hee, Prod.mk.injEq, Outcome.value.injEq] at hev
        obtain ⟨rfl, rfl⟩ := hev
        obtain ⟨prog, hp, hg, _, hs1, hx⟩ := exec_expr e ht.2 s hs val se hee
        subst hs1
        refine ⟨prog ++ [.store n], by simp [emitInstrs, hp], ?_, ?_⟩
        · intro i hi
          rcases List.mem_append.mp hi with h | h
          · exact hg i h
          · rw [List.mem_singleton] at h
            subst h
            exact ht.1
        · intro m hm
          obtain ⟨m1, h1, h2, h3, h4⟩ := hx m hm
          refine ⟨{ m1 with mem := fun k => if k = n then m1.eax else m1.mem k }, ?_, h2, h3,
            ?_⟩
          · rw [exec_append, h1]
            rfl
          · intro k x hk
            show (if k = n then m1.eax else m1.mem k) = word x
            by_cases hkn : k = n
            · subst hkn
              simp only [Store.assign, Store.find, if_true, Option.some.injEq] at hk
              rw [if_pos rfl, h2, hk]
            · simp only [Store.assign, Store.find, hkn, if_false] at hk
              rw [if_neg hkn, h4]
              exact hm k x hk
      | thrown x => simp [evaluate, hee] at hev
      | trap => simp [evaluate, hee] at hev
  | NumberNode v0 => exact hexpr _ ht hev
  | VariableNode n => exact hexpr _ ht hev
  | SquareNode e => exact hexpr _ ht hev
  | BinaryOpNode op l r => exact hexpr _ ht hev

/-! ### Reading the emitted text back -/

theorem stripPre_append (a r : List Char) : stripPre a (a ++ r) = some r := by
  induction a with
  | nil => cases r <;> rfl
  | cons c a ih => simp [stripPre, ih]

theorem stripPre_append_both (a b r : List Char) : stripPre (a ++ b) (a ++ r) = stripPre b r := by
  induction a with
  | nil => rfl
  | cons c a ih => simp [stripPre, ih]

theorem splitLines_line (l rest cur : List Char) (h : '\n' ∉ l) :
    splitLines (l ++ '\n' :: rest) cur = (cur ++ l) :: splitLines rest [] := by
  induction l generalizing cur with
  | nil => simp [splitLines]
  | cons c l ih =>
    have hc : c ≠ '\n' := fun hc => h (by rw [hc]; exact List.mem_cons_self _ _)
    have hl : '\n' ∉ l := fun hl => h (List.mem_cons_of_mem _ hl)
    have e : splitLines (c :: (l ++ '\n' :: rest)) cur =
        splitLines (l ++ '\n' :: rest) (cur ++ [c]) := by
      simp only [splitLines, hc, if_false]
    rw [List.cons_append, e, ih (cur ++ [c]) hl]
    simp

theorem digitChar_digit (k : Nat) (h : k < 10) :
    Lexer.isdigit (Nat.digitChar k) = true ∧ digitValue (Nat.digitChar k) = k := by
  interval_cases k <;> decide

theorem decimalValue_foldl (a : Nat) (ds : List Char) :
    List.foldl (fun acc c => 10 * acc + digitValue c) a ds =
      a * 10 ^ ds.length + decimalValue ds := by
  induction ds generalizing a with
  | nil => simp [decimalValue]
  | cons d ds ih =>
    unfold decimalValue
    simp only [List.foldl_cons, List.length_cons]
    rw [ih (10 * a + digitValue d), ih (10 * 0 + digitValue d)]
    ring

theorem decimalValue_cons (d : Char) (ds : List Char) :
    decimalValue (d :: ds) = digitValue d * 10 ^ ds.length + decimalValue ds := by
  unfold decimalValue
  simp only [List.foldl_cons]
  rw [decimalValue_foldl]
  unfold decimalValue
  ring

theorem toDigitsCore_spec (fuel n : Nat) (ds : List Char) (hn : n < fuel)
    (hds : ∀ c ∈ ds, Lexer.isdigit c = true) :
    Nat.toDigitsCore 10 fuel n ds ≠ [] ∧
      (∀ c ∈ Nat.toDigitsCore 10 fuel n ds, Lexer.isdigit c = true) ∧
      decimalValue (Nat.toDigitsCore 10 fuel n ds) = n * 10 ^ ds.length + decimalValue ds := by
  induction fuel generalizing n ds with
  | zero => omega
  | succ fuel ih =>
    have hd := digitChar_digit (n % 10) (Nat.mod_lt _ (by decide))
    have hds1 : ∀ c ∈ Nat.digitChar (n % 10) :: ds, Lexer.isdigit c = true := by
      intro c hc
      rcases List.mem_cons.mp hc with h | h
      · rw [h]; exact hd.1
      · exact hds c h
    unfold Nat.toDigitsCore
    dsimp only
    split
    · rename_i h0
      refine ⟨by simp, hds1, ?_⟩
      rw [decimalValue_cons, hd.2]
      have : n % 10 = n := by omega
      rw [this]
    · rename_i h0
      have hlt : n / 10 < fuel := by omega
      obtain ⟨h1, h2, h3⟩ := ih (n / 10) (Nat.digitChar (n % 10) :: ds) hlt hds1
      refine ⟨h1, h2, ?_⟩
      rw [h3, decimalValue_cons, hd.2, List.length_cons, pow_succ]
      have hdm := Nat.div_add_mod n 10
      have e : n * 10 ^ ds.length = (10 * (n / 10) + n % 10) * 10 ^ ds.length := by rw [hdm]
      rw [e]
      ring

/-- The decimal numeral of a natural number is a non-empty run of digits that
writes the number. -/
theorem toDigits_spec (n : Nat) :
    Nat.toDigits 10 n ≠ [] ∧ (∀ c ∈ Nat.toDigits 10 n, Lexer.isdigit c = true) ∧
      decimalValue (Nat.toDigits 10 n) = n := by
  have h := toDigitsCore_spec (n + 1) n [] (by omega) (by intro c hc; cases hc)
  unfold Nat.toDigits
  refine ⟨h.1, h.2.1, ?_⟩
  rw [h.2.2]
  simp [decimalValue]

theorem isdigit_plain {c : Char} (h : Lexer.isdigit c = true) :
    c ≠ '\n' ∧ c ≠ ']' ∧ c ≠ '[' ∧ c ≠ '-' := by
  refine ⟨?_, ?_, ?_, ?_⟩ <;> intro hc <;> subst hc <;> revert h <;> decide

theorem isalnum_plain {c : Char} (h : Lexer.isalnum c = true) : c ≠ '\n' ∧ c ≠ ']' := by
  refine ⟨?_, ?_⟩ <;> intro hc <;> subst hc <;> revert h <;> decide

theorem IsName_alnum {cs : List Char} (h : IsName cs) : ∀ c ∈ cs, Lexer.isalnum c = true := by
  cases cs with
  | nil => exact absurd h (fun h => h)
  | cons d tl =>
    obtain ⟨hd, htl⟩ := h
    intro c hc
    rcases List.mem_cons.mp hc with h1 | h1
    · rw [h1]; exact (isalpha_not_blank hd).2.2.2
    · exact htl c h1

theorem takeWhile_bracket (l r : List Char) (h : ∀ c ∈ l, c ≠ ']') :
    (l ++ ']' :: r).takeWhile (fun c => c != ']') = l ∧
      (l ++ ']' :: r).dropWhile (fun c => c != ']') = ']' :: r := by
  induction l with
  | nil => simp [List.takeWhile, List.dropWhile]
  | cons c l ih =>
    have hc : c ≠ ']' := h c (List.mem_cons_self _ _)
    have ih1 := ih (fun d hd => h d (List.mem_cons_of_mem _ hd))
    have hb : (c != ']') = true := by simp [hc]
    rw [List.cons_append, List.takeWhile_cons, List.dropWhile_cons]
    simp only [hb, if_true, ih1.1, ih1.2, and_self]

theorem readInt_toDigits (n : Nat) : readInt (Nat.toDigits 10 n) = some (n : Int) := by
  obtain ⟨h1, h2, h3⟩ := toDigits_spec n
  cases hd : Nat.toDigits 10 n with
  | nil => exact absurd hd h1
  | cons c ds =>
    rw [hd] at h2 h3
    have hc : c ≠ '-' := (isdigit_plain (h2 c (List.mem_cons_self _ _))).2.2.2
    show (if c = '-' then _
      else if (∀ x ∈ c :: ds, Lexer.isdigit x = true) then some (decimalValue (c :: ds) : Int)
      else none) = _
    rw [if_neg hc, if_pos h2, h3]

theorem decodeLine_movImm (n : Nat) :
    decodeLine (Instr.text (.movImm (n : Int))) = some (.movImm (n : Int)) := by
  obtain ⟨h1, h2, _⟩ := toDigits_spec n
  have ht : Instr.text (.movImm (n : Int)) = "    mov eax, ".data ++ Nat.toDigits 10 n := rfl
  rw [ht]
  have hr := readInt_toDigits n
  cases hd : Nat.toDigits 10 n with
  | nil => exact absurd hd h1
  | cons c ds =>
    rw [hd] at h2 hr
    have hc : c ≠ '[' := (isdigit_plain (h2 c (List.mem_cons_self _ _))).2.2.1
    have hc1 : ¬ '[' = c := fun h => hc h.symm
    simp [decodeLine, stripPre, hc1, hr]

theorem decodeLine_load (name : String) (h : IsName name.data) :
    decodeLine (Instr.text (.load name)) = some (.load name) := by
  have hb : ∀ c ∈ name.data, c ≠ ']' := fun c hc => (isalnum_plain (IsName_alnum h c hc)).2
  obtain ⟨t1, t2⟩ := takeWhile_bracket name.data [] hb
  have ht : Instr.text (.load name) = "    mov eax, [".data ++ (name.data ++ [']']) :=
    List.append_assoc "    mov eax, [".data name.data [']']
  have e : stripPre "    mov eax, [".data (Instr.text (.load name)) = some (name.data ++ [']']) := by
    rw [ht]
    exact stripPre_append _ _
  unfold decodeLine
  rw [e]
  simp only [t1, t2, if_true]

theorem decodeLine_store (name : String) (h : IsName name.data) :
    decodeLine (Instr.text (.store name)) = some (.store name) := by
  have hb : ∀ c ∈ name.data, c ≠ ']' := fun c hc => (isalnum_plain (IsName_alnum h c hc)).2
  obtain ⟨t1, t2⟩ := takeWhile_bracket name.data ", eax".data hb
  have e0 : stripPre "    mov eax, [".data (Instr.text (.store name)) = none := by
    cases hn : name.data with
    | nil => rw [hn] at h; exact absurd h (fun h => h)
    | cons c tl =>
      show stripPre "    mov eax, [".data ("    mov [".data ++ name.data ++ "], eax".data) = none
      rw [hn]
      rfl
  have ht : Instr.text (.store name) = "    mov [".data ++ (name.data ++ ']' :: ", eax".data) :=
    List.append_assoc "    mov [".data name.data "], eax".data
  have e : stripPre "    mov [".data (Instr.text (.store name)) =
      some (name.data ++ ']' :: ", eax".data) := by
    rw [ht]
    exact stripPre_append _ _
  unfold decodeLine
  rw [e0]
  dsimp only
  rw [e]
  dsimp only
  rw [t1, t2]
  simp

/-- Reading back the line of an emitted instruction gives the instruction. -/
theorem decodeLine_text (i : Instr) (h : GoodInstr i) : decodeLine i.text = some i := by
  cases i with
  | movImm v =>
    obtain ⟨n, rfl⟩ := Int.eq_ofNat_of_zero_le h
    exact decodeLine_movImm n
  | load name => exact decodeLine_load name h
  | store name => exact decodeLine_store name h
  | push => decide
  | pop => decide
  | add => decide
  | sub => decide
  | imul => decide
  | cdq => decide
  | idiv => decide
  | square => decide

theorem text_no_newline (i : Instr) (h : GoodInstr i) : '\n' ∉ i.text := by
  cases i with
  | movImm v =>
    obtain ⟨n, rfl⟩ := Int.eq_ofNat_of_zero_le h
    obtain ⟨_, h2, _⟩ := toDigits_spec n
    have ht : Instr.text (.movImm (n : Int)) = "    mov eax, ".data ++ Nat.toDigits 10 n := rfl
    rw [ht, List.mem_append]
    rintro (hm | hm)
    · revert hm; decide
    · exact (isdigit_plain (h2 _ hm)).1 rfl
  | load name =>
    have hb : ∀ c ∈ name.data, c ≠ '\n' := fun c hc => (isalnum_plain (IsName_alnum h c hc)).1
    unfold Instr.text
    rw [List.mem_append, List.mem_append]
    rintro ((hm | hm) | hm)
    · revert hm; decide
    · exact hb _ hm rfl
    · revert hm; decide
  | store name =>
    have hb : ∀ c ∈ name.data, c ≠ '\n' := fun c hc => (isalnum_plain (IsName_alnum h c hc)).1
    unfold Instr.text
    rw [List.mem_append, List.mem_append]
    rintro ((hm | hm) | hm)
    · revert hm; decide
    · exact hb _ hm rfl
    · revert hm; decide
  | push => decide
  | pop => decide
  | add => decide
  | sub => decide
  | imul => decide
  | cdq => decide
  | idiv => decide
  | square => decide

/-- Reading back the text of emitted instructions gives the instructions. -/
theorem decode_progText (prog : List Instr) (h : ∀ i ∈ prog, GoodInstr i) :
    decodeLines (splitLines (progText prog) []) = some prog := by
  induction prog with
  | nil => rfl
  | cons i rest ih =>
    have hi := h i (List.mem_cons_self _ _)
    have ih1 := ih (fun j hj => h j (List.mem_cons_of_mem _ hj))
    unfold progText
    rw [splitLines_line _ _ _ (text_no_newline i hi), List.nil_append]
    unfold decodeLines
    rw [decodeLine_text i hi, ih1]

/-- C11: for every tree `parse` returns and every store of 32-bit values in
which `evaluate` returns a value, `toAssembly` returns a text, and running
that text on a machine whose slots hold the store ends, without a fault, with
`eax` equal to the value modulo 2^32, the stack as it was at the start, and
the slots holding the store left by the evaluation. -/
theorem C11_emitted_code_agrees (input : String) (tree : ASTNode) (p : Parser)
    (s s1 : Store) (v : Int) (m : Machine)
    (h : parseInput input = .ok (tree, p)) (hs : StoreOK s)
    (hev : evaluate tree s = (.value v, s1)) (hm : SlotsAgree m s) :
    ∃ code m1, toAssembly tree = .ok code ∧ runText code m = some m1 ∧
      m1.eax = word v ∧ m1.stack = m.stack ∧ SlotsAgree m1 s1 := by
  obtain ⟨prog, hp, hg, hx⟩ := exec_stmt tree (parseInput_shape h) s hs v s1 hev
  obtain ⟨m1, hrun, heax, hstack, hslots⟩ := hx m hm
  have ht := toAssembly_text tree
  rw [hp] at ht
  cases hc : toAssembly tree with
  | error e =>
    rw [hc] at ht
    cases ht
  | ok code =>
    rw [hc] at ht
    have hd : code.data = progText prog := by
      simp only [Except.map] at ht
      exact Except.ok.inj ht
    refine ⟨code, m1, rfl, ?_, heax, hstack, hslots⟩
    unfold runText decode
    rw [hd, decode_progText prog hg]
    exact hrun

/-- C11 at the input "y = x / 2 - 3 ^", in the store where x is 7: the
emitted text leaves the word of -6 in `eax`. -/
theorem C11_emitted_code_agrees_witness :
    ∃ code m1,
      toAssembly (.AssignmentNode "y" (.BinaryOpNode '-'
          (.BinaryOpNode '/' (.VariableNode "x") (.NumberNode 2))
          (.SquareNode (.NumberNode 3)))) = .ok code ∧
        runText code ⟨0, 0, 0, [], fun k => if k = "x" then 7 else 0⟩ = some m1 ∧
        m1.eax = word (-6) ∧ m1.stack = [] ∧
        SlotsAgree m1 ((Store.empty.assign "x" 7).assign "y" (-6)) :=
  C11_emitted_code_agrees "y = x / 2 - 3 ^"
    (.AssignmentNode "y" (.BinaryOpNode '-'
      (.BinaryOpNode '/' (.VariableNode "x") (.NumberNode 2))
      (.SquareNode (.NumberNode 3))))
    ⟨⟨"y = x / 2 - 3 ^".data, 15⟩, ⟨.END, ""⟩⟩
    (Store.empty.assign "x" 7) ((Store.empty.assign "x" 7).assign "y" (-6)) (-6)
    ⟨0, 0, 0, [], fun k => if k = "x" then 7 else 0⟩
    (by decide)
    (by
      intro n x hx
      unfold Store.find Store.assign Store.empty at hx
      split at hx
      · cases hx; omega
      · cases hx)
    (by rfl)
    (by
      intro n x hx
      unfold Store.find Store.assign Store.empty at hx
      split at hx
      · rename_i hn
        cases hx
        simp [hn, word]
      · cases hx)

end Compiler
